import Mathlib

/-!
Shallow embedding of the `sup-cli` process-supervisor daemon.

The embedded code is the `Daemon` class of the repository's daemon module
(the task+service variant: `topoSort`, `getTransitiveDeps`,
`startAllServices`, `runTask`, `startService`, `waitForReady`,
`handleExit`, `stopService`, `stopAllServices`, `runHealthChecks`,
`handleCommand`, `shutdown`) together with the configuration types of
`types.ts`.

Modelling conventions:
* JavaScript `Map`s (insertion ordered, unique keys) are association lists
  in declaration order; lookup returns the first binding.
* Child processes are abstracted to their pid (`process : Option Nat`);
  spawning, health probes and SIGTERM kills are recorded as events in an
  append-only event list, and the outcomes of external processes (exit
  codes, port probes, HTTP probes) are supplied by an `Oracle`.
* Wall-clock timestamps (`startedAt`, `completedAt`, `updatedAt`) and the
  log-file plumbing are abstracted away: no claim mentions them.
* `setTimeout` restart callbacks are a pending-timer list in the state; a
  separate small-step event (`DEvent.timerFire`) fires one of them, exactly
  as the callback body does (checking `shuttingDown` at fire time).
* The recursive `topoSort` / `getTransitiveDeps` are given explicit fuel
  for termination; the fuel bounds chosen are proved sufficient
  (`visitMany_no_fuel`, `gtdMany_no_fuel`), so the fuelled functions agree
  with the un-fuelled recursion of the source.
* Two granularities of interleaving: the big-step event system (`stepM`)
  serializes each client command into one atomic transition, while the
  finer-grained `mstep` exposes `runTask`'s intra-command suspension
  points (the dependency wait and the child-exit wait), where the source
  interleaves concurrent connections' commands.
-/

namespace Sup

inductive RestartPolicy
  | always
  | onFailure
  | never
deriving DecidableEq, Repr

inductive HealthCheck
  | http (url : String)
  | port (port : Nat)
  | none
deriving DecidableEq, Repr

/-- ServiceConfig from types.ts: name, command, cwd?, env?, healthCheck?,
dependsOn?, restartPolicy?, maxRestarts? (the `watch` field plays no role in
the daemon). Optional fields are `Option`s, as in the source. -/
structure ServiceConfig where
  name : String
  command : String
  cwd : Option String
  env : List (String × String)
  healthCheck : Option HealthCheck
  dependsOn : Option (List String)
  restartPolicy : Option RestartPolicy
  maxRestarts : Option Nat
deriving DecidableEq, Repr

/-- TaskConfig: name, command, cwd?, env?, dependsOn?. -/
structure TaskConfig where
  name : String
  command : String
  cwd : Option String
  env : List (String × String)
  dependsOn : Option (List String)
deriving DecidableEq, Repr

structure Config where
  tasks : List TaskConfig
  services : List ServiceConfig
deriving DecidableEq, Repr

inductive ServiceStatus
  | pending
  | starting
  | healthy
  | unhealthy
  | stopped
  | crashed
deriving DecidableEq, Repr

inductive TaskStatus
  | pending
  | running
  | completed
  | failed
deriving DecidableEq, Repr

structure ServiceState where
  status : ServiceStatus
  pid : Option Nat
  restarts : Nat
  lastError : Option String
deriving DecidableEq, Repr

structure TaskState where
  status : TaskStatus
  pid : Option Nat
  exitCode : Option Int
  lastError : Option String
deriving DecidableEq, Repr

/-- ManagedService = {config, process, state, logStream}; the `process`
handle is abstracted to the child's pid, the log stream is dropped. -/
structure ManagedService where
  config : ServiceConfig
  process : Option Nat
  state : ServiceState
deriving DecidableEq, Repr

structure ManagedTask where
  config : TaskConfig
  process : Option Nat
  state : TaskState
deriving DecidableEq, Repr

/-- Externally visible effects of the daemon, recorded in order. -/
inductive Ev
  | spawnTask (name : String)
  | spawnService (name : String)
  | probe (name : String) (hc : HealthCheck)
  | killPort (port : Nat)
  | kill (name : String)
deriving DecidableEq, Repr

/-- The daemon's mutable state: the two entity maps, the shutdown flag, the
pending `setTimeout` restart callbacks (name, delay ms), a pid source for
spawns, the `down`-command flag, and the event log. -/
structure DaemonSt where
  tasks : List (String × ManagedTask)
  services : List (String × ManagedService)
  shuttingDown : Bool
  downScheduled : Bool
  pendingRestarts : List (String × Nat)
  nextPid : Nat
  events : List Ev
deriving DecidableEq, Repr

/-- Association-list lookup, first binding wins (JS `Map.get`). -/
def alGet {β : Type} (l : List (String × β)) (k : String) : Option β :=
  match l with
  | [] => Option.none
  | (k', b) :: t => if k' = k then some b else alGet t k

/-- Association-list update in place (JS mutation of a `Map` value). -/
def alUpd {β : Type} (l : List (String × β)) (k : String) (b : β) : List (String × β) :=
  l.map (fun p => if p.1 = k then (k, b) else p)

/-- Outcome of the recursive `visit` of `topoSort`: either fuel ran out
(never happens at the chosen bound) or a circular dependency was detected. -/
inductive TopoErr
  | fuel
  | cycle (name : String)
deriving DecidableEq, Repr

/-- Message of the thrown `Error`. -/
def TopoErr.message : TopoErr → String
  | .fuel => "out of fuel"
  | .cycle n => "Circular dependency detected involving " ++ n

/-- The three mutable collections of `topoSort`: the `visited` set, the
`visiting` marker set (a stack: newest first), and the output array. -/
structure VisitSt where
  visited : List String
  visiting : List String
  result : List String
deriving DecidableEq, Repr

/-- The recursive `visit` of `topoSort`, processing a pending list of names
depth-first: skip if visited, error if currently visiting, otherwise mark
visiting, recurse into the dependencies, then unmark and append to the
output. `fuel` only forces termination. -/
def visitMany (deps : String → List String) : Nat → List String → VisitSt → Except TopoErr VisitSt
  | _, [], st => .ok st
  | 0, _ :: _, _ => .error .fuel
  | fuel + 1, name :: rest, st =>
    if name ∈ st.visited then
      visitMany deps fuel rest st
    else if name ∈ st.visiting then
      .error (.cycle name)
    else
      match visitMany deps fuel (deps name) { st with visiting := name :: st.visiting } with
      | .error e => .error e
      | .ok st2 =>
        visitMany deps fuel rest
          { visited := st2.visited ++ [name]
            visiting := st2.visiting.erase name
            result := st2.result ++ [name] }

/-- The recursive `visit` of `getTransitiveDeps`: for each pending
dependency not yet in the accumulated set, add it and recurse into its own
dependencies. Returns the accumulated set (insertion order). -/
def gtdMany (deps : String → List String) : Nat → List String → List String → Option (List String)
  | _, [], acc => some acc
  | 0, _ :: _, _ => Option.none
  | fuel + 1, d :: ds, acc =>
    if d ∈ acc then
      gtdMany deps fuel ds acc
    else
      match gtdMany deps fuel (deps d) (acc ++ [d]) with
      | Option.none => Option.none
      | some acc2 => gtdMany deps fuel ds acc2

/-- Dependency list of a name: `task?.config.dependsOn ??
svc?.config.dependsOn ?? []`. -/
def depsOfD (st : DaemonSt) (n : String) : List String :=
  match (alGet st.tasks n).bind (fun m => m.config.dependsOn) with
  | some l => l
  | Option.none =>
    match (alGet st.services n).bind (fun m => m.config.dependsOn) with
    | some l => l
    | Option.none => []

/-- Iteration order of `topoSort`: all task keys, then all service keys. -/
def rootsD (st : DaemonSt) : List String :=
  st.tasks.map Prod.fst ++ st.services.map Prod.fst

/-- Every name the dependency traversals can ever touch: the declared names
plus every name occurring in some dependency list. -/
def univD (st : DaemonSt) : List String :=
  rootsD st
    ++ st.tasks.flatMap (fun p => p.2.config.dependsOn.getD [])
    ++ st.services.flatMap (fun p => p.2.config.dependsOn.getD [])

/-- Fuel bound for `topoSort`, proved sufficient below. -/
def fuelBound (st : DaemonSt) : Nat :=
  (rootsD st).length + ((univD st).map (fun n => (depsOfD st n).length + 1)).sum

/-- Daemon.topoSort: depth-first topological sort over the union of task
and service dependency edges, visiting tasks first then services, each in
declared order. -/
def topoSortD (st : DaemonSt) : Except TopoErr (List String) :=
  match visitMany (depsOfD st) (fuelBound st) (rootsD st) ⟨[], [], []⟩ with
  | .error e => .error e
  | .ok vs => .ok vs.result

/-- Fuel bound for `getTransitiveDeps`, proved sufficient below. -/
def gtdBound (st : DaemonSt) (n : String) : Nat :=
  (depsOfD st n).length + ((univD st).map (fun m => (depsOfD st m).length + 1)).sum

/-- Daemon.getTransitiveDeps: the set of names reachable from `name` by one
or more dependency edges, in depth-first discovery order. -/
def getTransitiveDepsD (st : DaemonSt) (n : String) : List String :=
  (gtdMany (depsOfD st) (gtdBound st n) (depsOfD st n) []).getD []

/-- Outcomes of the external world: exit codes of task runs, exit codes
observed when a service is SIGTERMed by `stopService`, and the results of
port / HTTP health probes (a JS `null` exit code is `Option.none`). -/
structure Oracle where
  taskExit : String → Option Int
  stopExit : String → Option Int
  portInUse : Nat → Bool
  httpOk : String → Bool
  logExists : String → Bool

/-- Protocol response; the `data` payload of successful responses is
abstracted away (no claim inspects it). -/
structure Resp where
  ok : Bool
  error : Option String
deriving DecidableEq, Repr

/-- The wire-protocol command variants of types.ts. -/
inductive Command
  | status
  | start (service : Option String)
  | stop (service : Option String)
  | restart (service : Option String)
  | logs (service : String) (lines : Option Nat)
  | down
deriving DecidableEq, Repr

/-- String rendering of a JS exit code (`null` prints as "null"). -/
def codeStr : Option Int → String
  | some i => toString i
  | Option.none => "null"

def addEv (st : DaemonSt) (e : Ev) : DaemonSt :=
  { st with events := st.events ++ [e] }

def updSvc (st : DaemonSt) (name : String) (m : ManagedService) : DaemonSt :=
  { st with services := alUpd st.services name m }

def updTask (st : DaemonSt) (name : String) (m : ManagedTask) : DaemonSt :=
  { st with tasks := alUpd st.tasks name m }

def setSvcStatus (st : DaemonSt) (name : String) (s : ServiceStatus) : DaemonSt :=
  match alGet st.services name with
  | some m => updSvc st name { m with state := { m.state with status := s } }
  | Option.none => st

/-- Health of a single service's check if a poll ran now: absent or `none`
checks are healthy with no probe; port / HTTP ask the oracle. -/
def hcHealthy (o : Oracle) (c : ServiceConfig) : Bool :=
  match c.healthCheck with
  | Option.none => true
  | some .none => true
  | some (.port p) => o.portInUse p
  | some (.http u) => o.httpOk u

/-- Daemon.waitForReady (one big step): a completed task dependency is
ready, a failed one raises, a healthy service is ready. A spawned service
that a concurrently running health-check tick would mark healthy is awaited
to that state (the poll loop observing the tick); otherwise the ~30s poll
expires with a timeout error, since nothing else can change the state. -/
def waitForReadyM (o : Oracle) (name : String) (st : DaemonSt) : DaemonSt × Option String :=
  match alGet st.tasks name with
  | some t =>
    if t.state.status = .completed then (st, Option.none)
    else if t.state.status = .failed then (st, some ("Task " ++ name ++ " failed"))
    else (st, some ("Timeout waiting for " ++ name ++ " to become ready"))
  | Option.none =>
    match alGet st.services name with
    | some m =>
      if m.state.status = .healthy then (st, Option.none)
      else if m.process.isSome && hcHealthy o m.config then
        (setSvcStatus st name .healthy, Option.none)
      else (st, some ("Timeout waiting for " ++ name ++ " to become ready"))
    | Option.none => (st, some ("Timeout waiting for " ++ name ++ " to become ready"))

/-- The `for (const dep of config.dependsOn) await this.waitForReady(dep)`
loop shared by `runTask` and `startService`. -/
def waitDepsM (o : Oracle) : List String → DaemonSt → DaemonSt × Option String
  | [], st => (st, Option.none)
  | d :: ds, st =>
    match waitForReadyM o d st with
    | (st1, Option.none) => waitDepsM o ds st1
    | (st1, some e) => (st1, some e)

/-- Daemon.runTask: no-op when already completed or failed; an in-flight
run is awaited instead of double-spawning; otherwise wait for dependencies,
spawn, and settle completed / failed from the exit code (spawn failures are
subsumed into the failing-exit path). This is the big-step collapse of one
invocation running without interleaving; the source's suspension structure
(guards before the dependency wait, the spawn body only after it) is
modelled by `beginRunTask` / `advanceDeps` / `mstep` below. -/
def runTaskM (o : Oracle) (name : String) (st : DaemonSt) : DaemonSt × Option String :=
  match alGet st.tasks name with
  | Option.none => (st, some ("Unknown task: " ++ name))
  | some m =>
    if m.state.status = .completed ∨ m.state.status = .failed then (st, Option.none)
    else if m.process.isSome then waitForReadyM o name st
    else
      match waitDepsM o (m.config.dependsOn.getD []) st with
      | (st1, some e) => (st1, some e)
      | (st1, Option.none) =>
        let pid := st1.nextPid
        let running : TaskState := { m.state with status := .running, pid := some pid }
        let st2 := addEv
          { updTask st1 name { m with process := some pid, state := running } with nextPid := pid + 1 }
          (.spawnTask name)
        match o.taskExit name with
        | some 0 =>
          let done : TaskState :=
            { status := .completed, pid := Option.none, exitCode := some 0, lastError := m.state.lastError }
          (updTask st2 name { m with process := Option.none, state := done }, Option.none)
        | c =>
          let exitCode := match c with
            | some k => some k
            | Option.none => m.state.exitCode
          let done : TaskState :=
            { status := .failed, pid := Option.none, exitCode := exitCode,
              lastError := some ("Exit code " ++ codeStr c) }
          (updTask st2 name { m with process := Option.none, state := done },
           some ("Task " ++ name ++ " failed with exit code " ++ codeStr c))

/-- Daemon.startService: no-op when a process is already live; otherwise
wait for dependencies, clear a port-health-check port, spawn, and set the
state to starting. The child's exit arrives later as a `DEvent.exitEv`. -/
def startServiceM (o : Oracle) (name : String) (st : DaemonSt) : DaemonSt × Option String :=
  match alGet st.services name with
  | Option.none => (st, some ("Unknown service: " ++ name))
  | some m =>
    if m.process.isSome then (st, Option.none)
    else
      match waitDepsM o (m.config.dependsOn.getD []) st with
      | (st1, some e) => (st1, some e)
      | (st1, Option.none) =>
        let st1 := match m.config.healthCheck with
          | some (.port p) => addEv st1 (.killPort p)
          | _ => st1
        let pid := st1.nextPid
        let starting : ServiceState := { m.state with status := .starting, pid := some pid }
        (addEv
          { updSvc st1 name { m with process := some pid, state := starting } with nextPid := pid + 1 }
          (.spawnService name),
         Option.none)

/-- Daemon.handleExit: the restart-policy engine, run when a service's
child exits with `code`. -/
def handleExitM (name : String) (code : Option Int) (st : DaemonSt) : DaemonSt :=
  match alGet st.services name with
  | Option.none => st
  | some m0 =>
    let m := { m0 with process := Option.none
                       state := { m0.state with pid := Option.none } }
    if st.shuttingDown then
      updSvc st name { m with state := { m.state with status := .stopped } }
    else
      let policy := m.config.restartPolicy.getD .onFailure
      if policy = .never then
        updSvc st name { m with state := { m.state with status := .stopped } }
      else if code = some 0 ∧ policy ≠ .always then
        updSvc st name { m with state := { m.state with status := .stopped } }
      else
        let restarts1 := m.state.restarts + 1
        let maxR := m.config.maxRestarts.getD 10
        if restarts1 > maxR then
          let crashed : ServiceState :=
            { m.state with
              status := .crashed, restarts := restarts1,
              lastError := some ("Exceeded max restarts after exit code " ++ codeStr code) }
          updSvc st name { m with state := crashed }
        else
          let delay := min (1000 * 2 ^ (restarts1 - 1)) 30000
          let bumped : ServiceState :=
            { m.state with
              restarts := restarts1,
              lastError := some ("Exit code " ++ codeStr code) }
          { updSvc st name { m with state := bumped }
            with pendingRestarts := st.pendingRestarts ++ [(name, delay)] }

/-- Daemon.stopService: no-op when the name has no live service process;
otherwise SIGTERM (the child's exit first runs the registered `handleExit`
listener), then the status is overwritten with `stopped`. The 5s SIGKILL
escalation is collapsed into the same observable exit. -/
def stopServiceM (o : Oracle) (name : String) (st : DaemonSt) : DaemonSt :=
  match alGet st.services name with
  | Option.none => st
  | some m =>
    if m.process.isSome then
      setSvcStatus (handleExitM name (o.stopExit name) (addEv st (.kill name))) name .stopped
    else st

/-- Is the name a declared task (`this.tasks.has(name)`)? -/
def isTaskD (st : DaemonSt) (name : String) : Bool :=
  (alGet st.tasks name).isSome

/-- The body of Daemon.startAllServices' loop over the sorted names. -/
def startLoop (o : Oracle) : List String → DaemonSt → DaemonSt × Option String
  | [], st => (st, Option.none)
  | n :: ns, st =>
    match (if isTaskD st n then runTaskM o n st else startServiceM o n st) with
    | (st1, Option.none) => startLoop o ns st1
    | (st1, some e) => (st1, some e)

/-- Daemon.startAllServices: topologically sort; when a target is given,
restrict to the target plus its transitive dependencies; then start each
name in order (tasks via runTask, everything else via startService). -/
def startAllServicesM (o : Oracle) (onlyTarget : Option String) (st : DaemonSt) : DaemonSt × Option String :=
  match topoSortD st with
  | .error e => (st, some e.message)
  | .ok sorted =>
    let sorted := match onlyTarget with
      | Option.none => sorted
      | some t =>
        let needed := getTransitiveDepsD st t ++ [t]
        sorted.filter (fun n => needed.contains n)
    startLoop o sorted st

/-- Daemon.stopAllServices: stop in reverse topological order. -/
def stopAllServicesM (o : Oracle) (st : DaemonSt) : DaemonSt × Option String :=
  match topoSortD st with
  | .error e => (st, some e.message)
  | .ok sorted => ((sorted.reverse).foldl (fun s n => stopServiceM o n s) st, Option.none)

/-- One service's slice of Daemon.runHealthChecks: skip when no live
process; absent / `none` checks set healthy without probing; port / HTTP
probe the oracle and set healthy / unhealthy. -/
def healthTickSvc (o : Oracle) (st : DaemonSt) (name : String) : DaemonSt :=
  match alGet st.services name with
  | Option.none => st
  | some m =>
    if m.process.isSome then
      match m.config.healthCheck with
      | Option.none => setSvcStatus st name .healthy
      | some .none => setSvcStatus st name .healthy
      | some hc =>
        let healthy := match hc with
          | .port p => o.portInUse p
          | .http u => o.httpOk u
          | .none => true
        setSvcStatus (addEv st (.probe name hc)) name (if healthy then .healthy else .unhealthy)
    else st

/-- Daemon.runHealthChecks: one pass over all services. -/
def runHealthChecksM (o : Oracle) (st : DaemonSt) : DaemonSt :=
  (st.services.map Prod.fst).foldl (healthTickSvc o) st

/-- Daemon.shutdown: idempotent; set the flag, stop the timers (abstract),
stop everything in reverse order, close the socket (abstract). An error
from the stop loop escapes to the caller's rejection handler; the state it
reached is kept. -/
def shutdownM (o : Oracle) (st : DaemonSt) : DaemonSt :=
  if st.shuttingDown then st
  else (stopAllServicesM o { st with shuttingDown := true }).1

/-- Wrap a fallible operation as a protocol response (the socket handler's
try / catch: a thrown error becomes `{ok:false, error:String(err)}`). -/
def respOf (r : DaemonSt × Option String) : DaemonSt × Resp :=
  match r with
  | (st, Option.none) => (st, ⟨true, Option.none⟩)
  | (st, some e) => (st, ⟨false, some ("Error: " ++ e)⟩)

/-- Daemon.handleCommand: dispatch one protocol command. -/
def handleCommandM (o : Oracle) (c : Command) (st : DaemonSt) : DaemonSt × Resp :=
  match c with
  | .status => (st, ⟨true, Option.none⟩)
  | .start (some s) =>
    respOf (if isTaskD st s then runTaskM o s st else startServiceM o s st)
  | .start Option.none => respOf (startAllServicesM o Option.none st)
  | .stop (some s) => (stopServiceM o s st, ⟨true, Option.none⟩)
  | .stop Option.none => respOf (stopAllServicesM o st)
  | .restart (some s) =>
    respOf (startServiceM o s (stopServiceM o s st))
  | .restart Option.none =>
    match stopAllServicesM o st with
    | (st1, some e) => (st1, ⟨false, some ("Error: " ++ e)⟩)
    | (st1, Option.none) => respOf (startAllServicesM o Option.none st1)
  | .logs s _ =>
    if o.logExists s then (st, ⟨true, Option.none⟩)
    else (st, ⟨false, some ("No logs for " ++ s)⟩)
  | .down => ({ st with downScheduled := true }, ⟨true, Option.none⟩)

/-- Events that can hit the daemon between suspension points: a client
command, a live service child exiting, a pending restart timer firing, the
health-check interval, or the (signal- or `down`-initiated) shutdown. -/
inductive DEvent
  | command (c : Command)
  | exitEv (name : String) (code : Option Int)
  | timerFire (name : String) (delay : Nat)
  | healthTick
  | shutdownEv
deriving DecidableEq, Repr

/-- Small-step transition; `Option.none` when the event is not enabled in
this state (no live child to exit, no such pending timer, cleared
health-check interval). The timer callback is the source's
`if (!this.shuttingDown) this.startService(name)` with errors swallowed.
Each client command is one atomic transition here — the serialized
schedule in which a command runs to completion before the next event; the
intra-command suspension points of `runTask`, where the source interleaves
concurrent commands, are modelled separately by `mstep` below. -/
def stepM (o : Oracle) (st : DaemonSt) (e : DEvent) : Option DaemonSt :=
  match e with
  | .command c => some (handleCommandM o c st).1
  | .exitEv name code =>
    match alGet st.services name with
    | some m => if m.process.isSome then some (handleExitM name code st) else Option.none
    | Option.none => Option.none
  | .timerFire name delay =>
    if (name, delay) ∈ st.pendingRestarts then
      let st1 := { st with pendingRestarts := st.pendingRestarts.erase (name, delay) }
      if st1.shuttingDown then some st1
      else some (startServiceM o name st1).1
    else Option.none
  | .healthTick =>
    if st.shuttingDown then Option.none else some (runHealthChecksM o st)
  | .shutdownEv => some (shutdownM o st)

/-- Run a sequence of events from a state; fails when some event is not
enabled. -/
def runTrace (o : Oracle) : DaemonSt → List DEvent → Option DaemonSt
  | st, [] => some st
  | st, e :: es =>
    match stepM o st e with
    | some st1 => runTrace o st1 es
    | Option.none => Option.none

/-- The Daemon constructor: every declared entity starts `pending` with no
process, services with restart count 0. -/
def initDaemon (cfg : Config) : DaemonSt :=
  { tasks := cfg.tasks.map (fun t =>
      (t.name, { config := t, process := Option.none
                 state := { status := .pending, pid := Option.none
                            exitCode := Option.none, lastError := Option.none } }))
    services := cfg.services.map (fun s =>
      (s.name, { config := s, process := Option.none
                 state := { status := .pending, pid := Option.none, restarts := 0
                            lastError := Option.none } }))
    shuttingDown := false
    downScheduled := false
    pendingRestarts := []
    nextPid := 1
    events := [] }

/-- topoSort of a configuration, as run by the freshly constructed
daemon. -/
def topoSort (cfg : Config) : Except TopoErr (List String) :=
  topoSortD (initDaemon cfg)

/-- Dependency list of a name in a configuration. -/
def depsOf (cfg : Config) (n : String) : List String :=
  depsOfD (initDaemon cfg) n

/-- The dependency edge relation: `Edge cfg a b` when `a` directly depends
on `b`. -/
def Edge (cfg : Config) (a b : String) : Prop :=
  b ∈ depsOf cfg a

/-- A configuration is acyclic when no name depends on itself through one
or more edges. -/
def Acyclic (cfg : Config) : Prop :=
  ∀ n, ¬ Relation.TransGen (Edge cfg) n n

/-- All declared names, tasks first, in declared order. -/
def rootNames (cfg : Config) : List String :=
  rootsD (initDaemon cfg)

/-- Generic dependency-edge relation over a dependency function. -/
def EdgeF (deps : String → List String) (a b : String) : Prop :=
  b ∈ deps a

/-- Topological-order property of a list, in decomposition form: whenever
`n` occurs, all of its dependencies occur strictly earlier. -/
def TopoB (deps : String → List String) (r : List String) : Prop :=
  ∀ a n b, r = a ++ n :: b → ∀ d ∈ deps n, d ∈ a

/-- Invariant of the `topoSort` traversal state: visited names and the
output array coincide, the output has no duplicates and is topologically
ordered. -/
def VisitInv (deps : String → List String) (st : VisitSt) : Prop :=
  st.visited = st.result ∧ st.result.Nodup ∧ TopoB deps st.result

/-- Postcondition of a successful `visitMany` run: the visiting stack is
restored, visited/result only grow, every pending name ends visited, names
first visited here were not on the visiting stack, and the invariant is
preserved. -/
def VisitPost (deps : String → List String) (ds : List String) (st st' : VisitSt) : Prop :=
  st'.visiting = st.visiting ∧
  (∃ u, st'.result = st.result ++ u) ∧
  (∃ v, st'.visited = st.visited ++ v) ∧
  (∀ d ∈ ds, d ∈ st'.visited) ∧
  (∀ m ∈ st'.visited, m ∈ st.visited ∨ m ∉ st.visiting) ∧
  (VisitInv deps st → VisitInv deps st')

/-- Precondition for cycle extraction: the visiting stack is a chain of
dependency edges (each entry a dependency of the one below it), and every
pending name is a dependency of the top of the stack. -/
def ChainPre (deps : String → List String) (st : VisitSt) (ds : List String) : Prop :=
  List.Chain' (fun a b => a ∈ deps b) st.visiting ∧
  (∀ p, st.visiting.head? = some p → ∀ d ∈ ds, d ∈ deps p)

/-- Weight of a name in the termination potential of the traversal. -/
def visitWeight (deps : String → List String) (st : VisitSt) (n : String) : Nat :=
  if n ∈ st.visited ∨ n ∈ st.visiting then 0 else (deps n).length + 1

/-- Termination potential of a `visitMany` call. -/
def visitPot (deps : String → List String) (univ : List String) (st : VisitSt) (ds : List String) : Nat :=
  ds.length + (univ.map (visitWeight deps st)).sum

/-- Weight of a name in the termination potential of `getTransitiveDeps`. -/
def gtdWeight (deps : String → List String) (acc : List String) (n : String) : Nat :=
  if n ∈ acc then 0 else (deps n).length + 1

/-- Termination potential of a `gtdMany` call. -/
def gtdPot (deps : String → List String) (univ : List String) (acc ds : List String) : Nat :=
  ds.length + (univ.map (gtdWeight deps acc)).sum

/-- Index of the first occurrence of a name in a list. -/
def idxOf : List String → String → Nat
  | [], _ => 0
  | x :: t, n => if x = n then 0 else idxOf t n + 1

instance {ε α : Type} [DecidableEq ε] [DecidableEq α] : DecidableEq (Except ε α) := fun a b =>
  match a, b with
  | .ok x, .ok y =>
    if h : x = y then isTrue (h ▸ rfl) else isFalse (fun hh => h (Except.ok.inj hh))
  | .error e, .error f =>
    if h : e = f then isTrue (h ▸ rfl) else isFalse (fun hh => h (Except.error.inj hh))
  | .ok _, .error _ => isFalse (fun hh => Except.noConfusion hh)
  | .error _, .ok _ => isFalse (fun hh => Except.noConfusion hh)

/-- Restart count of a service (0 for unknown names). -/
def svcRestarts (st : DaemonSt) (n : String) : Nat :=
  match alGet st.services n with
  | some m => m.state.restarts
  | Option.none => 0

/-- Is a task status terminal (completed or failed)? -/
def statusDone : TaskStatus → Bool
  | .completed => true
  | .failed => true
  | _ => false

/-- Has the named task reached a terminal status? -/
def taskDone (st : DaemonSt) (n : String) : Bool :=
  match alGet st.tasks n with
  | some m => statusDone m.state.status
  | Option.none => false

/-- Number of times the named task's command was spawned so far. -/
def spawnCount (st : DaemonSt) (n : String) : Nat :=
  st.events.count (Ev.spawnTask n)

/-- Two daemon states with the same entity keys and the same
configurations: the immutable spec part never changes. -/
def SameShape (st st' : DaemonSt) : Prop :=
  st'.tasks.map Prod.fst = st.tasks.map Prod.fst ∧
  st'.services.map Prod.fst = st.services.map Prod.fst ∧
  (∀ n, (alGet st'.tasks n).map (fun m => m.config) = (alGet st.tasks n).map (fun m => m.config)) ∧
  (∀ n, (alGet st'.services n).map (fun m => m.config) = (alGet st.services n).map (fun m => m.config))

/-- The global invariant relation every daemon operation preserves: shape
is unchanged, events are only appended, restart counts never decrease, a
terminal task is frozen, and any operation spawns a task at most once and
only leaving it terminal. -/
def Evolves (st st' : DaemonSt) : Prop :=
  SameShape st st' ∧
  (∃ evs, st'.events = st.events ++ evs) ∧
  (∀ n, svcRestarts st n ≤ svcRestarts st' n) ∧
  (∀ n, taskDone st n = true → alGet st'.tasks n = alGet st.tasks n ∧ spawnCount st' n = spawnCount st n) ∧
  (∀ n, spawnCount st' n ≤ spawnCount st n + 1 ∧ (spawnCount st n < spawnCount st' n → taskDone st' n = true))

/-- Observation: this entity has actually been started — a task run to
completion, or a (non-task) service with a live process that is starting
or already healthy. -/
def StartedD (st : DaemonSt) (n : String) : Prop :=
  (∃ m, alGet st.tasks n = some m ∧ m.state.status = .completed) ∨
  (alGet st.tasks n = Option.none ∧
    ∃ m, alGet st.services n = some m ∧ m.process.isSome = true ∧
      (m.state.status = .starting ∨ m.state.status = .healthy))

/-- Probe events of a given service, in order. -/
def probesFor (name : String) (evs : List Ev) : List Ev :=
  evs.filter (fun e => match e with
    | .probe k _ => k = name
    | _ => false)

/-- Everything except the service map is unchanged. -/
def FrameEq (st st' : DaemonSt) : Prop :=
  st'.tasks = st.tasks ∧ st'.events = st.events ∧ st'.shuttingDown = st.shuttingDown ∧
  st'.pendingRestarts = st.pendingRestarts ∧ st'.nextPid = st.nextPid ∧
  st'.downScheduled = st.downScheduled

/-- Demo configuration: a setup task, a service depending on it, and an
unrelated service. -/
def cfgDemo : Config :=
  { tasks := [{ name := "migrate", command := "./migrate.sh", cwd := Option.none, env := [],
                dependsOn := Option.none }]
    services :=
      [{ name := "web", command := "npm start", cwd := Option.none, env := [],
         healthCheck := some HealthCheck.none, dependsOn := some ["migrate"],
         restartPolicy := Option.none, maxRestarts := Option.none },
       { name := "worker", command := "./worker", cwd := Option.none, env := [],
         healthCheck := Option.none, dependsOn := Option.none,
         restartPolicy := Option.none, maxRestarts := Option.none }] }

/-- Demo configuration with a two-service dependency cycle. -/
def cfgCyc : Config :=
  { tasks := []
    services :=
      [{ name := "a", command := "a", cwd := Option.none, env := [],
         healthCheck := Option.none, dependsOn := some ["b"],
         restartPolicy := Option.none, maxRestarts := Option.none },
       { name := "b", command := "b", cwd := Option.none, env := [],
         healthCheck := Option.none, dependsOn := some ["a"],
         restartPolicy := Option.none, maxRestarts := Option.none }] }

/-- Demo configuration with an unresolved dependency name, declared after
an unrelated task. -/
def cfgMissing : Config :=
  { tasks := [{ name := "a", command := "a", cwd := Option.none, env := [],
                dependsOn := Option.none }]
    services :=
      [{ name := "b", command := "b", cwd := Option.none, env := [],
         healthCheck := Option.none, dependsOn := some ["missing"],
         restartPolicy := Option.none, maxRestarts := Option.none }] }

/-- Demo configuration with one dependency-free service whose health check
has type none. -/
def cfgSolo : Config :=
  { tasks := []
    services :=
      [{ name := "web", command := "npm start", cwd := Option.none, env := [],
         healthCheck := some HealthCheck.none, dependsOn := Option.none,
         restartPolicy := Option.none, maxRestarts := some 1 }] }

/-- Demo oracle: tasks exit 0, stops observe exit 0, probes succeed, logs
exist. -/
def oDemo : Oracle :=
  { taskExit := fun _ => some 0
    stopExit := fun _ => some 0
    portInUse := fun _ => true
    httpOk := fun _ => true
    logExists := fun _ => true }

/-- Demo oracle under which every spawned process fails with exit 1. -/
def oFail : Oracle :=
  { taskExit := fun _ => some 1
    stopExit := fun _ => some 1
    portInUse := fun _ => false
    httpOk := fun _ => false
    logExists := fun _ => false }

/-- Events that are neither an explicit start/restart request nor the
firing of this service's own restart timer. -/
def NonStartEvent (n : String) : DEvent → Prop
  | .command (.start _) => False
  | .command (.restart _) => False
  | .timerFire k _ => k ≠ n
  | _ => True

/-- A hand-built daemon state with one completed task, for witnesses. -/
def stDone : DaemonSt :=
  { tasks :=
      [("t", { config := { name := "t", command := "./t", cwd := Option.none, env := [],
                           dependsOn := Option.none }
               process := Option.none
               state := { status := .completed, pid := Option.none, exitCode := some 0,
                          lastError := Option.none } })]
    services := []
    shuttingDown := false
    downScheduled := false
    pendingRestarts := []
    nextPid := 2
    events := [Ev.spawnTask "t"] }

/-- A hand-built daemon state with one live service, for witnesses. -/
def stLive : DaemonSt :=
  { tasks := []
    services :=
      [("s", { config := { name := "s", command := "./s", cwd := Option.none, env := [],
                           healthCheck := Option.none, dependsOn := Option.none,
                           restartPolicy := Option.none, maxRestarts := Option.none }
               process := some 7
               state := { status := .starting, pid := some 7, restarts := 0,
                          lastError := Option.none } })]
    shuttingDown := false
    downScheduled := false
    pendingRestarts := []
    nextPid := 8
    events := [] }

/-- A hand-built daemon state with one crashed service (no live process),
for witnesses. -/
def stCrashed : DaemonSt :=
  { tasks := []
    services :=
      [("web", { config := { name := "web", command := "npm start", cwd := Option.none, env := [],
                             healthCheck := some HealthCheck.none, dependsOn := Option.none,
                             restartPolicy := Option.none, maxRestarts := some 1 }
                 process := Option.none
                 state := { status := .crashed, pid := Option.none, restarts := 2,
                            lastError := some "Exceeded max restarts after exit code 1" } })]
    shuttingDown := false
    downScheduled := false
    pendingRestarts := []
    nextPid := 3
    events := [] }

/-!
### A finer-grained model of `runTask`: its intra-command suspensions

The big-step `stepM` above runs a whole client command as one atomic
transition. The source, however, suspends *inside* `runTask` — at each
`await waitForReady(dep)` and while awaiting the spawned child — and other
connections' commands interleave at those points. The model below exposes
exactly the suspension points the source has and no others: an invocation
of `runTask(name)` runs synchronously from its entry (the unknown-name
throw and the completed/failed and in-flight guards) through the
dependency loop as long as each dependency's readiness check passes
immediately, suspends at the first dependency whose check does not pass
(`waitForReady`'s poll body is read-only: it only re-checks on each poll),
and once all dependencies are ready runs the spawn body synchronously
(status := running, spawn, process := pid — nothing between is awaited),
then suspends until the child exits. The captured `managed` object of the
source is the map entry itself (entries are created once and mutated in
place), so each phase reads the entry current at that moment.
-/

/-- Where an in-flight `runTask` invocation is suspended: awaiting an
existing run of the same task, polling inside the dependency wait loop
(with the not-yet-awaited part of the dependency list), awaiting its own
spawned child, or finished (returned or threw). -/
inductive TaskRunPhase
  | waitingSelf
  | waitingDeps (pending : List String)
  | runningChild (pid : Nat)
  | done
deriving DecidableEq, Repr

/-- One in-flight `runTask` invocation: the task it runs and where it is
suspended. -/
structure Invocation where
  name : String
  phase : TaskRunPhase
deriving DecidableEq, Repr

/-- One synchronous pass of `waitForReady`'s poll body for a dependency:
`some true` = ready now (a completed task or a healthy service),
`some false` = the wait throws (the dependency is a failed task),
`Option.none` = not ready yet, the caller sleeps and re-polls. -/
def depReady (st : DaemonSt) (d : String) : Option Bool :=
  match alGet st.tasks d with
  | some t =>
    if t.state.status = .completed then some true
    else if t.state.status = .failed then some false
    else Option.none
  | Option.none =>
    match alGet st.services d with
    | some s => if s.state.status = .healthy then some true else Option.none
    | Option.none => Option.none

/-- The synchronous spawn body of `runTask`, run once the dependency loop
is past: set status running, spawn the child, record its pid; the
invocation then suspends until the child exits. -/
def spawnTaskBody (st : DaemonSt) (name : String) : DaemonSt × TaskRunPhase :=
  match alGet st.tasks name with
  | Option.none => (st, .done)
  | some m =>
    let pid := st.nextPid
    (addEv { updTask st name
        { m with process := some pid,
                 state := { m.state with status := .running, pid := some pid } }
      with nextPid := pid + 1 } (.spawnTask name),
     .runningChild pid)

/-- Walk the remaining dependency list synchronously: skip every
dependency whose readiness check passes right now, throw on a failed task
dependency, suspend at the first dependency that is not ready, and run the
spawn body when none remain. Mirrors the source: re-entering `runTask`'s
guards never happens after the loop. -/
def advanceDeps (st : DaemonSt) (name : String) : List String → DaemonSt × TaskRunPhase
  | [] => spawnTaskBody st name
  | d :: ds =>
    match depReady st d with
    | some true => advanceDeps st name ds
    | some false => (st, .done)
    | Option.none => (st, .waitingDeps (d :: ds))

/-- A new `runTask(name)` invocation, run synchronously up to its first
suspension: unknown name throws; a completed or failed task returns; an
in-flight task awaits the existing run; otherwise the dependency loop
starts. Nothing is written before the first suspension. -/
def beginRunTask (st : DaemonSt) (name : String) : DaemonSt × TaskRunPhase :=
  match alGet st.tasks name with
  | Option.none => (st, .done)
  | some m =>
    if m.state.status = .completed ∨ m.state.status = .failed then (st, .done)
    else if m.process.isSome then (st, .waitingSelf)
    else advanceDeps st name (m.config.dependsOn.getD [])

/-- The `exit` handler of `runTask`'s spawn body: clear process and pid,
record a non-null exit code, settle completed on 0 and failed with an
"Exit code c" error otherwise. -/
def childExitStep (o : Oracle) (st : DaemonSt) (name : String) : DaemonSt :=
  match alGet st.tasks name with
  | Option.none => st
  | some m =>
    let code := o.taskExit name
    let exitCode := match code with
      | some c => some c
      | Option.none => m.state.exitCode
    match code with
    | some 0 =>
      updTask st name
        { m with process := Option.none,
                 state := { m.state with
                            status := .completed, pid := Option.none, exitCode := some 0 } }
    | _ =>
      updTask st name
        { m with process := Option.none,
                 state := { m.state with
                            status := .failed, pid := Option.none, exitCode := exitCode,
                            lastError := some ("Exit code " ++ codeStr code) } }

/-- Daemon state together with the in-flight `runTask` invocations. -/
structure MicroSt where
  daemon : DaemonSt
  runs : List Invocation
deriving DecidableEq, Repr

/-- Scheduler events of the finer-grained model: a client connection's
start command reaching `runTask(name)`, an invocation's poll timer firing
(it re-runs its wait's read-only check and continues when it passes), and
an invocation's spawned child exiting. -/
inductive MEvent
  | beginTask (name : String)
  | pollRun (i : Nat)
  | exitRun (i : Nat)
deriving DecidableEq, Repr

/-- One interleaving step of the finer-grained model; `Option.none` when
the event is not enabled (no such invocation, or it is not suspended the
way the event requires). -/
def mstep (o : Oracle) (s : MicroSt) : MEvent → Option MicroSt
  | .beginTask name =>
    let r := beginRunTask s.daemon name
    some ⟨r.1, s.runs ++ [⟨name, r.2⟩]⟩
  | .pollRun i =>
    match s.runs.get? i with
    | some ⟨name, .waitingDeps ds⟩ =>
      let r := advanceDeps s.daemon name ds
      some ⟨r.1, s.runs.set i ⟨name, r.2⟩⟩
    | some ⟨name, .waitingSelf⟩ =>
      match alGet s.daemon.tasks name with
      | some m =>
        if m.state.status = .completed ∨ m.state.status = .failed
        then some ⟨s.daemon, s.runs.set i ⟨name, .done⟩⟩
        else some ⟨s.daemon, s.runs⟩
      | Option.none => some ⟨s.daemon, s.runs⟩
    | _ => Option.none
  | .exitRun i =>
    match s.runs.get? i with
    | some ⟨name, .runningChild _⟩ =>
      some ⟨childExitStep o s.daemon name, s.runs.set i ⟨name, .done⟩⟩
    | _ => Option.none

/-- Run a sequence of interleaving steps. -/
def mrun (o : Oracle) : MicroSt → List MEvent → Option MicroSt
  | s, [] => some s
  | s, e :: es =>
    match mstep o s e with
    | some s1 => mrun o s1 es
    | Option.none => Option.none

/-- Demo configuration for the double-spawn interleaving: a task `t`
depending on a slower setup task. -/
def cfgRace : Config :=
  { tasks := [{ name := "setup", command := "./setup", cwd := Option.none, env := [],
                dependsOn := Option.none },
              { name := "t", command := "./t", cwd := Option.none, env := [],
                dependsOn := some ["setup"] }]
    services := [] }

/-! ## Theorems -/

/-- Pointwise bound on a mapped sum. -/
theorem mapSum_le {α : Type} (l : List α) (f g : α → Nat) (h : ∀ x ∈ l, f x ≤ g x) :
    (l.map f).sum ≤ (l.map g).sum := by
  induction l with
  | nil => simp
  | cons a t ih =>
    simp only [List.map_cons, List.sum_cons]
    exact Nat.add_le_add (h a (by simp)) (ih (fun x hx => h x (by simp [hx])))

/-- Pointwise bound on a mapped sum with strict slack at one member. -/
theorem mapSum_add_le {α : Type} (l : List α) (f g : α → Nat) (d : α) (k : Nat)
    (hd : d ∈ l) (h : ∀ x ∈ l, f x ≤ g x) (hk : f d + k ≤ g d) :
    (l.map f).sum + k ≤ (l.map g).sum := by
  induction l with
  | nil => cases hd
  | cons a t ih =>
    simp only [List.map_cons, List.sum_cons]
    rcases List.mem_cons.mp hd with h1 | h1
    · subst h1
      have ht := mapSum_le t f g (fun x hx => h x (by simp [hx]))
      omega
    · have ht := ih h1 (fun x hx => h x (by simp [hx]))
      have ha := h a (by simp)
      omega

/-- A list ending in a fresh element stays topologically ordered when all
the dependencies of the new element already occur. -/
theorem topoB_snoc (deps : String → List String) (r : List String) (x : String)
    (hB : TopoB deps r) (hx : ∀ d ∈ deps x, d ∈ r) :
    TopoB deps (r ++ [x]) := by
  intro a n b heq hd
  rcases List.eq_nil_or_concat b with hb | ⟨b', c, hb⟩
  · subst hb
    have h2 : r ++ [x] = a ++ [n] := by simpa using heq
    obtain ⟨ha, hnx⟩ := List.append_inj' h2 rfl
    subst ha
    have : x = n := by simpa using hnx
    subst this
    intro hdm
    exact hx _ hdm
  · subst hb
    have h2 : r ++ [x] = (a ++ n :: b') ++ [c] := by
      simpa [List.append_assoc] using heq
    obtain ⟨hr, _⟩ := List.append_inj' h2 rfl
    exact fun hdm => hB a n b' hr _ hdm

/-- Main postcondition of the `topoSort` traversal. -/
theorem visitMany_ok (deps : String → List String) :
    ∀ fuel ds st st', visitMany deps fuel ds st = .ok st' → VisitPost deps ds st st' := by
  intro fuel
  induction fuel with
  | zero =>
    intro ds st st' h
    cases ds with
    | nil =>
      simp only [visitMany] at h
      cases h
      refine ⟨rfl, ⟨[], by simp⟩, ⟨[], by simp⟩, by simp, fun m hm => Or.inl hm, id⟩
    | cons d ds' => simp [visitMany] at h
  | succ fuel ih =>
    intro ds st st' h
    cases ds with
    | nil =>
      simp only [visitMany] at h
      cases h
      refine ⟨rfl, ⟨[], by simp⟩, ⟨[], by simp⟩, by simp, fun m hm => Or.inl hm, id⟩
    | cons name rest =>
      simp only [visitMany] at h
      by_cases h1 : name ∈ st.visited
      · rw [if_pos h1] at h
        obtain ⟨ha, hb, ⟨v, hc⟩, hd, he, hf⟩ := ih rest st st' h
        refine ⟨ha, hb, ⟨v, hc⟩, ?_, he, hf⟩
        intro d hdm
        rcases List.mem_cons.mp hdm with h2 | h2
        · subst h2; rw [hc]; exact List.mem_append_left _ h1
        · exact hd d h2
      · rw [if_neg h1] at h
        by_cases h2 : name ∈ st.visiting
        · rw [if_pos h2] at h; cases h
        · rw [if_neg h2] at h
          cases hn : visitMany deps fuel (deps name) { st with visiting := name :: st.visiting } with
          | error e => rw [hn] at h; cases h
          | ok st2 =>
            rw [hn] at h
            obtain ⟨g2a, ⟨u2, g2b⟩, ⟨v2, g2c⟩, g2d, g2e, g2f⟩ :=
              ih (deps name) { st with visiting := name :: st.visiting } st2 hn
            have herase : st2.visiting.erase name = st.visiting := by
              rw [g2a]; exact List.erase_cons_head name st.visiting
            have h3 : visitMany deps fuel rest
                ⟨st2.visited ++ [name], st2.visiting.erase name, st2.result ++ [name]⟩ = .ok st' := h
            rw [herase] at h3
            obtain ⟨g3a, ⟨u3, g3b⟩, ⟨v3, g3c⟩, g3d, g3e, g3f⟩ :=
              ih rest ⟨st2.visited ++ [name], st.visiting, st2.result ++ [name]⟩ st' h3
            have hvst2 : st2.visited = st.visited ++ v2 := g2c
            have hname_nin_v2 : name ∉ st2.visited := by
              intro hmem
              rcases g2e name hmem with hl | hr
              · exact h1 hl
              · exact hr (List.mem_cons_self name st.visiting)
            refine ⟨g3a, ?_, ?_, ?_, ?_, ?_⟩
            · exact ⟨u2 ++ [name] ++ u3, by
                rw [g3b]
                simp only [g2b]
                simp [List.append_assoc]⟩
            · exact ⟨v2 ++ [name] ++ v3, by
                rw [g3c]
                simp only [hvst2]
                simp [List.append_assoc]⟩
            · intro d hdm
              rcases List.mem_cons.mp hdm with h3 | h3
              · subst h3
                rw [g3c]
                exact List.mem_append_left _ (List.mem_append_right _ (by simp))
              · exact g3d d h3
            · intro m hm
              rcases g3e m hm with h3 | h3
              · rcases List.mem_append.mp h3 with h4 | h4
                · rcases g2e m (hvst2 ▸ h4) with h5 | h5
                  · exact Or.inl h5
                  · exact Or.inr (fun hc => h5 (List.mem_cons_of_mem _ hc))
                · have : m = name := by simpa using h4
                  subst this
                  exact Or.inr h2
              · exact Or.inr h3
            · intro hInv
              apply g3f
              have hInv2 : VisitInv deps st2 := g2f hInv
              obtain ⟨hi1, hi2, hi3⟩ := hInv2
              refine ⟨by simp [hi1], ?_, ?_⟩
              · simp only [List.nodup_append, List.nodup_cons]
                refine ⟨hi2, by simp, ?_⟩
                intro x hx hx2
                have : x = name := by simpa using hx2
                subst this
                exact hname_nin_v2 (hi1 ▸ hx)
              · exact topoB_snoc deps st2.result name hi3
                  (fun d hdm => hi1 ▸ g2d d hdm)

/-- The pointwise weight never grows when visited or visiting grow. -/
theorem visitWeight_le (deps : String → List String) (st st' : VisitSt)
    (h : ∀ x, x ∈ st.visited ∨ x ∈ st.visiting → x ∈ st'.visited ∨ x ∈ st'.visiting) :
    ∀ x, visitWeight deps st' x ≤ visitWeight deps st x := by
  intro x
  unfold visitWeight
  by_cases hx : x ∈ st.visited ∨ x ∈ st.visiting
  · rw [if_pos hx, if_pos (h x hx)]
  · rw [if_neg hx]
    split <;> omega

/-- With the potential as fuel, the traversal never runs out of fuel. -/
theorem visitMany_no_fuel (deps : String → List String) (univ : List String)
    (huniv : ∀ n, ∀ d ∈ deps n, d ∈ univ) :
    ∀ fuel ds st, (∀ d ∈ ds, d ∈ univ) → visitPot deps univ st ds ≤ fuel →
      visitMany deps fuel ds st ≠ .error .fuel := by
  intro fuel
  induction fuel with
  | zero =>
    intro ds st hds hpot
    cases ds with
    | nil => simp [visitMany]
    | cons d ds' =>
      exfalso
      have : visitPot deps univ st (d :: ds') ≥ 1 := by
        unfold visitPot; simp; omega
      omega
  | succ fuel ih =>
    intro ds st hds hpot
    cases ds with
    | nil => simp [visitMany]
    | cons name rest =>
      have hnu : name ∈ univ := hds name (by simp)
      simp only [visitMany]
      by_cases h1 : name ∈ st.visited
      · rw [if_pos h1]
        apply ih rest st (fun d hd => hds d (by simp [hd]))
        unfold visitPot at hpot ⊢
        simp only [List.length_cons] at hpot
        omega
      · rw [if_neg h1]
        by_cases h2 : name ∈ st.visiting
        · rw [if_pos h2]; intro hc; cases hc
        · rw [if_neg h2]
          have hw : visitWeight deps st name = (deps name).length + 1 := by
            unfold visitWeight
            rw [if_neg (by push_neg; exact ⟨h1, h2⟩)]
          -- potential of the nested call
          have hnest : visitPot deps univ { st with visiting := name :: st.visiting } (deps name) + 2 ≤
              visitPot deps univ st (name :: rest) := by
            unfold visitPot
            have hle := visitWeight_le deps st { st with visiting := name :: st.visiting }
              (by intro x hx
                  rcases hx with hx | hx
                  · exact Or.inl hx
                  · exact Or.inr (List.mem_cons_of_mem _ hx))
            have hwn : visitWeight deps { st with visiting := name :: st.visiting } name = 0 := by
              unfold visitWeight
              rw [if_pos (Or.inr (by simp))]
            have := mapSum_add_le univ
              (visitWeight deps { st with visiting := name :: st.visiting })
              (visitWeight deps st) name ((deps name).length + 1) hnu (fun x _ => hle x) (by omega)
            simp only [List.length_cons]
            omega
          have hnestle : visitPot deps univ { st with visiting := name :: st.visiting } (deps name) ≤ fuel := by
            omega
          cases hn : visitMany deps fuel (deps name) { st with visiting := name :: st.visiting } with
          | error e =>
            cases e with
            | fuel => exact absurd hn (ih (deps name) _ (fun d hd => huniv name d hd) hnestle)
            | cycle n => intro hc; cases hc
          | ok st2 =>
            obtain ⟨g2a, _, ⟨v2, g2c⟩, g2d, g2e, _⟩ := visitMany_ok deps fuel (deps name) _ st2 hn
            have herase : st2.visiting.erase name = st.visiting := by
              rw [g2a]; exact List.erase_cons_head name st.visiting
            show visitMany deps fuel rest
                ⟨st2.visited ++ [name], st2.visiting.erase name, st2.result ++ [name]⟩ ≠ .error .fuel
            rw [herase]
            apply ih rest _ (fun d hd => hds d (by simp [hd]))
            -- potential of the continuation call
            unfold visitPot
            have hle := visitWeight_le deps st
              ⟨st2.visited ++ [name], st.visiting, st2.result ++ [name]⟩
              (by intro x hx
                  rcases hx with hx | hx
                  · exact Or.inl (by
                      simp only []
                      exact List.mem_append_left _ (by rw [g2c] at *; exact g2c ▸ List.mem_append_left _ hx))
                  · exact Or.inr hx)
            have hwn : visitWeight deps ⟨st2.visited ++ [name], st.visiting, st2.result ++ [name]⟩ name = 0 := by
              unfold visitWeight
              rw [if_pos (Or.inl (List.mem_append_right _ (by simp)))]
            have := mapSum_add_le univ
              (visitWeight deps ⟨st2.visited ++ [name], st.visiting, st2.result ++ [name]⟩)
              (visitWeight deps st) name 1 hnu (fun x _ => hle x) (by omega)
            unfold visitPot at hpot
            simp only [List.length_cons] at hpot
            omega

/-- Entries reachable along the visiting stack reach its top. -/
theorem chain_reach (deps : String → List String) :
    ∀ (l : List String) (p : String), List.Chain' (fun a b => a ∈ deps b) (p :: l) →
      ∀ x ∈ p :: l, Relation.ReflTransGen (EdgeF deps) x p := by
  intro l
  induction l with
  | nil =>
    intro p _ x hx
    have : x = p := by simpa using hx
    subst this
    exact Relation.ReflTransGen.refl
  | cons q t ih =>
    intro p hchain x hx
    have hpq : p ∈ deps q := (List.chain'_cons.mp hchain).1
    have hrest : List.Chain' (fun a b => a ∈ deps b) (q :: t) := (List.chain'_cons.mp hchain).2
    rcases List.mem_cons.mp hx with h1 | h1
    · subst h1; exact Relation.ReflTransGen.refl
    · exact Relation.ReflTransGen.tail (ih q hrest x h1) hpq

/-- When the traversal reports a cycle at `n`, the dependency graph really
has a cycle through `n`. -/
theorem visitMany_cycle (deps : String → List String) :
    ∀ fuel ds st n, visitMany deps fuel ds st = .error (.cycle n) →
      ChainPre deps st ds → Relation.TransGen (EdgeF deps) n n := by
  intro fuel
  induction fuel with
  | zero =>
    intro ds st n h _
    cases ds with
    | nil => simp [visitMany] at h
    | cons d ds' => simp [visitMany] at h
  | succ fuel ih =>
    intro ds st n h hpre
    cases ds with
    | nil => simp [visitMany] at h
    | cons name rest =>
      simp only [visitMany] at h
      by_cases h1 : name ∈ st.visited
      · rw [if_pos h1] at h
        exact ih rest st n h ⟨hpre.1, fun p hp d hd => hpre.2 p hp d (by simp [hd])⟩
      · rw [if_neg h1] at h
        by_cases h2 : name ∈ st.visiting
        · rw [if_pos h2] at h
          have hn : name = n := by
            have := Except.error.inj h
            exact TopoErr.cycle.inj this
          subst hn
          cases hv : st.visiting with
          | nil => rw [hv] at h2; cases h2
          | cons p l =>
            rw [hv] at h2
            have hchain := hpre.1
            rw [hv] at hchain
            have hreach := chain_reach deps l p hchain name h2
            have hedge : EdgeF deps p name :=
              hpre.2 p (by rw [hv]; rfl) name (by simp)
            exact Relation.TransGen.tail' hreach hedge
        · rw [if_neg h2] at h
          cases hn : visitMany deps fuel (deps name) { st with visiting := name :: st.visiting } with
          | error e =>
            rw [hn] at h
            have he : e = .cycle n := by
              have := Except.error.inj h
              exact this
            subst he
            apply ih (deps name) { st with visiting := name :: st.visiting } n hn
            constructor
            · simp only []
              rw [List.chain'_cons']
              constructor
              · intro y hy
                cases hv : st.visiting with
                | nil => rw [hv] at hy; simp at hy
                | cons p l =>
                  rw [hv] at hy
                  have hyp : p = y := by simpa using hy
                  subst hyp
                  exact hpre.2 p (by rw [hv]; rfl) name (by simp)
              · exact hpre.1
            · intro p hp d hd
              have hpn : name = p := by simpa using hp
              subst hpn
              exact hd
          | ok st2 =>
            rw [hn] at h
            obtain ⟨g2a, _, _, _, _, _⟩ := visitMany_ok deps fuel (deps name) _ st2 hn
            have herase : st2.visiting.erase name = st.visiting := by
              rw [g2a]; exact List.erase_cons_head name st.visiting
            have h3 : visitMany deps fuel rest
                ⟨st2.visited ++ [name], st2.visiting.erase name, st2.result ++ [name]⟩ =
                .error (.cycle n) := h
            rw [herase] at h3
            apply ih rest ⟨st2.visited ++ [name], st.visiting, st2.result ++ [name]⟩ n h3
            exact ⟨hpre.1, fun p hp d hd => hpre.2 p hp d (by simp [hd])⟩

/-- Index of an element left of `n` is smaller than the index of `n`. -/
theorem idxOf_lt (r : List String) (hN : r.Nodup) :
    ∀ a n b m, r = a ++ n :: b → m ∈ a → idxOf r m < idxOf r n := by
  induction r with
  | nil =>
    intro a n b m heq hm
    exact absurd heq.symm (by simp)
  | cons x t ih =>
    intro a n b m heq hm
    cases a with
    | nil => cases hm
    | cons y a' =>
      have hx : x = y ∧ t = a' ++ n :: b := by
        constructor
        · exact (List.cons.inj heq).1
        · exact (List.cons.inj heq).2
      obtain ⟨hxy, ht⟩ := hx
      subst hxy
      have hxn : x ≠ n := by
        intro hc
        subst hc
        have : x ∈ t := by rw [ht]; exact List.mem_append_right _ (by simp)
        exact (List.nodup_cons.mp hN).1 this
      rcases List.mem_cons.mp hm with h1 | h1
      · subst h1
        unfold idxOf
        rw [if_pos rfl, if_neg hxn]
        omega
      · by_cases hxm : x = m
        · subst hxm
          unfold idxOf
          rw [if_pos rfl, if_neg hxn]
          omega
        · unfold idxOf
          rw [if_neg hxm, if_neg hxn]
          have := ih (List.nodup_cons.mp hN).2 a' n b m ht h1
          omega

/-- A transitive chain of edges always starts with one edge. -/
theorem transGen_first {r : String → String → Prop} {a b : String}
    (h : Relation.TransGen r a b) : ∃ c, r a c := by
  induction h with
  | single h1 => exact ⟨_, h1⟩
  | tail _ _ ih => exact ih

/-- In a topologically ordered duplicate-free list, following edges
strictly decreases the index. -/
theorem topoB_descend (deps : String → List String) (r : List String)
    (hB : TopoB deps r) (hN : r.Nodup) :
    ∀ n m, Relation.TransGen (EdgeF deps) n m → n ∈ r → m ∈ r ∧ idxOf r m < idxOf r n := by
  have step : ∀ n m, EdgeF deps n m → n ∈ r → m ∈ r ∧ idxOf r m < idxOf r n := by
    intro n m he hn
    obtain ⟨a, b, hab⟩ := List.append_of_mem hn
    have hma : m ∈ a := hB a n b hab m he
    constructor
    · rw [hab]; exact List.mem_append_left _ hma
    · exact idxOf_lt r hN a n b m hab hma
  intro n m htg hn
  induction htg with
  | single h1 => exact step n _ h1 hn
  | tail h1 h2 ih =>
    obtain ⟨hm1, hi1⟩ := ih
    obtain ⟨hm2, hi2⟩ := step _ _ h2 hm1
    exact ⟨hm2, by omega⟩

/-- A topologically ordered list covering every name with dependencies
certifies acyclicity. -/
theorem topoB_acyclic (deps : String → List String) (r : List String)
    (hB : TopoB deps r) (hN : r.Nodup) (hcov : ∀ x, deps x ≠ [] → x ∈ r) :
    ∀ n, ¬ Relation.TransGen (EdgeF deps) n n := by
  intro n h
  obtain ⟨c, hc⟩ := transGen_first h
  have hnr : n ∈ r := by
    apply hcov
    intro he
    unfold EdgeF at hc
    rw [he] at hc
    cases hc
  obtain ⟨_, hlt⟩ := topoB_descend deps r hB hN n n h hnr
  omega

/-- Keys found by lookup are keys of the list. -/
theorem alGet_some_key {β : Type} (l : List (String × β)) (k : String) (v : β)
    (h : alGet l k = some v) : k ∈ l.map Prod.fst := by
  induction l with
  | nil => simp [alGet] at h
  | cons p t ih =>
    obtain ⟨k', b⟩ := p
    simp only [alGet] at h
    by_cases hk : k' = k
    · subst hk; simp
    · rw [if_neg hk] at h
      simp [ih h]

/-- Lookup hits are members of the association list. -/
theorem alGet_mem {β : Type} (l : List (String × β)) (k : String) (v : β)
    (h : alGet l k = some v) : (k, v) ∈ l := by
  induction l with
  | nil => simp [alGet] at h
  | cons p t ih =>
    obtain ⟨k', b⟩ := p
    simp only [alGet] at h
    by_cases hk : k' = k
    · rw [if_pos hk] at h
      cases h
      subst hk
      simp
    · rw [if_neg hk] at h
      simp [ih h]

/-- Every dependency list lands inside the traversal universe. -/
theorem depsOfD_subset_univ (st : DaemonSt) :
    ∀ n, ∀ d ∈ depsOfD st n, d ∈ univD st := by
  intro n d hd
  unfold depsOfD at hd
  unfold univD
  cases ht : (alGet st.tasks n).bind (fun m => m.config.dependsOn) with
  | some l =>
    rw [ht] at hd
    cases hget : alGet st.tasks n with
    | none => rw [hget] at ht; cases ht
    | some m =>
      rw [hget] at ht
      simp only [Option.some_bind] at ht
      apply List.mem_append_left
      apply List.mem_append_right
      apply List.mem_flatMap.mpr
      exact ⟨(n, m), alGet_mem _ _ _ hget, by simp [ht, hd]⟩
  | none =>
    rw [ht] at hd
    cases hs : (alGet st.services n).bind (fun m => m.config.dependsOn) with
    | some l =>
      rw [hs] at hd
      cases hget : alGet st.services n with
      | none => rw [hget] at hs; cases hs
      | some m =>
        rw [hget] at hs
        simp only [Option.some_bind] at hs
        apply List.mem_append_right
        apply List.mem_flatMap.mpr
        exact ⟨(n, m), alGet_mem _ _ _ hget, by simp [hs, hd]⟩
    | none => rw [hs] at hd; cases hd

/-- Declared names are in the traversal universe. -/
theorem roots_subset_univ (st : DaemonSt) : ∀ n ∈ rootsD st, n ∈ univD st := by
  intro n hn
  unfold univD
  rw [List.append_assoc]
  exact List.mem_append_left _ hn

/-- Only declared names have dependencies. -/
theorem deps_nonempty_root (st : DaemonSt) (n : String) (h : depsOfD st n ≠ []) :
    n ∈ rootsD st := by
  unfold depsOfD at h
  unfold rootsD
  cases ht : (alGet st.tasks n).bind (fun m => m.config.dependsOn) with
  | some l =>
    cases hget : alGet st.tasks n with
    | none => rw [hget] at ht; cases ht
    | some m => exact List.mem_append_left _ (alGet_some_key _ _ _ hget)
  | none =>
    rw [ht] at h
    cases hs : (alGet st.services n).bind (fun m => m.config.dependsOn) with
    | some l =>
      cases hget : alGet st.services n with
      | none => rw [hget] at hs; cases hs
      | some m => exact List.mem_append_right _ (alGet_some_key _ _ _ hget)
    | none => rw [hs] at h; exact absurd rfl h

/-- A successful topoSort yields a duplicate-free topological order that
contains every declared name and is closed under dependencies. -/
theorem topoSortD_ok (st : DaemonSt) (r : List String) (h : topoSortD st = .ok r) :
    TopoB (depsOfD st) r ∧ r.Nodup ∧ (∀ n ∈ rootsD st, n ∈ r) ∧
      (∀ n ∈ r, ∀ d ∈ depsOfD st n, d ∈ r) := by
  unfold topoSortD at h
  cases hv : visitMany (depsOfD st) (fuelBound st) (rootsD st) ⟨[], [], []⟩ with
  | error e => rw [hv] at h; cases h
  | ok vs =>
    rw [hv] at h
    have hr : vs.result = r := by
      cases h
      rfl
    obtain ⟨_, _, _, hd, _, hf⟩ := visitMany_ok (depsOfD st) (fuelBound st) (rootsD st) _ vs hv
    have hInv : VisitInv (depsOfD st) vs :=
      hf ⟨rfl, List.nodup_nil, by intro a n b hab; exact absurd hab.symm (by simp)⟩
    obtain ⟨hi1, hi2, hi3⟩ := hInv
    subst hr
    refine ⟨hi3, hi2, fun n hn => hi1 ▸ hd n hn, ?_⟩
    intro n hn d hdep
    obtain ⟨a, b, hab⟩ := List.append_of_mem hn
    have : d ∈ a := hi3 a n b hab d hdep
    rw [hab]
    exact List.mem_append_left _ this

/-- The fuel bound of topoSortD is sufficient. -/
theorem topoSortD_no_fuel (st : DaemonSt) : topoSortD st ≠ .error .fuel := by
  unfold topoSortD
  cases hv : visitMany (depsOfD st) (fuelBound st) (rootsD st) ⟨[], [], []⟩ with
  | ok vs => simp
  | error e =>
    cases e with
    | cycle n => simp
    | fuel =>
      exfalso
      apply visitMany_no_fuel (depsOfD st) (univD st) (depsOfD_subset_univ st)
        (fuelBound st) (rootsD st) ⟨[], [], []⟩ (roots_subset_univ st) _ hv
      unfold visitPot fuelBound
      have : ∀ n ∈ univD st, visitWeight (depsOfD st) ⟨[], [], []⟩ n = (depsOfD st n).length + 1 := by
        intro n _
        unfold visitWeight
        rw [if_neg (by simp)]
      rw [List.map_congr_left this]

/-- A cycle error from topoSortD names a name genuinely on a dependency
cycle. -/
theorem topoSortD_cycle (st : DaemonSt) (n : String)
    (h : topoSortD st = .error (.cycle n)) :
    Relation.TransGen (EdgeF (depsOfD st)) n n := by
  unfold topoSortD at h
  cases hv : visitMany (depsOfD st) (fuelBound st) (rootsD st) ⟨[], [], []⟩ with
  | ok vs => rw [hv] at h; cases h
  | error e =>
    rw [hv] at h
    have he : e = .cycle n := Except.error.inj h
    subst he
    apply visitMany_cycle (depsOfD st) (fuelBound st) (rootsD st) ⟨[], [], []⟩ n hv
    exact ⟨List.chain'_nil, by intro p hp; cases hp⟩

/-- A successful topoSortD certifies the dependency graph acyclic. -/
theorem topoSortD_acyclic_of_ok (st : DaemonSt) (r : List String)
    (h : topoSortD st = .ok r) :
    ∀ n, ¬ Relation.TransGen (EdgeF (depsOfD st)) n n := by
  obtain ⟨hB, hN, hcov, _⟩ := topoSortD_ok st r h
  apply topoB_acyclic (depsOfD st) r hB hN
  intro x hx
  exact hcov x (deps_nonempty_root st x hx)

/-- On an acyclic dependency graph topoSortD succeeds. -/
theorem topoSortD_ok_of_acyclic (st : DaemonSt)
    (h : ∀ n, ¬ Relation.TransGen (EdgeF (depsOfD st)) n n) :
    ∃ r, topoSortD st = .ok r := by
  cases hv : topoSortD st with
  | ok r => exact ⟨r, rfl⟩
  | error e =>
    cases e with
    | fuel => exact absurd hv (topoSortD_no_fuel st)
    | cycle n => exact absurd (topoSortD_cycle st n hv) (h n)

/-- Postcondition of the `getTransitiveDeps` traversal: the accumulator
only grows, all pending names are collected, new elements are closed under
dependencies, and every new element is reachable from a pending name. -/
theorem gtdMany_post (deps : String → List String) :
    ∀ fuel ds acc acc', gtdMany deps fuel ds acc = some acc' →
      (∃ u, acc' = acc ++ u) ∧
      (∀ d ∈ ds, d ∈ acc') ∧
      (∀ m ∈ acc', m ∉ acc → ∀ d ∈ deps m, d ∈ acc') ∧
      (∀ m ∈ acc', m ∈ acc ∨ ∃ d ∈ ds, Relation.ReflTransGen (EdgeF deps) d m) := by
  intro fuel
  induction fuel with
  | zero =>
    intro ds acc acc' h
    cases ds with
    | nil =>
      simp only [gtdMany] at h
      cases h
      exact ⟨⟨[], by simp⟩, by simp, fun m hm hnm => absurd hm hnm,
        fun m hm => Or.inl hm⟩
    | cons d ds' => simp [gtdMany] at h
  | succ fuel ih =>
    intro ds acc acc' h
    cases ds with
    | nil =>
      simp only [gtdMany] at h
      cases h
      exact ⟨⟨[], by simp⟩, by simp, fun m hm hnm => absurd hm hnm,
        fun m hm => Or.inl hm⟩
    | cons d ds' =>
      simp only [gtdMany] at h
      by_cases h1 : d ∈ acc
      · rw [if_pos h1] at h
        obtain ⟨ha, hb, hc, hd⟩ := ih ds' acc acc' h
        refine ⟨ha, ?_, hc, ?_⟩
        · intro x hx
          rcases List.mem_cons.mp hx with h2 | h2
          · subst h2
            obtain ⟨u, hu⟩ := ha
            rw [hu]; exact List.mem_append_left _ h1
          · exact hb x h2
        · intro m hm
          rcases hd m hm with h2 | ⟨d0, hd0, hr⟩
          · exact Or.inl h2
          · exact Or.inr ⟨d0, by simp [hd0], hr⟩
      · rw [if_neg h1] at h
        cases hn : gtdMany deps fuel (deps d) (acc ++ [d]) with
        | none => rw [hn] at h; cases h
        | some acc2 =>
          rw [hn] at h
          obtain ⟨⟨u2, ha2⟩, hb2, hc2, hd2⟩ := ih (deps d) (acc ++ [d]) acc2 hn
          obtain ⟨⟨u3, ha3⟩, hb3, hc3, hd3⟩ := ih ds' acc2 acc' h
          have hsub2 : ∀ x ∈ acc2, x ∈ acc' := by
            intro x hx; rw [ha3]; exact List.mem_append_left _ hx
          refine ⟨⟨[d] ++ u2 ++ u3, by rw [ha3, ha2]; simp [List.append_assoc]⟩, ?_, ?_, ?_⟩
          · intro x hx
            rcases List.mem_cons.mp hx with h2 | h2
            · subst h2
              exact hsub2 _ (by rw [ha2]; exact List.mem_append_left _ (by simp))
            · exact hb3 x h2
          · intro m hm hmacc
            by_cases hm2 : m ∈ acc2
            · by_cases hmd : m = d
              · subst hmd
                intro x hx
                exact hsub2 _ (hb2 x hx)
              · intro x hx
                exact hsub2 _ (hc2 m hm2 (by
                  intro hc
                  rcases List.mem_append.mp hc with h4 | h4
                  · exact hmacc h4
                  · exact hmd (by simpa using h4)) x hx)
            · exact hc3 m hm hm2
          · intro m hm
            rcases hd3 m hm with h2 | ⟨d0, hd0, hr⟩
            · rcases hd2 m h2 with h3 | ⟨e, he, hr⟩
              · rcases List.mem_append.mp h3 with h4 | h4
                · exact Or.inl h4
                · have : m = d := by simpa using h4
                  subst this
                  exact Or.inr ⟨m, by simp, Relation.ReflTransGen.refl⟩
              · exact Or.inr ⟨d, by simp, Relation.ReflTransGen.head he hr⟩
            · exact Or.inr ⟨d0, by simp [hd0], hr⟩

/-- The pointwise `getTransitiveDeps` weight never grows when the
accumulator grows. -/
theorem gtdWeight_le (deps : String → List String) (acc acc' : List String)
    (h : ∀ x, x ∈ acc → x ∈ acc') :
    ∀ x, gtdWeight deps acc' x ≤ gtdWeight deps acc x := by
  intro x
  unfold gtdWeight
  by_cases hx : x ∈ acc
  · rw [if_pos hx, if_pos (h x hx)]
  · rw [if_neg hx]
    split <;> omega

/-- With the potential as fuel, `getTransitiveDeps` never runs out. -/
theorem gtdMany_no_fuel (deps : String → List String) (univ : List String)
    (huniv : ∀ n, ∀ d ∈ deps n, d ∈ univ) :
    ∀ fuel ds acc, (∀ d ∈ ds, d ∈ univ) → gtdPot deps univ acc ds ≤ fuel →
      gtdMany deps fuel ds acc ≠ Option.none := by
  intro fuel
  induction fuel with
  | zero =>
    intro ds acc hds hpot
    cases ds with
    | nil => simp [gtdMany]
    | cons d ds' =>
      exfalso
      have : gtdPot deps univ acc (d :: ds') ≥ 1 := by
        unfold gtdPot; simp; omega
      omega
  | succ fuel ih =>
    intro ds acc hds hpot
    cases ds with
    | nil => simp [gtdMany]
    | cons d ds' =>
      have hdu : d ∈ univ := hds d (by simp)
      simp only [gtdMany]
      by_cases h1 : d ∈ acc
      · rw [if_pos h1]
        apply ih ds' acc (fun x hx => hds x (by simp [hx]))
        unfold gtdPot at hpot ⊢
        simp only [List.length_cons] at hpot
        omega
      · rw [if_neg h1]
        have hw : gtdWeight deps acc d = (deps d).length + 1 := by
          unfold gtdWeight; rw [if_neg h1]
        have hnest : gtdPot deps univ (acc ++ [d]) (deps d) + 2 ≤ gtdPot deps univ acc (d :: ds') := by
          unfold gtdPot
          have hle := gtdWeight_le deps acc (acc ++ [d]) (fun x hx => List.mem_append_left _ hx)
          have hwd : gtdWeight deps (acc ++ [d]) d = 0 := by
            unfold gtdWeight
            rw [if_pos (List.mem_append_right _ (by simp))]
          have := mapSum_add_le univ (gtdWeight deps (acc ++ [d])) (gtdWeight deps acc)
            d ((deps d).length + 1) hdu (fun x _ => hle x) (by omega)
          simp only [List.length_cons]
          omega
        cases hn : gtdMany deps fuel (deps d) (acc ++ [d]) with
        | none =>
          exact absurd hn (ih (deps d) (acc ++ [d]) (fun x hx => huniv d x hx) (by omega))
        | some acc2 =>
          apply ih ds' acc2 (fun x hx => hds x (by simp [hx]))
          obtain ⟨⟨u2, ha2⟩, _, _, _⟩ := gtdMany_post deps fuel (deps d) (acc ++ [d]) acc2 hn
          unfold gtdPot
          have hle := gtdWeight_le deps acc acc2
            (fun x hx => by rw [ha2]; exact List.mem_append_left _ (List.mem_append_left _ hx))
          have hwd : gtdWeight deps acc2 d = 0 := by
            unfold gtdWeight
            rw [if_pos (by rw [ha2]; exact List.mem_append_left _ (List.mem_append_right _ (by simp)))]
          have := mapSum_add_le univ (gtdWeight deps acc2) (gtdWeight deps acc)
            d 1 hdu (fun x _ => hle x) (by omega)
          unfold gtdPot at hpot
          simp only [List.length_cons] at hpot
          omega

/-- getTransitiveDepsD computes exactly the transitive dependency
closure. -/
theorem getTransitiveDepsD_spec (st : DaemonSt) (n : String) :
    ∀ m, m ∈ getTransitiveDepsD st n ↔ Relation.TransGen (EdgeF (depsOfD st)) n m := by
  have hno : gtdMany (depsOfD st) (gtdBound st n) (depsOfD st n) [] ≠ Option.none := by
    apply gtdMany_no_fuel (depsOfD st) (univD st) (depsOfD_subset_univ st)
      (gtdBound st n) (depsOfD st n) [] (fun d hd => depsOfD_subset_univ st n d hd)
    unfold gtdPot gtdBound
    have : ∀ m ∈ univD st, gtdWeight (depsOfD st) [] m = (depsOfD st m).length + 1 := by
      intro m _
      unfold gtdWeight
      rw [if_neg (by simp)]
    rw [List.map_congr_left this]
  cases hg : gtdMany (depsOfD st) (gtdBound st n) (depsOfD st n) [] with
  | none => exact absurd hg hno
  | some acc =>
    obtain ⟨_, hb, hc, hd⟩ := gtdMany_post (depsOfD st) (gtdBound st n) (depsOfD st n) [] acc hg
    have hres : getTransitiveDepsD st n = acc := by
      unfold getTransitiveDepsD
      rw [hg]
      rfl
    intro m
    rw [hres]
    constructor
    · intro hm
      rcases hd m hm with h2 | ⟨d0, hd0, hr⟩
      · cases h2
      · exact Relation.TransGen.head' hd0 hr
    · intro htg
      have hclosed : ∀ x ∈ acc, ∀ d ∈ depsOfD st x, d ∈ acc := by
        intro x hx d hdx
        exact hc x hx (by simp) d hdx
      induction htg with
      | single h1 => exact hb _ h1
      | tail h1 h2 ih2 => exact hclosed _ ih2 _ h2

/-- Unfolding lemma for lookup at a cons cell. -/
theorem alGet_cons {β : Type} (k' : String) (c : β) (t : List (String × β)) (k : String) :
    alGet ((k', c) :: t) k = if k' = k then some c else alGet t k := rfl

/-- Unfolding lemma for update at a cons cell. -/
theorem alUpd_cons {β : Type} (k' : String) (c : β) (t : List (String × β)) (k : String) (b : β) :
    alUpd ((k', c) :: t) k b = (if k' = k then (k, b) else (k', c)) :: alUpd t k b := rfl

/-- Updating an existing key makes lookup return the new value. -/
theorem alGet_alUpd_self {β : Type} (l : List (String × β)) (k : String) (v b : β)
    (h : alGet l k = some v) : alGet (alUpd l k b) k = some b := by
  induction l with
  | nil => simp [alGet] at h
  | cons p t ih =>
    obtain ⟨k', c⟩ := p
    rw [alUpd_cons]
    rw [alGet_cons] at h
    by_cases hk : k' = k
    · rw [if_pos hk, alGet_cons, if_pos rfl]
    · rw [if_neg hk] at h
      rw [if_neg hk, alGet_cons, if_neg hk]
      exact ih h

/-- Updating an absent key leaves lookup empty. -/
theorem alGet_alUpd_none {β : Type} (l : List (String × β)) (k : String) (b : β)
    (h : alGet l k = Option.none) : alGet (alUpd l k b) k = Option.none := by
  induction l with
  | nil => simp [alGet, alUpd]
  | cons p t ih =>
    obtain ⟨k', c⟩ := p
    rw [alUpd_cons]
    rw [alGet_cons] at h
    by_cases hk : k' = k
    · rw [if_pos hk] at h; cases h
    · rw [if_neg hk] at h
      rw [if_neg hk, alGet_cons, if_neg hk]
      exact ih h

/-- Updates do not affect other keys. -/
theorem alGet_alUpd_ne {β : Type} (l : List (String × β)) (k k' : String) (b : β)
    (h : k' ≠ k) : alGet (alUpd l k b) k' = alGet l k' := by
  induction l with
  | nil => simp [alGet, alUpd]
  | cons p t ih =>
    obtain ⟨k0, c⟩ := p
    rw [alUpd_cons, alGet_cons]
    by_cases hk : k0 = k
    · rw [if_pos hk, alGet_cons]
      rw [if_neg (fun hc => h hc.symm), if_neg (by rw [hk]; exact fun hc => h hc.symm)]
      exact ih
    · rw [if_neg hk, alGet_cons]
      by_cases hk2 : k0 = k'
      · rw [if_pos hk2, if_pos hk2]
      · rw [if_neg hk2, if_neg hk2]
        exact ih

/-- Updates keep the key list. -/
theorem alUpd_keys {β : Type} (l : List (String × β)) (k : String) (b : β) :
    (alUpd l k b).map Prod.fst = l.map Prod.fst := by
  induction l with
  | nil => simp [alUpd]
  | cons p t ih =>
    obtain ⟨k0, c⟩ := p
    rw [alUpd_cons]
    simp only [List.map_cons]
    by_cases hk : k0 = k
    · rw [if_pos hk]
      simp only [ih]
      rw [hk]
    · rw [if_neg hk]
      simp only [ih]

/-- Lookup misses exactly the non-keys. -/
theorem alGet_none_of_not_key {β : Type} (l : List (String × β)) (k : String)
    (h : k ∉ l.map Prod.fst) : alGet l k = Option.none := by
  induction l with
  | nil => simp [alGet]
  | cons p t ih =>
    obtain ⟨k0, c⟩ := p
    simp only [List.map_cons, List.mem_cons] at h
    push_neg at h
    rw [alGet_cons]
    rw [if_neg (fun hc => h.1 hc.symm)]
    exact ih h.2

theorem sameShape_refl (st : DaemonSt) : SameShape st st :=
  ⟨rfl, rfl, fun _ => rfl, fun _ => rfl⟩

theorem sameShape_trans {a b c : DaemonSt} (h1 : SameShape a b) (h2 : SameShape b c) :
    SameShape a c :=
  ⟨h2.1.trans h1.1, h2.2.1.trans h1.2.1,
    fun n => (h2.2.2.1 n).trans (h1.2.2.1 n),
    fun n => (h2.2.2.2 n).trans (h1.2.2.2 n)⟩

theorem evolves_refl (st : DaemonSt) : Evolves st st :=
  ⟨sameShape_refl st, ⟨[], by simp⟩, fun _ => le_refl _,
    fun _ h => ⟨rfl, rfl⟩, fun _ => ⟨by omega, fun h => absurd h (by omega)⟩⟩

/-- taskDone only depends on the task map. -/
theorem taskDone_congr {st st' : DaemonSt} (n : String)
    (h : alGet st'.tasks n = alGet st.tasks n) : taskDone st' n = taskDone st n := by
  unfold taskDone
  rw [h]

theorem evolves_trans {a b c : DaemonSt} (h1 : Evolves a b) (h2 : Evolves b c) :
    Evolves a c := by
  obtain ⟨s1, ⟨e1, he1⟩, r1, d1, c1⟩ := h1
  obtain ⟨s2, ⟨e2, he2⟩, r2, d2, c2⟩ := h2
  refine ⟨sameShape_trans s1 s2, ⟨e1 ++ e2, by rw [he2, he1, List.append_assoc]⟩,
    fun n => le_trans (r1 n) (r2 n), ?_, ?_⟩
  · intro n hd
    obtain ⟨ha1, hc1⟩ := d1 n hd
    have hd2 : taskDone b n = true := by
      rw [taskDone_congr n ha1]
      exact hd
    obtain ⟨ha2, hc2⟩ := d2 n hd2
    exact ⟨ha2.trans ha1, hc2.trans hc1⟩
  · intro n
    obtain ⟨hle1, hlt1⟩ := c1 n
    obtain ⟨hle2, hlt2⟩ := c2 n
    by_cases h : spawnCount a n < spawnCount b n
    · have hdb := hlt1 h
      obtain ⟨ha2, hc2⟩ := d2 n hdb
      constructor
      · omega
      · intro _
        rw [taskDone_congr n ha2]
        exact hdb
    · constructor
      · omega
      · intro hlt
        exact hlt2 (by omega)

/-- Updating a service without touching its config and without decreasing
its restart count is an evolution. -/
theorem evolves_updSvc (st : DaemonSt) (n : String) (m m0 : ManagedService)
    (hget : alGet st.services n = some m0) (hcfg : m.config = m0.config)
    (hres : m0.state.restarts ≤ m.state.restarts) :
    Evolves st (updSvc st n m) := by
  refine ⟨⟨rfl, alUpd_keys _ _ _, fun k => rfl, ?_⟩, ⟨[], by simp [updSvc]⟩, ?_,
    fun k hk => ⟨rfl, rfl⟩, fun k => ⟨by simp [updSvc, spawnCount], fun h => absurd h (by simp [updSvc, spawnCount])⟩⟩
  · intro k
    by_cases hk : k = n
    · subst hk
      show (alGet (alUpd st.services k m) k).map _ = _
      rw [alGet_alUpd_self _ _ m0 _ hget, hget]
      simp [hcfg]
    · show (alGet (alUpd st.services n m) k).map _ = _
      rw [alGet_alUpd_ne _ _ _ _ hk]
  · intro k
    unfold svcRestarts
    by_cases hk : k = n
    · subst hk
      show _ ≤ (match alGet (alUpd st.services k m) k with
        | some m => m.state.restarts
        | Option.none => 0)
      rw [alGet_alUpd_self _ _ m0 _ hget, hget]
      exact hres
    · show _ ≤ (match alGet (alUpd st.services n m) k with
        | some m => m.state.restarts
        | Option.none => 0)
      rw [alGet_alUpd_ne _ _ _ _ hk]

/-- Updating a non-terminal task without touching its config is an
evolution. -/
theorem evolves_updTask (st : DaemonSt) (n : String) (m m0 : ManagedTask)
    (hget : alGet st.tasks n = some m0) (hcfg : m.config = m0.config)
    (hdone : taskDone st n = false) :
    Evolves st (updTask st n m) := by
  refine ⟨⟨alUpd_keys _ _ _, rfl, ?_, fun k => rfl⟩, ⟨[], by simp [updTask]⟩,
    fun k => le_refl _, ?_, fun k => ⟨by simp [updTask, spawnCount], fun h => absurd h (by simp [updTask, spawnCount])⟩⟩
  · intro k
    by_cases hk : k = n
    · subst hk
      show (alGet (alUpd st.tasks k m) k).map _ = _
      rw [alGet_alUpd_self _ _ m0 _ hget, hget]
      simp [hcfg]
    · show (alGet (alUpd st.tasks n m) k).map _ = _
      rw [alGet_alUpd_ne _ _ _ _ hk]
  · intro k hk
    refine ⟨?_, rfl⟩
    have hkn : k ≠ n := by
      intro hc
      subst hc
      rw [hk] at hdone
      cases hdone
    show alGet (alUpd st.tasks n m) k = _
    rw [alGet_alUpd_ne _ _ _ _ hkn]

/-- Appending a non-spawn event is an evolution. -/
theorem evolves_addEv (st : DaemonSt) (e : Ev) (he : ∀ n, e ≠ Ev.spawnTask n) :
    Evolves st (addEv st e) := by
  have hc : ∀ n, spawnCount (addEv st e) n = spawnCount st n := by
    intro n
    unfold spawnCount addEv
    simp only [List.count_append]
    have : List.count (Ev.spawnTask n) [e] = 0 :=
      List.count_eq_zero.mpr (by simp; exact fun hc => he n hc.symm)
    omega
  refine ⟨⟨rfl, rfl, fun _ => rfl, fun _ => rfl⟩, ⟨[e], rfl⟩, fun _ => le_refl _,
    fun k hk => ⟨rfl, hc k⟩, fun k => ⟨by rw [hc k]; omega, fun h => absurd h (by rw [hc k]; omega)⟩⟩

/-- Setting a service status is an evolution. -/
theorem evolves_setSvcStatus (st : DaemonSt) (n : String) (s : ServiceStatus) :
    Evolves st (setSvcStatus st n s) := by
  unfold setSvcStatus
  cases hget : alGet st.services n with
  | none => exact evolves_refl st
  | some m0 => exact evolves_updSvc st n _ m0 hget rfl (le_refl _)

/-- Changing only bookkeeping fields (pid counter, timers, flags) is an
evolution. -/
theorem evolves_core (st st' : DaemonSt)
    (ht : st'.tasks = st.tasks) (hs : st'.services = st.services)
    (he : st'.events = st.events) : Evolves st st' := by
  refine ⟨⟨by rw [ht], by rw [hs], fun n => by rw [ht], fun n => by rw [hs]⟩,
    ⟨[], by rw [he, List.append_nil]⟩, fun n => ?_, fun n hd => ⟨by rw [ht], ?_⟩, fun n => ?_⟩
  · unfold svcRestarts; rw [hs]
  · unfold spawnCount; rw [he]
  · unfold spawnCount
    rw [he]
    exact ⟨by omega, fun h => absurd h (by omega)⟩

/-- Branch equation: waitForReady on a task name. -/
theorem waitForReadyM_task (o : Oracle) (name : String) (st : DaemonSt) (t : ManagedTask)
    (h : alGet st.tasks name = some t) :
    waitForReadyM o name st =
      if t.state.status = .completed then (st, Option.none)
      else if t.state.status = .failed then (st, some ("Task " ++ name ++ " failed"))
      else (st, some ("Timeout waiting for " ++ name ++ " to become ready")) := by
  unfold waitForReadyM
  rw [h]

/-- Branch equation: waitForReady on a service name. -/
theorem waitForReadyM_svc (o : Oracle) (name : String) (st : DaemonSt) (m : ManagedService)
    (ht : alGet st.tasks name = Option.none) (hs : alGet st.services name = some m) :
    waitForReadyM o name st =
      if m.state.status = .healthy then (st, Option.none)
      else if m.process.isSome && hcHealthy o m.config then
        (setSvcStatus st name .healthy, Option.none)
      else (st, some ("Timeout waiting for " ++ name ++ " to become ready")) := by
  unfold waitForReadyM
  rw [ht, hs]

/-- Branch equation: waitForReady on an unknown name. -/
theorem waitForReadyM_unknown (o : Oracle) (name : String) (st : DaemonSt)
    (ht : alGet st.tasks name = Option.none) (hs : alGet st.services name = Option.none) :
    waitForReadyM o name st =
      (st, some ("Timeout waiting for " ++ name ++ " to become ready")) := by
  unfold waitForReadyM
  rw [ht, hs]

/-- Branch equation: setSvcStatus on a known service. -/
theorem setSvcStatus_some (st : DaemonSt) (n : String) (s : ServiceStatus) (m : ManagedService)
    (h : alGet st.services n = some m) :
    setSvcStatus st n s = updSvc st n { m with state := { m.state with status := s } } := by
  unfold setSvcStatus
  rw [h]

/-- Branch equation: setSvcStatus on an unknown service. -/
theorem setSvcStatus_none (st : DaemonSt) (n : String) (s : ServiceStatus)
    (h : alGet st.services n = Option.none) :
    setSvcStatus st n s = st := by
  unfold setSvcStatus
  rw [h]

/-- Branch equation: runTask on an unknown name. -/
theorem runTaskM_unknown (o : Oracle) (name : String) (st : DaemonSt)
    (h : alGet st.tasks name = Option.none) :
    runTaskM o name st = (st, some ("Unknown task: " ++ name)) := by
  unfold runTaskM
  rw [h]

/-- Branch equation: runTask on a declared task. -/
theorem runTaskM_some (o : Oracle) (name : String) (st : DaemonSt) (m : ManagedTask)
    (h : alGet st.tasks name = some m) :
    runTaskM o name st =
      if m.state.status = .completed ∨ m.state.status = .failed then (st, Option.none)
      else if m.process.isSome then waitForReadyM o name st
      else
        match waitDepsM o (m.config.dependsOn.getD []) st with
        | (st1, some e) => (st1, some e)
        | (st1, Option.none) =>
          let pid := st1.nextPid
          let running : TaskState := { m.state with status := .running, pid := some pid }
          let st2 := addEv
            { updTask st1 name { m with process := some pid, state := running } with nextPid := pid + 1 }
            (.spawnTask name)
          match o.taskExit name with
          | some 0 =>
            let done : TaskState :=
              { status := .completed, pid := Option.none, exitCode := some 0, lastError := m.state.lastError }
            (updTask st2 name { m with process := Option.none, state := done }, Option.none)
          | c =>
            let exitCode := match c with
              | some k => some k
              | Option.none => m.state.exitCode
            let done : TaskState :=
              { status := .failed, pid := Option.none, exitCode := exitCode,
                lastError := some ("Exit code " ++ codeStr c) }
            (updTask st2 name { m with process := Option.none, state := done },
             some ("Task " ++ name ++ " failed with exit code " ++ codeStr c)) := by
  unfold runTaskM
  rw [h]

/-- Branch equation: startService on an unknown name. -/
theorem startServiceM_unknown (o : Oracle) (name : String) (st : DaemonSt)
    (h : alGet st.services name = Option.none) :
    startServiceM o name st = (st, some ("Unknown service: " ++ name)) := by
  unfold startServiceM
  rw [h]

/-- Branch equation: startService on a declared service. -/
theorem startServiceM_some (o : Oracle) (name : String) (st : DaemonSt) (m : ManagedService)
    (h : alGet st.services name = some m) :
    startServiceM o name st =
      if m.process.isSome then (st, Option.none)
      else
        match waitDepsM o (m.config.dependsOn.getD []) st with
        | (st1, some e) => (st1, some e)
        | (st1, Option.none) =>
          let st1 := match m.config.healthCheck with
            | some (.port p) => addEv st1 (.killPort p)
            | _ => st1
          let pid := st1.nextPid
          let starting : ServiceState := { m.state with status := .starting, pid := some pid }
          (addEv
            { updSvc st1 name { m with process := some pid, state := starting } with nextPid := pid + 1 }
            (.spawnService name),
           Option.none) := by
  unfold startServiceM
  rw [h]

/-- Branch equation: handleExit on an unknown name. -/
theorem handleExitM_none (name : String) (code : Option Int) (st : DaemonSt)
    (h : alGet st.services name = Option.none) :
    handleExitM name code st = st := by
  unfold handleExitM
  rw [h]

/-- Branch equation: handleExit on a declared service, fully expanded. -/
theorem handleExitM_some (name : String) (code : Option Int) (st : DaemonSt)
    (m0 : ManagedService) (h : alGet st.services name = some m0) :
    handleExitM name code st =
      (if st.shuttingDown then
        updSvc st name
          { m0 with process := Option.none,
                    state := { m0.state with pid := Option.none, status := .stopped } }
      else if m0.config.restartPolicy.getD .onFailure = .never then
        updSvc st name
          { m0 with process := Option.none,
                    state := { m0.state with pid := Option.none, status := .stopped } }
      else if code = some 0 ∧ m0.config.restartPolicy.getD .onFailure ≠ .always then
        updSvc st name
          { m0 with process := Option.none,
                    state := { m0.state with pid := Option.none, status := .stopped } }
      else if m0.state.restarts + 1 > m0.config.maxRestarts.getD 10 then
        updSvc st name
          { m0 with process := Option.none,
                    state := { m0.state with
                               pid := Option.none, status := .crashed,
                               restarts := m0.state.restarts + 1,
                               lastError := some ("Exceeded max restarts after exit code " ++ codeStr code) } }
      else
        { updSvc st name
            { m0 with process := Option.none,
                      state := { m0.state with
                                 pid := Option.none,
                                 restarts := m0.state.restarts + 1,
                                 lastError := some ("Exit code " ++ codeStr code) } }
          with pendingRestarts :=
            st.pendingRestarts ++ [(name, min (1000 * 2 ^ (m0.state.restarts + 1 - 1)) 30000)] }) := by
  unfold handleExitM
  rw [h]

/-- Branch equation: stopService on an unknown name. -/
theorem stopServiceM_none (o : Oracle) (name : String) (st : DaemonSt)
    (h : alGet st.services name = Option.none) :
    stopServiceM o name st = st := by
  unfold stopServiceM
  rw [h]

/-- Branch equation: stopService on a declared service. -/
theorem stopServiceM_some (o : Oracle) (name : String) (st : DaemonSt) (m : ManagedService)
    (h : alGet st.services name = some m) :
    stopServiceM o name st =
      if m.process.isSome then
        setSvcStatus (handleExitM name (o.stopExit name) (addEv st (.kill name))) name .stopped
      else st := by
  unfold stopServiceM
  rw [h]

/-- Branch equation: one health tick on an unknown name. -/
theorem healthTickSvc_none (o : Oracle) (st : DaemonSt) (name : String)
    (h : alGet st.services name = Option.none) :
    healthTickSvc o st name = st := by
  unfold healthTickSvc
  rw [h]

/-- Branch equation: one health tick on a declared service. -/
theorem healthTickSvc_some (o : Oracle) (st : DaemonSt) (name : String) (m : ManagedService)
    (h : alGet st.services name = some m) :
    healthTickSvc o st name =
      if m.process.isSome then
        match m.config.healthCheck with
        | Option.none => setSvcStatus st name .healthy
        | some .none => setSvcStatus st name .healthy
        | some hc =>
          let healthy := match hc with
            | .port p => o.portInUse p
            | .http u => o.httpOk u
            | .none => true
          setSvcStatus (addEv st (.probe name hc)) name (if healthy then .healthy else .unhealthy)
      else st := by
  unfold healthTickSvc
  rw [h]

/-- Branch equation: startAllServices when topoSort fails. -/
theorem startAllServicesM_err (o : Oracle) (t : Option String) (st : DaemonSt) (e : TopoErr)
    (h : topoSortD st = .error e) :
    startAllServicesM o t st = (st, some e.message) := by
  unfold startAllServicesM
  rw [h]

/-- Branch equation: startAllServices when topoSort succeeds. -/
theorem startAllServicesM_ok (o : Oracle) (t : Option String) (st : DaemonSt) (sorted : List String)
    (h : topoSortD st = .ok sorted) :
    startAllServicesM o t st =
      startLoop o
        (match t with
         | Option.none => sorted
         | some tgt =>
           let needed := getTransitiveDepsD st tgt ++ [tgt]
           sorted.filter (fun n => needed.contains n)) st := by
  unfold startAllServicesM
  rw [h]

/-- Branch equation: stopAllServices when topoSort fails. -/
theorem stopAllServicesM_err (o : Oracle) (st : DaemonSt) (e : TopoErr)
    (h : topoSortD st = .error e) :
    stopAllServicesM o st = (st, some e.message) := by
  unfold stopAllServicesM
  rw [h]

/-- Branch equation: stopAllServices when topoSort succeeds. -/
theorem stopAllServicesM_ok (o : Oracle) (st : DaemonSt) (sorted : List String)
    (h : topoSortD st = .ok sorted) :
    stopAllServicesM o st =
      ((sorted.reverse).foldl (fun s n => stopServiceM o n s) st, Option.none) := by
  unfold stopAllServicesM
  rw [h]

theorem frameEq_refl (st : DaemonSt) : FrameEq st st :=
  ⟨rfl, rfl, rfl, rfl, rfl, rfl⟩

theorem frameEq_trans {a b c : DaemonSt} (h1 : FrameEq a b) (h2 : FrameEq b c) : FrameEq a c :=
  ⟨h2.1.trans h1.1, h2.2.1.trans h1.2.1, h2.2.2.1.trans h1.2.2.1,
    h2.2.2.2.1.trans h1.2.2.2.1, h2.2.2.2.2.1.trans h1.2.2.2.2.1,
    h2.2.2.2.2.2.trans h1.2.2.2.2.2⟩

theorem setSvcStatus_frame (st : DaemonSt) (n : String) (s : ServiceStatus) :
    FrameEq st (setSvcStatus st n s) := by
  cases h : alGet st.services n with
  | none => rw [setSvcStatus_none st n s h]; exact frameEq_refl st
  | some m => rw [setSvcStatus_some st n s m h]; exact frameEq_refl st

/-- waitForReady leaves everything but service states untouched. -/
theorem waitForReadyM_frame (o : Oracle) (name : String) (st : DaemonSt) :
    FrameEq st (waitForReadyM o name st).1 := by
  cases ht : alGet st.tasks name with
  | some t =>
    rw [waitForReadyM_task o name st t ht]
    split_ifs <;> exact frameEq_refl st
  | none =>
    cases hs : alGet st.services name with
    | some m =>
      rw [waitForReadyM_svc o name st m ht hs]
      split_ifs with h1 h2
      · exact frameEq_refl st
      · exact setSvcStatus_frame st name .healthy
      · exact frameEq_refl st
    | none =>
      rw [waitForReadyM_unknown o name st ht hs]
      exact frameEq_refl st

theorem evolves_waitForReadyM (o : Oracle) (name : String) (st : DaemonSt) :
    Evolves st (waitForReadyM o name st).1 := by
  cases ht : alGet st.tasks name with
  | some t =>
    rw [waitForReadyM_task o name st t ht]
    split_ifs <;> exact evolves_refl st
  | none =>
    cases hs : alGet st.services name with
    | some m =>
      rw [waitForReadyM_svc o name st m ht hs]
      split_ifs with h1 h2
      · exact evolves_refl st
      · exact evolves_setSvcStatus st name .healthy
      · exact evolves_refl st
    | none =>
      rw [waitForReadyM_unknown o name st ht hs]
      exact evolves_refl st

/-- A service entry with no live process is untouched by waitForReady. -/
theorem waitForReadyM_svc_noproc (o : Oracle) (d : String) (st : DaemonSt) (k : String)
    (mk : ManagedService) (hk : alGet st.services k = some mk)
    (hp : mk.process = Option.none) :
    alGet ((waitForReadyM o d st).1).services k = some mk := by
  cases ht : alGet st.tasks d with
  | some t =>
    rw [waitForReadyM_task o d st t ht]
    split_ifs <;> exact hk
  | none =>
    cases hs : alGet st.services d with
    | some m =>
      rw [waitForReadyM_svc o d st m ht hs]
      split_ifs with h1 h2
      · exact hk
      · by_cases hdk : d = k
        · subst hdk
          rw [hs] at hk
          cases hk
          rw [hp] at h2
          simp at h2
        · rw [setSvcStatus_some st d .healthy m hs]
          show alGet (alUpd st.services d _) k = some mk
          rw [alGet_alUpd_ne _ _ _ _ (fun hc => hdk hc.symm)]
          exact hk
      · exact hk
    | none =>
      rw [waitForReadyM_unknown o d st ht hs]
      exact hk

/-- Frame lemma for the dependency-wait loop. -/
theorem waitDepsM_frame (o : Oracle) : ∀ (ds : List String) (st : DaemonSt),
    FrameEq st (waitDepsM o ds st).1 := by
  intro ds
  induction ds with
  | nil => intro st; exact frameEq_refl st
  | cons d ds ih =>
    intro st
    unfold waitDepsM
    cases hw : waitForReadyM o d st with
    | mk st1 err =>
      have hf : FrameEq st st1 := by
        have := waitForReadyM_frame o d st
        rw [hw] at this
        exact this
      cases err with
      | none => exact frameEq_trans hf (ih st1)
      | some e => exact hf

theorem evolves_waitDepsM (o : Oracle) : ∀ (ds : List String) (st : DaemonSt),
    Evolves st (waitDepsM o ds st).1 := by
  intro ds
  induction ds with
  | nil => intro st; exact evolves_refl st
  | cons d ds ih =>
    intro st
    unfold waitDepsM
    cases hw : waitForReadyM o d st with
    | mk st1 err =>
      have h1 : Evolves st st1 := by
        have := evolves_waitForReadyM o d st
        rw [hw] at this
        exact this
      cases err with
      | none => exact evolves_trans h1 (ih st1)
      | some e => exact h1

/-- A service entry with no live process is untouched by the wait loop. -/
theorem waitDepsM_svc_noproc (o : Oracle) : ∀ (ds : List String) (st : DaemonSt)
    (k : String) (mk : ManagedService), alGet st.services k = some mk →
    mk.process = Option.none →
    alGet ((waitDepsM o ds st).1).services k = some mk := by
  intro ds
  induction ds with
  | nil => intro st k mk hk _; exact hk
  | cons d ds ih =>
    intro st k mk hk hp
    unfold waitDepsM
    cases hw : waitForReadyM o d st with
    | mk st1 err =>
      have h1 : alGet st1.services k = some mk := by
        have := waitForReadyM_svc_noproc o d st k mk hk hp
        rw [hw] at this
        exact this
      cases err with
      | none => exact ih st1 k mk h1 hp
      | some e => exact h1

theorem count_spawn_singleton (name k : String) :
    List.count (Ev.spawnTask k) [Ev.spawnTask name] = if k = name then 1 else 0 := by
  by_cases h : k = name
  · subst h
    simp [List.count_singleton]
  · rw [if_neg h]
    refine List.count_eq_zero.mpr ?_
    intro hmem
    rw [List.mem_singleton] at hmem
    exact h (Ev.spawnTask.inj hmem)

/-- The run-once spawn step of runTask: mark running, record the spawn
event, settle terminal. This whole step is an evolution. -/
theorem evolves_spawn_task (st1 : DaemonSt) (name : String) (m mRun mDone : ManagedTask)
    (p : Nat) (hget : alGet st1.tasks name = some m)
    (hcfgR : mRun.config = m.config) (hcfgD : mDone.config = m.config)
    (hndone : statusDone m.state.status = false)
    (hdone : statusDone mDone.state.status = true) :
    Evolves st1 (updTask (addEv { updTask st1 name mRun with nextPid := p } (.spawnTask name)) name mDone) := by
  have hgetR : alGet (alUpd st1.tasks name mRun) name = some mRun :=
    alGet_alUpd_self _ _ m _ hget
  have hgetD : alGet (alUpd (alUpd st1.tasks name mRun) name mDone) name = some mDone :=
    alGet_alUpd_self _ _ mRun _ hgetR
  have hne : ∀ k, k ≠ name → alGet (alUpd (alUpd st1.tasks name mRun) name mDone) k = alGet st1.tasks k := by
    intro k hk
    rw [alGet_alUpd_ne _ _ _ _ hk, alGet_alUpd_ne _ _ _ _ hk]
  have hdone1 : taskDone st1 name = false := by
    unfold taskDone
    rw [hget]
    exact hndone
  have hcount : ∀ k, spawnCount (updTask (addEv { updTask st1 name mRun with nextPid := p } (.spawnTask name)) name mDone) k =
      spawnCount st1 k + (if k = name then 1 else 0) := by
    intro k
    unfold spawnCount updTask addEv
    simp only [List.count_append]
    rw [count_spawn_singleton name k]
  refine ⟨⟨?_, rfl, ?_, fun k => rfl⟩, ⟨[.spawnTask name], rfl⟩, fun k => le_refl _, ?_, ?_⟩
  · show (alUpd (alUpd st1.tasks name mRun) name mDone).map Prod.fst = st1.tasks.map Prod.fst
    rw [alUpd_keys, alUpd_keys]
  · intro k
    by_cases hk : k = name
    · subst hk
      show (alGet (alUpd (alUpd st1.tasks k mRun) k mDone) k).map _ = _
      rw [hgetD, hget]
      simp [hcfgD]
    · show (alGet (alUpd (alUpd st1.tasks name mRun) name mDone) k).map _ = _
      rw [hne k hk]
  · intro k hk
    have hkn : k ≠ name := by
      intro hc
      subst hc
      rw [hk] at hdone1
      cases hdone1
    refine ⟨hne k hkn, ?_⟩
    rw [hcount k, if_neg hkn]
    omega
  · intro k
    rw [hcount k]
    by_cases hk : k = name
    · subst hk
      rw [if_pos rfl]
      refine ⟨by omega, fun _ => ?_⟩
      unfold taskDone
      show (match alGet (alUpd (alUpd st1.tasks k mRun) k mDone) k with
        | some m => statusDone m.state.status
        | Option.none => false) = true
      rw [hgetD]
      exact hdone
    · rw [if_neg hk]
      exact ⟨by omega, fun h => absurd h (by omega)⟩

theorem evolves_runTaskM (o : Oracle) (name : String) (st : DaemonSt) :
    Evolves st (runTaskM o name st).1 := by
  cases hget : alGet st.tasks name with
  | none => rw [runTaskM_unknown o name st hget]; exact evolves_refl st
  | some m =>
    rw [runTaskM_some o name st m hget]
    by_cases h1 : m.state.status = .completed ∨ m.state.status = .failed
    · rw [if_pos h1]; exact evolves_refl st
    · rw [if_neg h1]
      by_cases h2 : m.process.isSome = true
      · rw [if_pos h2]; exact evolves_waitForReadyM o name st
      · rw [if_neg h2]
        cases hw : waitDepsM o (m.config.dependsOn.getD []) st with
        | mk st1 err =>
          have hev1 : Evolves st st1 := by
            have := evolves_waitDepsM o (m.config.dependsOn.getD []) st
            rw [hw] at this
            exact this
          have hfr1 : FrameEq st st1 := by
            have := waitDepsM_frame o (m.config.dependsOn.getD []) st
            rw [hw] at this
            exact this
          have hget1 : alGet st1.tasks name = some m := by
            rw [hfr1.1]
            exact hget
          have hndone : statusDone m.state.status = false := by
            cases hst : m.state.status with
            | completed => exact absurd (Or.inl hst) h1
            | failed => exact absurd (Or.inr hst) h1
            | pending => rfl
            | running => rfl
          cases err with
          | some e => exact hev1
          | none =>
            cases hex : o.taskExit name with
            | some c =>
              cases c with
              | ofNat k =>
                cases k with
                | zero =>
                  exact evolves_trans hev1
                    (evolves_spawn_task st1 name m _ _ _ hget1 rfl rfl hndone rfl)
                | succ k2 =>
                  exact evolves_trans hev1
                    (evolves_spawn_task st1 name m _ _ _ hget1 rfl rfl hndone rfl)
              | negSucc k =>
                exact evolves_trans hev1
                  (evolves_spawn_task st1 name m _ _ _ hget1 rfl rfl hndone rfl)
            | none =>
              exact evolves_trans hev1
                (evolves_spawn_task st1 name m _ _ _ hget1 rfl rfl hndone rfl)

/-- The spawn step of startService is an evolution. -/
theorem evolves_spawn_service (stk : DaemonSt) (name : String) (m mNew : ManagedService)
    (p : Nat) (hget : alGet stk.services name = some m) (hcfg : mNew.config = m.config)
    (hres : m.state.restarts ≤ mNew.state.restarts) :
    Evolves stk (addEv { updSvc stk name mNew with nextPid := p } (.spawnService name)) :=
  evolves_trans (evolves_updSvc stk name mNew m hget hcfg hres)
    (evolves_trans (evolves_core _ _ rfl rfl rfl)
      (evolves_addEv _ _ (fun n h => Ev.noConfusion h)))

theorem evolves_startServiceM (o : Oracle) (name : String) (st : DaemonSt) :
    Evolves st (startServiceM o name st).1 := by
  cases hget : alGet st.services name with
  | none => rw [startServiceM_unknown o name st hget]; exact evolves_refl st
  | some m =>
    rw [startServiceM_some o name st m hget]
    by_cases h1 : m.process.isSome = true
    · rw [if_pos h1]; exact evolves_refl st
    · rw [if_neg h1]
      have hp : m.process = Option.none := by
        cases hpp : m.process with
        | none => rfl
        | some q => rw [hpp] at h1; simp at h1
      cases hw : waitDepsM o (m.config.dependsOn.getD []) st with
      | mk st1 err =>
        have hev1 : Evolves st st1 := by
          have := evolves_waitDepsM o (m.config.dependsOn.getD []) st
          rw [hw] at this
          exact this
        have hget1 : alGet st1.services name = some m := by
          have := waitDepsM_svc_noproc o (m.config.dependsOn.getD []) st name m hget hp
          rw [hw] at this
          exact this
        cases err with
        | some e => exact hev1
        | none =>
          cases hhc : m.config.healthCheck with
          | none =>
            exact evolves_trans hev1 (evolves_spawn_service st1 name m _ _ hget1 rfl (le_refl _))
          | some hc =>
            cases hc with
            | port p =>
              have hgetk : alGet (addEv st1 (.killPort p)).services name = some m := hget1
              exact evolves_trans hev1
                (evolves_trans (evolves_addEv st1 (.killPort p) (fun n h => Ev.noConfusion h))
                  (evolves_spawn_service (addEv st1 (.killPort p)) name m _ _ hgetk rfl (le_refl _)))
            | http u =>
              exact evolves_trans hev1 (evolves_spawn_service st1 name m _ _ hget1 rfl (le_refl _))
            | none =>
              exact evolves_trans hev1 (evolves_spawn_service st1 name m _ _ hget1 rfl (le_refl _))

theorem evolves_startLoop (o : Oracle) : ∀ (L : List String) (st : DaemonSt),
    Evolves st (startLoop o L st).1 := by
  intro L
  induction L with
  | nil => intro st; exact evolves_refl st
  | cons n ns ih =>
    intro st
    unfold startLoop
    cases hr : (if isTaskD st n then runTaskM o n st else startServiceM o n st) with
    | mk st1 err =>
      have hev : Evolves st st1 := by
        by_cases ht : isTaskD st n = true
        · rw [if_pos ht] at hr
          have := evolves_runTaskM o n st
          rw [hr] at this
          exact this
        · rw [if_neg ht] at hr
          have := evolves_startServiceM o n st
          rw [hr] at this
          exact this
      cases err with
      | none => exact evolves_trans hev (ih st1)
      | some e => exact hev

theorem evolves_startAllServicesM (o : Oracle) (t : Option String) (st : DaemonSt) :
    Evolves st (startAllServicesM o t st).1 := by
  cases he : topoSortD st with
  | error e => rw [startAllServicesM_err o t st e he]; exact evolves_refl st
  | ok sorted =>
    rw [startAllServicesM_ok o t st sorted he]
    exact evolves_startLoop o _ st

theorem evolves_handleExitM (name : String) (code : Option Int) (st : DaemonSt) :
    Evolves st (handleExitM name code st) := by
  cases hget : alGet st.services name with
  | none => rw [handleExitM_none name code st hget]; exact evolves_refl st
  | some m0 =>
    rw [handleExitM_some name code st m0 hget]
    split_ifs
    · exact evolves_updSvc st name _ m0 hget rfl (le_refl _)
    · exact evolves_updSvc st name _ m0 hget rfl (le_refl _)
    · exact evolves_updSvc st name _ m0 hget rfl (le_refl _)
    · exact evolves_updSvc st name _ m0 hget rfl (Nat.le_succ _)
    · have h1 : Evolves st (updSvc st name
          { m0 with process := Option.none,
                    state := { m0.state with
                               pid := Option.none,
                               restarts := m0.state.restarts + 1,
                               lastError := some ("Exit code " ++ codeStr code) } }) :=
        evolves_updSvc st name _ m0 hget rfl (Nat.le_succ _)
      exact evolves_trans h1 (evolves_core _ _ rfl rfl rfl)

theorem evolves_stopServiceM (o : Oracle) (name : String) (st : DaemonSt) :
    Evolves st (stopServiceM o name st) := by
  cases hget : alGet st.services name with
  | none => rw [stopServiceM_none o name st hget]; exact evolves_refl st
  | some m =>
    rw [stopServiceM_some o name st m hget]
    by_cases h1 : m.process.isSome = true
    · rw [if_pos h1]
      exact evolves_trans (evolves_addEv st (.kill name) (fun n h => Ev.noConfusion h))
        (evolves_trans (evolves_handleExitM name (o.stopExit name) _)
          (evolves_setSvcStatus _ name .stopped))
    · rw [if_neg h1]; exact evolves_refl st

theorem evolves_healthTickSvc (o : Oracle) (st : DaemonSt) (name : String) :
    Evolves st (healthTickSvc o st name) := by
  cases hget : alGet st.services name with
  | none => rw [healthTickSvc_none o st name hget]; exact evolves_refl st
  | some m =>
    rw [healthTickSvc_some o st name m hget]
    by_cases h1 : m.process.isSome = true
    · rw [if_pos h1]
      cases m.config.healthCheck with
      | none => exact evolves_setSvcStatus st name .healthy
      | some hc =>
        cases hc with
        | none => exact evolves_setSvcStatus st name .healthy
        | port p =>
          exact evolves_trans (evolves_addEv st _ (fun n h => Ev.noConfusion h))
            (evolves_setSvcStatus _ name _)
        | http u =>
          exact evolves_trans (evolves_addEv st _ (fun n h => Ev.noConfusion h))
            (evolves_setSvcStatus _ name _)
    · rw [if_neg h1]; exact evolves_refl st

theorem evolves_foldl (f : DaemonSt → String → DaemonSt)
    (hf : ∀ st n, Evolves st (f st n)) :
    ∀ (L : List String) (st : DaemonSt), Evolves st (L.foldl f st) := by
  intro L
  induction L with
  | nil => intro st; exact evolves_refl st
  | cons n ns ih =>
    intro st
    rw [List.foldl_cons]
    exact evolves_trans (hf st n) (ih (f st n))

theorem evolves_runHealthChecksM (o : Oracle) (st : DaemonSt) :
    Evolves st (runHealthChecksM o st) :=
  evolves_foldl (healthTickSvc o) (evolves_healthTickSvc o) _ st

theorem evolves_stopAllServicesM (o : Oracle) (st : DaemonSt) :
    Evolves st (stopAllServicesM o st).1 := by
  cases he : topoSortD st with
  | error e => rw [stopAllServicesM_err o st e he]; exact evolves_refl st
  | ok sorted =>
    rw [stopAllServicesM_ok o st sorted he]
    exact evolves_foldl _ (fun s n => evolves_stopServiceM o n s) _ st

theorem evolves_shutdownM (o : Oracle) (st : DaemonSt) :
    Evolves st (shutdownM o st) := by
  unfold shutdownM
  by_cases h : st.shuttingDown = true
  · rw [if_pos h]; exact evolves_refl st
  · rw [if_neg h]
    exact evolves_trans (evolves_core st _ rfl rfl rfl)
      (evolves_stopAllServicesM o { st with shuttingDown := true })

theorem respOf_fst (r : DaemonSt × Option String) : (respOf r).1 = r.1 := by
  obtain ⟨st, err⟩ := r
  cases err with
  | none => rfl
  | some e => rfl

theorem evolves_handleCommandM (o : Oracle) (c : Command) (st : DaemonSt) :
    Evolves st (handleCommandM o c st).1 := by
  cases c with
  | status => exact evolves_refl st
  | start s =>
    cases s with
    | some name =>
      show Evolves st (respOf _).1
      rw [respOf_fst]
      by_cases ht : isTaskD st name = true
      · rw [if_pos ht]; exact evolves_runTaskM o name st
      · rw [if_neg ht]; exact evolves_startServiceM o name st
    | none =>
      show Evolves st (respOf _).1
      rw [respOf_fst]
      exact evolves_startAllServicesM o Option.none st
  | stop s =>
    cases s with
    | some name => exact evolves_stopServiceM o name st
    | none =>
      show Evolves st (respOf _).1
      rw [respOf_fst]
      exact evolves_stopAllServicesM o st
  | restart s =>
    cases s with
    | some name =>
      show Evolves st (respOf _).1
      rw [respOf_fst]
      exact evolves_trans (evolves_stopServiceM o name st)
        (evolves_startServiceM o name (stopServiceM o name st))
    | none =>
      show Evolves st (match stopAllServicesM o st with
        | (st1, some e) => (st1, (⟨false, some ("Error: " ++ e)⟩ : Resp))
        | (st1, Option.none) => respOf (startAllServicesM o Option.none st1)).1
      cases hs : stopAllServicesM o st with
      | mk st1 err =>
        have hev1 : Evolves st st1 := by
          have := evolves_stopAllServicesM o st
          rw [hs] at this
          exact this
        cases err with
        | some e => exact hev1
        | none =>
          show Evolves st (respOf (startAllServicesM o Option.none st1)).1
          rw [respOf_fst]
          exact evolves_trans hev1 (evolves_startAllServicesM o Option.none st1)
  | logs s lines =>
    by_cases h : o.logExists s = true
    · show Evolves st (if o.logExists s then (st, _) else (st, _)).1
      rw [if_pos h]
      exact evolves_refl st
    · show Evolves st (if o.logExists s then (st, _) else (st, _)).1
      rw [if_neg h]
      exact evolves_refl st
  | down => exact evolves_core st _ rfl rfl rfl

theorem evolves_stepM (o : Oracle) (st : DaemonSt) (e : DEvent) (st' : DaemonSt)
    (h : stepM o st e = some st') : Evolves st st' := by
  cases e with
  | command c =>
    have h2 : some (handleCommandM o c st).1 = some st' := h
    rw [← Option.some.inj h2]
    exact evolves_handleCommandM o c st
  | exitEv name code =>
    have h2 : (match alGet st.services name with
      | some m => if m.process.isSome = true then some (handleExitM name code st) else Option.none
      | Option.none => Option.none) = some st' := h
    cases hget : alGet st.services name with
    | none => rw [hget] at h2; cases h2
    | some m =>
      rw [hget] at h2
      have h3 : (if m.process.isSome = true then some (handleExitM name code st) else Option.none) =
          some st' := h2
      by_cases hp : m.process.isSome = true
      · rw [if_pos hp] at h3
        rw [← Option.some.inj h3]
        exact evolves_handleExitM name code st
      · rw [if_neg hp] at h3; cases h3
  | timerFire name delay =>
    have h2 : (if (name, delay) ∈ st.pendingRestarts then
        (if st.shuttingDown = true
         then some { st with pendingRestarts := st.pendingRestarts.erase (name, delay) }
         else some (startServiceM o name { st with pendingRestarts := st.pendingRestarts.erase (name, delay) }).1)
      else Option.none) = some st' := h
    by_cases hmem : (name, delay) ∈ st.pendingRestarts
    · rw [if_pos hmem] at h2
      by_cases hsd : st.shuttingDown = true
      · rw [if_pos hsd] at h2
        rw [← Option.some.inj h2]
        exact evolves_core st _ rfl rfl rfl
      · rw [if_neg hsd] at h2
        rw [← Option.some.inj h2]
        exact evolves_trans (evolves_core st _ rfl rfl rfl)
          (evolves_startServiceM o name _)
    · rw [if_neg hmem] at h2; cases h2
  | healthTick =>
    have h2 : (if st.shuttingDown = true then Option.none else some (runHealthChecksM o st)) = some st' := h
    by_cases hsd : st.shuttingDown = true
    · rw [if_pos hsd] at h2; cases h2
    · rw [if_neg hsd] at h2
      rw [← Option.some.inj h2]
      exact evolves_runHealthChecksM o st
  | shutdownEv =>
    have h2 : some (shutdownM o st) = some st' := h
    rw [← Option.some.inj h2]
    exact evolves_shutdownM o st

/-- C1: for every acyclic configuration of tasks and services, topoSort
succeeds, and the returned order is a valid topological order: it lists
every declared entity, without duplicates, and every entity appears
strictly after each of its direct and transitive dependencies. Ties are
broken deterministically by declared order because topoSort is a function
that visits tasks then services in declared order, depth-first. -/
theorem claim1_topoSort_topological_order (cfg : Config) (hacyc : Acyclic cfg) :
    ∃ r, topoSort cfg = .ok r ∧ r.Nodup ∧ (∀ n ∈ rootNames cfg, n ∈ r) ∧
      (∀ n m, n ∈ r → Relation.TransGen (Edge cfg) n m → m ∈ r ∧ idxOf r m < idxOf r n) := by
  have hacyc2 : ∀ n, ¬ Relation.TransGen (EdgeF (depsOfD (initDaemon cfg))) n n :=
    fun n h => hacyc n h
  obtain ⟨r, hr⟩ := topoSortD_ok_of_acyclic (initDaemon cfg) hacyc2
  obtain ⟨hB, hN, hcov, _⟩ := topoSortD_ok _ r hr
  exact ⟨r, hr, hN, hcov, fun n m hn htg => topoB_descend _ r hB hN n m htg hn⟩

/-- C1 witness: the demo configuration is acyclic and the theorem applies
to it. -/
theorem claim1_witness :
    Acyclic cfgDemo ∧
    (∃ r, topoSort cfgDemo = .ok r ∧ r.Nodup ∧ (∀ n ∈ rootNames cfgDemo, n ∈ r) ∧
      (∀ n m, n ∈ r → Relation.TransGen (Edge cfgDemo) n m → m ∈ r ∧ idxOf r m < idxOf r n)) := by
  have hok : topoSortD (initDaemon cfgDemo) = .ok ["migrate", "web", "worker"] := by decide
  have hacyc : Acyclic cfgDemo := fun n h => topoSortD_acyclic_of_ok _ _ hok n h
  exact ⟨hacyc, claim1_topoSort_topological_order cfgDemo hacyc⟩

/-- C2: every configuration whose combined task+service dependency graph
has a cycle makes startup fail: startAllServices raises the circular
dependency error naming an entity genuinely on a cycle, the state is
completely unchanged, and no process is spawned (the fresh daemon's event
log is empty and stays empty). -/
theorem claim2_cycle_fails_without_spawn (cfg : Config)
    (hcyc : ∃ n, Relation.TransGen (Edge cfg) n n) :
    ∃ n, Relation.TransGen (Edge cfg) n n ∧
      (∀ (o : Oracle) (t : Option String),
        startAllServicesM o t (initDaemon cfg) =
          (initDaemon cfg, some ("Circular dependency detected involving " ++ n))) ∧
      (initDaemon cfg).events = [] := by
  cases ht : topoSortD (initDaemon cfg) with
  | ok r =>
    exfalso
    obtain ⟨n, hn⟩ := hcyc
    exact topoSortD_acyclic_of_ok _ r ht n hn
  | error e =>
    cases e with
    | fuel => exact absurd ht (topoSortD_no_fuel _)
    | cycle n =>
      refine ⟨n, topoSortD_cycle _ n ht, ?_, rfl⟩
      intro o t
      rw [startAllServicesM_err o t _ (.cycle n) ht]
      rfl

/-- C2 witness: the two-service cycle configuration has a cycle and the
theorem applies to it. -/
theorem claim2_witness :
    (∃ n, Relation.TransGen (Edge cfgCyc) n n) ∧
    (∃ n, Relation.TransGen (Edge cfgCyc) n n ∧
      (∀ (o : Oracle) (t : Option String),
        startAllServicesM o t (initDaemon cfgCyc) =
          (initDaemon cfgCyc, some ("Circular dependency detected involving " ++ n))) ∧
      (initDaemon cfgCyc).events = []) := by
  have hab : Edge cfgCyc "a" "b" := by unfold Edge; decide
  have hba : Edge cfgCyc "b" "a" := by unfold Edge; decide
  have hcyc : ∃ n, Relation.TransGen (Edge cfgCyc) n n :=
    ⟨"a", Relation.TransGen.head hab (Relation.TransGen.single hba)⟩
  exact ⟨hcyc, claim2_cycle_fails_without_spawn cfgCyc hcyc⟩

/-- Starting through a list containing an undeclared name always fails. -/
theorem startLoop_unknown (o : Oracle) : ∀ (L : List String) (st : DaemonSt) (u : String),
    u ∈ L → alGet st.tasks u = Option.none → alGet st.services u = Option.none →
    (startLoop o L st).2.isSome = true := by
  intro L
  induction L with
  | nil => intro st u hu _ _; cases hu
  | cons n ns ih =>
    intro st u hu htu hsu
    unfold startLoop
    cases hr : (if isTaskD st n then runTaskM o n st else startServiceM o n st) with
    | mk st1 err =>
      cases err with
      | some e2 => rfl
      | none =>
        rcases List.mem_cons.mp hu with h1 | h1
        · subst h1
          exfalso
          have hft : isTaskD st u = false := by
            unfold isTaskD
            rw [htu]
            rfl
          rw [if_neg (by rw [hft]; exact Bool.false_ne_true)] at hr
          rw [startServiceM_unknown o u st hsu] at hr
          cases hr
        · have hev : Evolves st st1 := by
            by_cases htsk : isTaskD st n = true
            · rw [if_pos htsk] at hr
              have := evolves_runTaskM o n st
              rw [hr] at this
              exact this
            · rw [if_neg htsk] at hr
              have := evolves_startServiceM o n st
              rw [hr] at this
              exact this
          have hsh := hev.1
          apply ih st1 u h1
          · have hmap := hsh.2.2.1 u
            rw [htu] at hmap
            exact Option.map_eq_none'.mp (by rw [hmap]; rfl)
          · have hmap := hsh.2.2.2 u
            rw [hsu] at hmap
            exact Option.map_eq_none'.mp (by rw [hmap]; rfl)

/-- C4 counterexample to the claim as stated: with an unresolved
dependency name, full startup does fail, but a process (here the unrelated
task) has already been spawned before the failure, so startup does not
fail "before any process is spawned". -/
theorem claim4_counterexample :
    "missing" ∈ depsOf cfgMissing "b" ∧ "missing" ∉ rootNames cfgMissing ∧
    (startAllServicesM oDemo Option.none (initDaemon cfgMissing)).2 =
      some "Unknown service: missing" ∧
    (startAllServicesM oDemo Option.none (initDaemon cfgMissing)).1.events =
      [Ev.spawnTask "a"] := by
  decide

/-- C4 amended: for every configuration containing a dependency name that
resolves to no declared task or service, full startup fails (with the
unknown-entity error when the unresolved name is reached in resolved
order), but entities earlier in the resolved order may already have been
spawned before the failure. -/
theorem claim4_amended (cfg : Config) (e u : String)
    (he : e ∈ rootNames cfg) (hu : u ∈ depsOf cfg e) (hnu : u ∉ rootNames cfg) :
    ∀ o : Oracle, (startAllServicesM o Option.none (initDaemon cfg)).2.isSome = true := by
  intro o
  have htu : alGet (initDaemon cfg).tasks u = Option.none := by
    apply alGet_none_of_not_key
    intro hc
    exact hnu (List.mem_append_left _ hc)
  have hsu : alGet (initDaemon cfg).services u = Option.none := by
    apply alGet_none_of_not_key
    intro hc
    exact hnu (List.mem_append_right _ hc)
  cases ht : topoSortD (initDaemon cfg) with
  | error er =>
    rw [startAllServicesM_err o Option.none _ er ht]
    rfl
  | ok sorted =>
    rw [startAllServicesM_ok o Option.none _ sorted ht]
    obtain ⟨_, _, hcov, hcl⟩ := topoSortD_ok _ sorted ht
    exact startLoop_unknown o sorted (initDaemon cfg) u (hcl e (hcov e he) u hu) htu hsu

/-- C4 amended witness: the demo configuration with an unresolved name. -/
theorem claim4_witness :
    ("b" ∈ rootNames cfgMissing ∧ "missing" ∈ depsOf cfgMissing "b" ∧
      "missing" ∉ rootNames cfgMissing) ∧
    (startAllServicesM oFail Option.none (initDaemon cfgMissing)).2.isSome = true :=
  ⟨⟨by decide, by decide, by decide⟩,
    claim4_amended cfgMissing "b" "missing" (by decide) (by decide) (by decide) oFail⟩

/-- C3: when a live service's process exits with code `code` while the
daemon is not shutting down, the policy is not `never`, and not (code 0
with policy other than `always`): the restart count is incremented; if it
now exceeds maxRestarts the status becomes crashed, lastError records the
final exit code, and no restart is scheduled; otherwise lastError records
the exit code and a restart is scheduled after
min(1000ms * 2^(restarts-1), 30000ms). A scheduled timer, when it fires,
re-invokes startService unless shutdown has begun by then. -/
theorem claim3_restart_policy_engine (st : DaemonSt) (name : String) (code : Option Int)
    (m0 : ManagedService) (hget : alGet st.services name = some m0)
    (hsd : st.shuttingDown = false)
    (hnev : m0.config.restartPolicy.getD .onFailure ≠ .never)
    (hc0 : ¬ (code = some 0 ∧ m0.config.restartPolicy.getD .onFailure ≠ .always)) :
    (∃ m', alGet (handleExitM name code st).services name = some m' ∧
      m'.process = Option.none ∧
      m'.state.restarts = m0.state.restarts + 1 ∧
      (m0.state.restarts + 1 > m0.config.maxRestarts.getD 10 →
        m'.state.status = .crashed ∧
        m'.state.lastError = some ("Exceeded max restarts after exit code " ++ codeStr code) ∧
        (handleExitM name code st).pendingRestarts = st.pendingRestarts) ∧
      (m0.state.restarts + 1 ≤ m0.config.maxRestarts.getD 10 →
        m'.state.lastError = some ("Exit code " ++ codeStr code) ∧
        (handleExitM name code st).pendingRestarts =
          st.pendingRestarts ++ [(name, min (1000 * 2 ^ m0.state.restarts) 30000)])) ∧
    (∀ (o : Oracle) (st2 : DaemonSt) (delay : Nat), (name, delay) ∈ st2.pendingRestarts →
      (st2.shuttingDown = true →
        stepM o st2 (.timerFire name delay) =
          some { st2 with pendingRestarts := st2.pendingRestarts.erase (name, delay) }) ∧
      (st2.shuttingDown = false →
        stepM o st2 (.timerFire name delay) =
          some (startServiceM o name
            { st2 with pendingRestarts := st2.pendingRestarts.erase (name, delay) }).1)) := by
  constructor
  · rw [handleExitM_some name code st m0 hget]
    rw [if_neg (by rw [hsd]; exact Bool.false_ne_true)]
    rw [if_neg hnev]
    rw [if_neg hc0]
    by_cases hmax : m0.state.restarts + 1 > m0.config.maxRestarts.getD 10
    · rw [if_pos hmax]
      refine ⟨{ m0 with
                process := Option.none,
                state := { m0.state with
                           pid := Option.none, status := .crashed,
                           restarts := m0.state.restarts + 1,
                           lastError := some ("Exceeded max restarts after exit code " ++ codeStr code) } },
        ?_, rfl, rfl, fun _ => ⟨rfl, rfl, rfl⟩, fun hle => absurd hmax (by omega)⟩
      show alGet (alUpd st.services name _) name = _
      rw [alGet_alUpd_self _ _ m0 _ hget]
    · rw [if_neg hmax]
      refine ⟨{ m0 with
                process := Option.none,
                state := { m0.state with
                           pid := Option.none,
                           restarts := m0.state.restarts + 1,
                           lastError := some ("Exit code " ++ codeStr code) } },
        ?_, rfl, rfl, fun hgt => absurd hgt hmax, fun _ => ⟨rfl, rfl⟩⟩
      show alGet (alUpd st.services name _) name = _
      rw [alGet_alUpd_self _ _ m0 _ hget]
  · intro o st2 delay hmem
    constructor
    · intro hsd2
      show (if (name, delay) ∈ st2.pendingRestarts then
          (if st2.shuttingDown = true
           then some { st2 with pendingRestarts := st2.pendingRestarts.erase (name, delay) }
           else some (startServiceM o name
             { st2 with pendingRestarts := st2.pendingRestarts.erase (name, delay) }).1)
        else Option.none) =
        some { st2 with pendingRestarts := st2.pendingRestarts.erase (name, delay) }
      rw [if_pos hmem, if_pos hsd2]
    · intro hsd2
      show (if (name, delay) ∈ st2.pendingRestarts then
          (if st2.shuttingDown = true
           then some { st2 with pendingRestarts := st2.pendingRestarts.erase (name, delay) }
           else some (startServiceM o name
             { st2 with pendingRestarts := st2.pendingRestarts.erase (name, delay) }).1)
        else Option.none) =
        some (startServiceM o name
          { st2 with pendingRestarts := st2.pendingRestarts.erase (name, delay) }).1
      rw [if_pos hmem, if_neg (by rw [hsd2]; exact Bool.false_ne_true)]

/-- C3 witness: the live demo service, exit code 1 under the default
policy. -/
theorem claim3_witness :
    ∃ m', alGet (handleExitM "s" (some 1) stLive).services "s" = some m' ∧
      m'.state.restarts = 1 ∧ m'.state.lastError = some "Exit code 1" ∧
      (handleExitM "s" (some 1) stLive).pendingRestarts = [("s", 1000)] := by
  obtain ⟨⟨m', hget2, hproc, hres, hcr, hsch⟩, htimer⟩ :=
    claim3_restart_policy_engine stLive "s" (some 1) _ rfl rfl (by decide) (by decide)
  obtain ⟨hle, hpend⟩ := hsch (by decide)
  refine ⟨m', hget2, ?_, hle, ?_⟩
  · rw [hres]
  · rw [hpend]
    rfl

/-- C9: a stop command for a name with no live service process (unknown
name, task name, or service without a process) replies ok and leaves the
state entirely unchanged. -/
theorem claim9_stop_without_live_process (o : Oracle) (st : DaemonSt) (name : String)
    (h : ∀ m, alGet st.services name = some m → m.process = Option.none) :
    handleCommandM o (.stop (some name)) st = (st, ⟨true, Option.none⟩) := by
  show (stopServiceM o name st, (⟨true, Option.none⟩ : Resp)) = (st, ⟨true, Option.none⟩)
  cases hg : alGet st.services name with
  | none => rw [stopServiceM_none o name st hg]
  | some m =>
    rw [stopServiceM_some o name st m hg]
    rw [if_neg (by rw [h m hg]; exact Bool.false_ne_true)]

/-- C9 witness: stopping an unknown name on the live demo state. -/
theorem claim9_witness :
    handleCommandM oDemo (.stop (some "ghost")) stLive = (stLive, ⟨true, Option.none⟩) :=
  claim9_stop_without_live_process oDemo stLive "ghost"
    (fun m hm => Option.noConfusion hm)

/-- C10: a service spec omitting restartPolicy is handled as `on-failure`
(exit 0 stops it without a restart; a failing exit increments the count),
and omitting maxRestarts gives the limit 10: the status becomes crashed
exactly when the incremented restart count exceeds 10. -/
theorem claim10_defaults (st : DaemonSt) (name : String) (code : Option Int)
    (m0 : ManagedService) (hget : alGet st.services name = some m0)
    (hsd : st.shuttingDown = false)
    (hpol : m0.config.restartPolicy = Option.none)
    (hmax : m0.config.maxRestarts = Option.none)
    (hncr : m0.state.status ≠ .crashed) :
    (code = some 0 →
      handleExitM name code st =
        updSvc st name
          { m0 with process := Option.none,
                    state := { m0.state with pid := Option.none, status := .stopped } }) ∧
    (code ≠ some 0 →
      ∃ m', alGet (handleExitM name code st).services name = some m' ∧
        m'.state.restarts = m0.state.restarts + 1 ∧
        (m'.state.status = .crashed ↔ m0.state.restarts + 1 > 10) ∧
        (m0.state.restarts + 1 ≤ 10 →
          (handleExitM name code st).pendingRestarts =
            st.pendingRestarts ++ [(name, min (1000 * 2 ^ m0.state.restarts) 30000)])) := by
  have hpol2 : m0.config.restartPolicy.getD .onFailure = .onFailure := by
    rw [hpol]
    rfl
  have hmax2 : m0.config.maxRestarts.getD 10 = 10 := by
    rw [hmax]
    rfl
  rw [handleExitM_some name code st m0 hget]
  rw [if_neg (by rw [hsd]; exact Bool.false_ne_true)]
  rw [hpol2, hmax2]
  rw [if_neg (by decide : ¬ (RestartPolicy.onFailure = RestartPolicy.never))]
  constructor
  · intro hc0
    rw [if_pos ⟨hc0, by decide⟩]
  · intro hc0
    rw [if_neg (fun hand => hc0 hand.1)]
    by_cases hm : m0.state.restarts + 1 > 10
    · rw [if_pos hm]
      refine ⟨{ m0 with
                process := Option.none,
                state := { m0.state with
                           pid := Option.none, status := .crashed,
                           restarts := m0.state.restarts + 1,
                           lastError := some ("Exceeded max restarts after exit code " ++ codeStr code) } },
        ?_, rfl, Iff.intro (fun _ => hm) (fun _ => rfl), fun hle => absurd hm (by omega)⟩
      show alGet (alUpd st.services name _) name = _
      rw [alGet_alUpd_self _ _ m0 _ hget]
    · rw [if_neg hm]
      refine ⟨{ m0 with
                process := Option.none,
                state := { m0.state with
                           pid := Option.none,
                           restarts := m0.state.restarts + 1,
                           lastError := some ("Exit code " ++ codeStr code) } },
        ?_, rfl, Iff.intro (fun hcr => absurd hcr hncr) (fun hgt => absurd hgt hm),
        fun _ => rfl⟩
      show alGet (alUpd st.services name _) name = _
      rw [alGet_alUpd_self _ _ m0 _ hget]

/-- C10 witness: the live demo service omits both fields; a failing exit
increments the count to 1 and schedules a restart, far from crashed. -/
theorem claim10_witness :
    ∃ m', alGet (handleExitM "s" (some 5) stLive).services "s" = some m' ∧
      m'.state.restarts = 1 ∧ (m'.state.status = .crashed ↔ (0 : Nat) + 1 > 10) := by
  obtain ⟨hzero, hfail⟩ :=
    claim10_defaults stLive "s" (some 5) _ rfl rfl rfl rfl (by decide)
  obtain ⟨m', hget2, hres, hiff, _⟩ := hfail (by decide)
  exact ⟨m', hget2, hres, hiff⟩

/-- Probe filtering distributes over event append. -/
theorem probesFor_append (k : String) (evs1 evs2 : List Ev) :
    probesFor k (evs1 ++ evs2) = probesFor k evs1 ++ probesFor k evs2 := by
  unfold probesFor
  rw [List.filter_append]

/-- A probe of another service contributes no probes of `k`. -/
theorem probesFor_probe_other (k j : String) (hc : HealthCheck) (hjk : j ≠ k) :
    probesFor k [Ev.probe j hc] = [] := by
  unfold probesFor
  simp [hjk]

/-- A health tick of another service changes neither our entry nor our
probe history. -/
theorem healthTickSvc_other (o : Oracle) (st : DaemonSt) (j k : String) (hjk : j ≠ k) :
    alGet (healthTickSvc o st j).services k = alGet st.services k ∧
    probesFor k (healthTickSvc o st j).events = probesFor k st.events := by
  cases hg : alGet st.services j with
  | none => rw [healthTickSvc_none o st j hg]; exact ⟨rfl, rfl⟩
  | some mj =>
    rw [healthTickSvc_some o st j mj hg]
    by_cases hp : mj.process.isSome = true
    · rw [if_pos hp]
      have hne : k ≠ j := fun hc => hjk hc.symm
      cases hhc : mj.config.healthCheck with
      | none =>
        rw [setSvcStatus_some st j _ mj hg]
        exact ⟨alGet_alUpd_ne _ _ _ _ hne, rfl⟩
      | some hc =>
        cases hc with
        | none =>
          rw [setSvcStatus_some st j _ mj hg]
          exact ⟨alGet_alUpd_ne _ _ _ _ hne, rfl⟩
        | port p =>
          have hg2 : alGet (addEv st (.probe j (.port p))).services j = some mj := hg
          show alGet (setSvcStatus (addEv st (.probe j (.port p))) j
                (if o.portInUse p = true then ServiceStatus.healthy else ServiceStatus.unhealthy)).services k =
              alGet st.services k ∧
            probesFor k (setSvcStatus (addEv st (.probe j (.port p))) j
                (if o.portInUse p = true then ServiceStatus.healthy else ServiceStatus.unhealthy)).events =
              probesFor k st.events
          rw [setSvcStatus_some _ j _ mj hg2]
          refine ⟨alGet_alUpd_ne _ _ _ _ hne, ?_⟩
          show probesFor k (st.events ++ [Ev.probe j (.port p)]) = probesFor k st.events
          rw [probesFor_append, probesFor_probe_other k j _ hjk, List.append_nil]
        | http u =>
          have hg2 : alGet (addEv st (.probe j (.http u))).services j = some mj := hg
          show alGet (setSvcStatus (addEv st (.probe j (.http u))) j
                (if o.httpOk u = true then ServiceStatus.healthy else ServiceStatus.unhealthy)).services k =
              alGet st.services k ∧
            probesFor k (setSvcStatus (addEv st (.probe j (.http u))) j
                (if o.httpOk u = true then ServiceStatus.healthy else ServiceStatus.unhealthy)).events =
              probesFor k st.events
          rw [setSvcStatus_some _ j _ mj hg2]
          refine ⟨alGet_alUpd_ne _ _ _ _ hne, ?_⟩
          show probesFor k (st.events ++ [Ev.probe j (.http u)]) = probesFor k st.events
          rw [probesFor_append, probesFor_probe_other k j _ hjk, List.append_nil]
    · rw [if_neg hp]; exact ⟨rfl, rfl⟩

/-- Walking the health-check pass over any key list: a live service whose
check is absent or `none` ends healthy once its key is ticked, with no
probe of it ever performed. -/
theorem healthFold_none (o : Oracle) (name : String) :
    ∀ (L : List String) (st : DaemonSt) (m : ManagedService),
      alGet st.services name = some m → m.process.isSome = true →
      (m.config.healthCheck = Option.none ∨ m.config.healthCheck = some HealthCheck.none) →
      ((alGet (L.foldl (healthTickSvc o) st).services name = some m ∨
        alGet (L.foldl (healthTickSvc o) st).services name =
          some { m with state := { m.state with status := .healthy } }) ∧
       (name ∈ L → alGet (L.foldl (healthTickSvc o) st).services name =
          some { m with state := { m.state with status := .healthy } }) ∧
       probesFor name (L.foldl (healthTickSvc o) st).events = probesFor name st.events) := by
  intro L
  induction L with
  | nil =>
    intro st m hget hp hhc
    exact ⟨Or.inl hget, fun hmem => absurd hmem (List.not_mem_nil name), rfl⟩
  | cons j L ih =>
    intro st m hget hp hhc
    rw [List.foldl_cons]
    by_cases hjn : j = name
    · subst hjn
      have htick : healthTickSvc o st j =
          updSvc st j { m with state := { m.state with status := .healthy } } := by
        rw [healthTickSvc_some o st j m hget, if_pos hp]
        rcases hhc with h | h
        · rw [h]
          rw [setSvcStatus_some st j _ m hget]
        · rw [h]
          rw [setSvcStatus_some st j _ m hget]
      have hget1 : alGet (healthTickSvc o st j).services j =
          some { m with state := { m.state with status := .healthy } } := by
        rw [htick]
        exact alGet_alUpd_self _ _ m _ hget
      obtain ⟨hd, _, hpr⟩ := ih (healthTickSvc o st j)
        { m with state := { m.state with status := .healthy } } hget1 hp hhc
      have hsame : ({ m with state := { m.state with status := .healthy } } : ManagedService) =
          { { m with state := { m.state with status := .healthy } } with
            state := { ({ m with state := { m.state with status := .healthy } } : ManagedService).state
                       with status := .healthy } } := rfl
      have hfinal : alGet (L.foldl (healthTickSvc o) (healthTickSvc o st j)).services j =
          some { m with state := { m.state with status := .healthy } } := by
        rcases hd with h | h
        · exact h
        · rw [h]
      have hprev : probesFor j (healthTickSvc o st j).events = probesFor j st.events := by
        rw [htick]
        rfl
      exact ⟨Or.inr hfinal, fun _ => hfinal, hpr.trans hprev⟩
    · obtain ⟨ho1, ho2⟩ := healthTickSvc_other o st j name hjn
      have hget1 : alGet (healthTickSvc o st j).services name = some m := by
        rw [ho1]
        exact hget
      obtain ⟨hd, hmem, hpr⟩ := ih (healthTickSvc o st j) m hget1 hp hhc
      refine ⟨hd, ?_, hpr.trans ho2⟩
      intro hin
      rcases List.mem_cons.mp hin with h1 | h1
      · exact absurd h1.symm hjn
      · exact hmem h1

/-- C7 counterexample to the claim as stated: right after startService
spawns a service whose health check has type none, its status is
`starting`, not `healthy` — it only becomes healthy at the next
health-check pass. -/
theorem claim7_counterexample :
    (alGet ((handleCommandM oDemo (.start (some "web")) (initDaemon cfgSolo)).1).services "web").map
        (fun m => (m.config.healthCheck, m.process.isSome, m.state.status)) =
      some (some HealthCheck.none, true, ServiceStatus.starting) ∧
    ServiceStatus.starting ≠ ServiceStatus.healthy := by
  decide

/-- C7 amended: for a service with a live process whose health check is
absent or of type none, the next health-check pass sets its status to
healthy without performing any probe of it (and nothing else about the
entry changes). -/
theorem claim7_amended (o : Oracle) (st : DaemonSt) (name : String) (m : ManagedService)
    (hget : alGet st.services name = some m) (hp : m.process.isSome = true)
    (hhc : m.config.healthCheck = Option.none ∨ m.config.healthCheck = some HealthCheck.none) :
    alGet (runHealthChecksM o st).services name =
      some { m with state := { m.state with status := .healthy } } ∧
    probesFor name (runHealthChecksM o st).events = probesFor name st.events := by
  have hkey : name ∈ st.services.map Prod.fst := alGet_some_key _ _ _ hget
  obtain ⟨_, hmem, hpr⟩ :=
    healthFold_none o name (st.services.map Prod.fst) st m hget hp hhc
  exact ⟨hmem hkey, hpr⟩

/-- C7 amended witness: the live demo service has no health check and
turns healthy at the pass, probe-free. -/
theorem claim7_witness :
    alGet (runHealthChecksM oDemo stLive).services "s" =
      some { config := { name := "s", command := "./s", cwd := Option.none, env := [],
                         healthCheck := Option.none, dependsOn := Option.none,
                         restartPolicy := Option.none, maxRestarts := Option.none }
             process := some 7
             state := { status := .healthy, pid := some 7, restarts := 0,
                        lastError := Option.none } } ∧
    probesFor "s" (runHealthChecksM oDemo stLive).events = probesFor "s" stLive.events := by
  have := claim7_amended oDemo stLive "s" _ rfl rfl (Or.inl rfl)
  exact this

theorem evolves_runTrace (o : Oracle) : ∀ (es : List DEvent) (st st' : DaemonSt),
    runTrace o st es = some st' → Evolves st st' := by
  intro es
  induction es with
  | nil =>
    intro st st' h
    unfold runTrace at h
    rw [← Option.some.inj h]
    exact evolves_refl st
  | cons e es ih =>
    intro st st' h
    unfold runTrace at h
    cases hs : stepM o st e with
    | none => rw [hs] at h; cases h
    | some st1 =>
      rw [hs] at h
      exact evolves_trans (evolves_stepM o st e st1 hs) (ih st1 st' h)

/-- C6 counterexample to the claim as stated: the lifetime at-most-once
property fails once start requests overlap. In `cfgRace` (task `t`
depending on task `setup`), two client connections both invoke
`runTask "t"` while `setup` is still pending: both pass the
completed/failed and in-flight guards (nothing is written before the
dependency wait suspends) and both suspend polling `setup`. A third
request runs `setup` to completion; the first invocation resumes, spawns
`t` and completes it — and when the second resumes, no guard is re-run
after the dependency wait, so it spawns `t`'s command a second time and
flips the completed task back to running. The final state carries two
spawn events for `t`. -/
theorem claim6_counterexample :
    ((mrun oDemo ⟨initDaemon cfgRace, []⟩
        [.beginTask "t", .beginTask "t", .beginTask "setup",
         .exitRun 2, .pollRun 0, .exitRun 0, .pollRun 1]).map
      (fun s => (spawnCount s.daemon "t",
                 (alGet s.daemon.tasks "t").map (fun m => m.state.status))))
      = some (2, some .running) ∧
    ¬ (2 ≤ 1) := by
  decide

/-- C6 amended: the per-request behavior holds — a start request against a
task whose status is completed or failed is a no-op returning the state
unchanged with no error, and a start request against an already-running
(in-flight) task merely waits on the existing run (same task map and same
event log, so no second process is spawned) — and the task's command is
spawned at most once across the daemon's lifetime *provided client
commands are processed without overlap*: along every enabled trace of
serialized events from a freshly constructed daemon, the spawn count of
the task is at most one. The unrestricted lifetime property is refuted by
`claim6_counterexample`: two start requests overlapping a dependency wait
both pass the guards and spawn the command twice. -/
theorem claim6_amended (o : Oracle) (name : String) :
    (∀ (st : DaemonSt) (m : ManagedTask), alGet st.tasks name = some m →
      (m.state.status = .completed ∨ m.state.status = .failed) →
      runTaskM o name st = (st, Option.none)) ∧
    (∀ (st : DaemonSt) (m : ManagedTask), alGet st.tasks name = some m →
      ¬ (m.state.status = .completed ∨ m.state.status = .failed) →
      m.process.isSome = true →
      runTaskM o name st = waitForReadyM o name st ∧
      ((waitForReadyM o name st).1).tasks = st.tasks ∧
      ((waitForReadyM o name st).1).events = st.events) ∧
    (∀ (cfg : Config) (es : List DEvent) (st' : DaemonSt),
      runTrace o (initDaemon cfg) es = some st' → spawnCount st' name ≤ 1) := by
  refine ⟨?_, ?_, ?_⟩
  · intro st m hget hdone
    rw [runTaskM_some o name st m hget, if_pos hdone]
  · intro st m hget hnd hp
    have hfr := waitForReadyM_frame o name st
    refine ⟨?_, hfr.1, hfr.2.1⟩
    rw [runTaskM_some o name st m hget, if_neg hnd, if_pos hp]
  · intro cfg es st' hrun
    have hev := evolves_runTrace o es (initDaemon cfg) st' hrun
    have hb := (hev.2.2.2.2 name).1
    have hzero : spawnCount (initDaemon cfg) name = 0 := by
      simp [spawnCount, initDaemon]
    omega

/-- Witness for the amended C6 at concrete inputs: a start request against
the completed demo task is a no-op, and after a serialized trace with two
start requests for the demo task it has been spawned at most once. -/
theorem claim6_witness :
    runTaskM oDemo "t" stDone = (stDone, Option.none) ∧
    spawnCount ((runTrace oDemo (initDaemon cfgDemo)
      [.command (.start (some "migrate")), .command (.start (some "migrate"))]).getD stDone)
      "migrate" ≤ 1 := by
  refine ⟨(claim6_amended oDemo "t").1 stDone _ rfl (Or.inl rfl), ?_⟩
  exact (claim6_amended oDemo "migrate").2.2 cfgDemo
    [.command (.start (some "migrate")), .command (.start (some "migrate"))]
    ((runTrace oDemo (initDaemon cfgDemo)
      [.command (.start (some "migrate")), .command (.start (some "migrate"))]).getD stDone)
    rfl

/-- Setting another service's status leaves this key's entry alone. -/
theorem setSvcStatus_other (st : DaemonSt) (j k : String) (s : ServiceStatus) (hjk : j ≠ k) :
    alGet (setSvcStatus st j s).services k = alGet st.services k := by
  cases hg : alGet st.services j with
  | none => rw [setSvcStatus_none st j s hg]
  | some mj =>
    rw [setSvcStatus_some st j s mj hg]
    exact alGet_alUpd_ne _ _ _ _ (fun hc => hjk hc.symm)

/-- handleExit for one service never touches another service's entry. -/
theorem handleExitM_other (j : String) (code : Option Int) (st : DaemonSt) (k : String)
    (hjk : j ≠ k) :
    alGet (handleExitM j code st).services k = alGet st.services k := by
  have hne : k ≠ j := fun hc => hjk hc.symm
  cases hg : alGet st.services j with
  | none => rw [handleExitM_none j code st hg]
  | some m0 =>
    rw [handleExitM_some j code st m0 hg]
    split_ifs <;> exact alGet_alUpd_ne _ _ _ _ hne

/-- stopService never touches a service entry that has no live process
(any target: an entry with no process is its own stop's no-op case). -/
theorem stopServiceM_frozen (o : Oracle) (j : String) (st : DaemonSt) (k : String)
    (mk : ManagedService) (hk : alGet st.services k = some mk)
    (hp : mk.process = Option.none) :
    alGet (stopServiceM o j st).services k = some mk := by
  cases hg : alGet st.services j with
  | none => rw [stopServiceM_none o j st hg]; exact hk
  | some mj =>
    rw [stopServiceM_some o j st mj hg]
    by_cases hpj : mj.process.isSome = true
    · rw [if_pos hpj]
      by_cases hjk : j = k
      · subst hjk
        rw [hg] at hk
        cases hk
        rw [hp] at hpj
        simp at hpj
      · have h1 : alGet (addEv st (.kill j)).services k = some mk := hk
        rw [setSvcStatus_other _ j k _ hjk, handleExitM_other j _ _ k hjk]
        exact h1
    · rw [if_neg hpj]
      exact hk

/-- The reverse-order stop walk never touches a processless entry. -/
theorem stopFold_frozen (o : Oracle) (k : String) :
    ∀ (L : List String) (st : DaemonSt) (mk : ManagedService),
      alGet st.services k = some mk → mk.process = Option.none →
      alGet (L.foldl (fun s n => stopServiceM o n s) st).services k = some mk := by
  intro L
  induction L with
  | nil => intro st mk hk _; exact hk
  | cons j L ih =>
    intro st mk hk hp
    rw [List.foldl_cons]
    exact ih (stopServiceM o j st) mk (stopServiceM_frozen o j st k mk hk hp) hp

/-- stopAllServices never touches a processless entry. -/
theorem stopAllM_frozen (o : Oracle) (st : DaemonSt) (k : String) (mk : ManagedService)
    (hk : alGet st.services k = some mk) (hp : mk.process = Option.none) :
    alGet ((stopAllServicesM o st).1).services k = some mk := by
  cases he : topoSortD st with
  | error e => rw [stopAllServicesM_err o st e he]; exact hk
  | ok sorted =>
    rw [stopAllServicesM_ok o st sorted he]
    exact stopFold_frozen o k sorted.reverse st mk hk hp

/-- shutdown never touches a processless entry. -/
theorem shutdownM_frozen (o : Oracle) (st : DaemonSt) (k : String) (mk : ManagedService)
    (hk : alGet st.services k = some mk) (hp : mk.process = Option.none) :
    alGet (shutdownM o st).services k = some mk := by
  unfold shutdownM
  by_cases hsd : st.shuttingDown = true
  · rw [if_pos hsd]; exact hk
  · rw [if_neg hsd]
    exact stopAllM_frozen o { st with shuttingDown := true } k mk hk hp

/-- A health tick never touches a processless entry. -/
theorem healthTickSvc_frozen (o : Oracle) (st : DaemonSt) (j k : String)
    (mk : ManagedService) (hk : alGet st.services k = some mk)
    (hp : mk.process = Option.none) :
    alGet (healthTickSvc o st j).services k = some mk := by
  by_cases hjk : j = k
  · subst hjk
    rw [healthTickSvc_some o st j mk hk]
    rw [if_neg (by rw [hp]; simp)]
    exact hk
  · rw [(healthTickSvc_other o st j k hjk).1]
    exact hk

/-- The health-check walk never touches a processless entry. -/
theorem healthFold_frozen (o : Oracle) (k : String) :
    ∀ (L : List String) (st : DaemonSt) (mk : ManagedService),
      alGet st.services k = some mk → mk.process = Option.none →
      alGet (L.foldl (healthTickSvc o) st).services k = some mk := by
  intro L
  induction L with
  | nil => intro st mk hk _; exact hk
  | cons j L ih =>
    intro st mk hk hp
    rw [List.foldl_cons]
    exact ih (healthTickSvc o st j) mk (healthTickSvc_frozen o st j k mk hk hp) hp

/-- runHealthChecks never touches a processless entry. -/
theorem runHealthChecksM_frozen (o : Oracle) (st : DaemonSt) (k : String) (mk : ManagedService)
    (hk : alGet st.services k = some mk) (hp : mk.process = Option.none) :
    alGet (runHealthChecksM o st).services k = some mk := by
  unfold runHealthChecksM
  exact healthFold_frozen o k (st.services.map Prod.fst) st mk hk hp

/-- startService for a *different* name never touches a processless
entry. -/
theorem startServiceM_frozen (o : Oracle) (j : String) (st : DaemonSt) (k : String)
    (mk : ManagedService) (hjk : j ≠ k) (hk : alGet st.services k = some mk)
    (hp : mk.process = Option.none) :
    alGet ((startServiceM o j st).1).services k = some mk := by
  have hne : k ≠ j := fun hc => hjk hc.symm
  cases hg : alGet st.services j with
  | none => rw [startServiceM_unknown o j st hg]; exact hk
  | some mj =>
    rw [startServiceM_some o j st mj hg]
    by_cases hpj : mj.process.isSome = true
    · rw [if_pos hpj]; exact hk
    · rw [if_neg hpj]
      cases hw : waitDepsM o (mj.config.dependsOn.getD []) st with
      | mk st1 err =>
        have hk1 : alGet st1.services k = some mk := by
          have := waitDepsM_svc_noproc o (mj.config.dependsOn.getD []) st k mk hk hp
          rw [hw] at this
          exact this
        cases err with
        | some e => exact hk1
        | none =>
          cases hhc : mj.config.healthCheck with
          | none =>
            show alGet (alUpd st1.services j _) k = some mk
            rw [alGet_alUpd_ne _ _ _ _ hne]
            exact hk1
          | some hc =>
            cases hc with
            | port p =>
              show alGet (alUpd st1.services j _) k = some mk
              rw [alGet_alUpd_ne _ _ _ _ hne]
              exact hk1
            | http u =>
              show alGet (alUpd st1.services j _) k = some mk
              rw [alGet_alUpd_ne _ _ _ _ hne]
              exact hk1
            | none =>
              show alGet (alUpd st1.services j _) k = some mk
              rw [alGet_alUpd_ne _ _ _ _ hne]
              exact hk1

/-- A command that is not a start/restart request for service `n` never
touches `n`'s entry when that entry has no live process. -/
theorem handleCommandM_frozen (o : Oracle) (c : Command) (st : DaemonSt) (n : String)
    (mk : ManagedService) (hne : NonStartEvent n (.command c))
    (hk : alGet st.services n = some mk) (hp : mk.process = Option.none) :
    alGet ((handleCommandM o c st).1).services n = some mk := by
  cases c with
  | status => exact hk
  | start s => exact False.elim hne
  | restart s => exact False.elim hne
  | stop s =>
    cases s with
    | none =>
      show alGet ((respOf (stopAllServicesM o st)).1).services n = some mk
      rw [respOf_fst]
      exact stopAllM_frozen o st n mk hk hp
    | some j => exact stopServiceM_frozen o j st n mk hk hp
  | logs s lines =>
    by_cases h : o.logExists s = true
    · show alGet ((if o.logExists s then (st, _) else (st, _)).1).services n = some mk
      rw [if_pos h]; exact hk
    · show alGet ((if o.logExists s then (st, _) else (st, _)).1).services n = some mk
      rw [if_neg h]; exact hk
  | down => exact hk

/-- C8 counterexample to the claim as stated: with one service whose
maxRestarts is 1, the trace start / exit 1 / start / exit 1 leaves the
service `crashed` — but the restart timer scheduled by the *first* exit is
still pending, and when it fires (no external stop or start request
involved) the service is respawned and its status becomes `starting`
again. `crashed` is therefore not permanent until an explicit external
stop/start: a stale restart timer can revive the service. -/
theorem claim8_counterexample :
    ((runTrace oFail (initDaemon cfgSolo)
        [.command (.start (some "web")), .exitEv "web" (some 1),
         .command (.start (some "web")), .exitEv "web" (some 1)]).map
      (fun st => ((alGet st.services "web").map (fun m => m.state.status), st.pendingRestarts)))
      = some (some .crashed, [("web", 1000)]) ∧
    ((runTrace oFail (initDaemon cfgSolo)
        [.command (.start (some "web")), .exitEv "web" (some 1),
         .command (.start (some "web")), .exitEv "web" (some 1),
         .timerFire "web" 1000]).map
      (fun st => (alGet st.services "web").map (fun m => m.state.status)))
      = some (some .starting) ∧
    ServiceStatus.starting ≠ ServiceStatus.crashed := by
  decide

/-- C8 amended: the restart count of every service is monotonically
non-decreasing along every enabled event trace; and a crashed service
entry with no live process is left completely unchanged by any single
enabled step that is neither an explicit start/restart command nor the
firing of one of that service's own pending restart timers. -/
theorem claim8_amended (o : Oracle) (n : String) :
    (∀ (st : DaemonSt) (es : List DEvent) (st' : DaemonSt),
      runTrace o st es = some st' → svcRestarts st n ≤ svcRestarts st' n) ∧
    (∀ (st st' : DaemonSt) (e : DEvent) (m : ManagedService),
      NonStartEvent n e → stepM o st e = some st' →
      alGet st.services n = some m → m.process = Option.none →
      m.state.status = .crashed →
      alGet st'.services n = some m) := by
  refine ⟨?_, ?_⟩
  · intro st es st' hrun
    exact (evolves_runTrace o es st st' hrun).2.2.1 n
  · intro st st' e m hne hstep hget hp _
    cases e with
    | command c =>
      have h2 : some (handleCommandM o c st).1 = some st' := hstep
      rw [← Option.some.inj h2]
      exact handleCommandM_frozen o c st n m hne hget hp
    | exitEv j code =>
      have h2 : (match alGet st.services j with
        | some mj => if mj.process.isSome = true then some (handleExitM j code st) else Option.none
        | Option.none => Option.none) = some st' := hstep
      cases hgj : alGet st.services j with
      | none => rw [hgj] at h2; cases h2
      | some mj =>
        rw [hgj] at h2
        have h3 : (if mj.process.isSome = true then some (handleExitM j code st) else Option.none) =
            some st' := h2
        by_cases hpj : mj.process.isSome = true
        · rw [if_pos hpj] at h3
          rw [← Option.some.inj h3]
          by_cases hjn : j = n
          · subst hjn
            rw [hget] at hgj
            cases hgj
            rw [hp] at hpj
            simp at hpj
          · rw [handleExitM_other j code st n hjn]
            exact hget
        · rw [if_neg hpj] at h3; cases h3
    | timerFire k d =>
      have hkn : k ≠ n := hne
      have h2 : (if (k, d) ∈ st.pendingRestarts then
          (if st.shuttingDown = true
           then some { st with pendingRestarts := st.pendingRestarts.erase (k, d) }
           else some (startServiceM o k { st with pendingRestarts := st.pendingRestarts.erase (k, d) }).1)
        else Option.none) = some st' := hstep
      by_cases hmem : (k, d) ∈ st.pendingRestarts
      · rw [if_pos hmem] at h2
        by_cases hsd : st.shuttingDown = true
        · rw [if_pos hsd] at h2
          rw [← Option.some.inj h2]
          exact hget
        · rw [if_neg hsd] at h2
          rw [← Option.some.inj h2]
          exact startServiceM_frozen o k _ n m hkn hget hp
      · rw [if_neg hmem] at h2; cases h2
    | healthTick =>
      have h2 : (if st.shuttingDown = true then Option.none else some (runHealthChecksM o st)) =
          some st' := hstep
      by_cases hsd : st.shuttingDown = true
      · rw [if_pos hsd] at h2; cases h2
      · rw [if_neg hsd] at h2
        rw [← Option.some.inj h2]
        exact runHealthChecksM_frozen o st n m hget hp
    | shutdownEv =>
      have h2 : some (shutdownM o st) = some st' := hstep
      rw [← Option.some.inj h2]
      exact shutdownM_frozen o st n m hget hp

/-- Witness for the amended C8 at concrete inputs: along a one-exit trace
from the live demo state the restart count does not decrease, and a
health tick on the crashed demo state leaves the crashed entry exactly as
it was. -/
theorem claim8_witness :
    svcRestarts stLive "s" ≤
      svcRestarts ((runTrace oFail stLive [.exitEv "s" (some 1)]).getD stLive) "s" ∧
    alGet ((stepM oFail stCrashed .healthTick).getD stCrashed).services "web" =
      alGet stCrashed.services "web" := by
  refine ⟨(claim8_amended oFail "s").1 stLive [.exitEv "s" (some 1)]
    ((runTrace oFail stLive [.exitEv "s" (some 1)]).getD stLive) rfl, ?_⟩
  exact (claim8_amended oFail "web").2 stCrashed
    ((stepM oFail stCrashed .healthTick).getD stCrashed) .healthTick _
    True.intro rfl rfl rfl rfl

/-- A present key always has a lookup result. -/
theorem alGet_isSome_of_key {β : Type} (l : List (String × β)) (k : String)
    (h : k ∈ l.map Prod.fst) : (alGet l k).isSome = true := by
  induction l with
  | nil => simp at h
  | cons p t ih =>
    obtain ⟨k0, c⟩ := p
    rw [alGet_cons]
    by_cases hk : k0 = k
    · rw [if_pos hk]; rfl
    · rw [if_neg hk]
      simp only [List.map_cons, List.mem_cons] at h
      rcases h with h | h
      · exact absurd h.symm hk
      · exact ih h

/-- Updating any key preserves absent lookups. -/
theorem alUpd_none_pres {β : Type} (l : List (String × β)) (d k : String) (b : β)
    (h : alGet l k = Option.none) : alGet (alUpd l d b) k = Option.none := by
  cases h2 : alGet (alUpd l d b) k with
  | none => rfl
  | some v =>
    have hkey := alGet_some_key _ _ _ h2
    rw [alUpd_keys] at hkey
    have h3 := alGet_isSome_of_key l k hkey
    rw [h] at h3
    simp at h3

/-- Any value looked up in a keyed map image is an image value. -/
theorem alGet_map_entry {α β : Type} (f : α → String) (g : α → β) :
    ∀ (L : List α) (k : String) (v : β),
      alGet (L.map (fun a => (f a, g a))) k = some v → ∃ a, v = g a := by
  intro L
  induction L with
  | nil => intro k v h; cases h
  | cons a t ih =>
    intro k v h
    have h2 : alGet ((f a, g a) :: t.map (fun a => (f a, g a))) k = some v := h
    rw [alGet_cons] at h2
    by_cases hk : f a = k
    · rw [if_pos hk] at h2
      exact ⟨a, (Option.some.inj h2).symm⟩
    · rw [if_neg hk] at h2
      exact ih k v h2

/-- Every task entry of a fresh daemon is pending with no process. -/
theorem initDaemon_task_entry (cfg : Config) (k : String) (m : ManagedTask)
    (h : alGet (initDaemon cfg).tasks k = some m) :
    m.process = Option.none ∧ m.state.status = .pending := by
  obtain ⟨t, hv⟩ := alGet_map_entry (fun t : TaskConfig => t.name)
    (fun t : TaskConfig => ({ config := t, process := Option.none
                              state := { status := .pending, pid := Option.none,
                                         exitCode := Option.none,
                                         lastError := Option.none } } : ManagedTask))
    cfg.tasks k m h
  rw [hv]
  exact ⟨rfl, rfl⟩

/-- Every service entry of a fresh daemon is pending with no process. -/
theorem initDaemon_svc_entry (cfg : Config) (k : String) (m : ManagedService)
    (h : alGet (initDaemon cfg).services k = some m) :
    m.process = Option.none ∧ m.state.status = .pending := by
  obtain ⟨s, hv⟩ := alGet_map_entry (fun s : ServiceConfig => s.name)
    (fun s : ServiceConfig => ({ config := s, process := Option.none
                                 state := { status := .pending, pid := Option.none,
                                            restarts := 0,
                                            lastError := Option.none } } : ManagedService))
    cfg.services k m h
  rw [hv]
  exact ⟨rfl, rfl⟩

/-- On a name declared as a task only, the dependency function agrees with
the task's own dependency list. -/
theorem depsOfD_task (st : DaemonSt) (n : String) (m : ManagedTask)
    (ht : alGet st.tasks n = some m) (hs : alGet st.services n = Option.none) :
    depsOfD st n = m.config.dependsOn.getD [] := by
  unfold depsOfD
  rw [ht, hs]
  rw [Option.some_bind]
  cases hd : m.config.dependsOn with
  | some l => rfl
  | none => rfl

/-- On a name declared as a service only, the dependency function agrees
with the service's own dependency list. -/
theorem depsOfD_svc (st : DaemonSt) (n : String) (m : ManagedService)
    (ht : alGet st.tasks n = Option.none) (hs : alGet st.services n = some m) :
    depsOfD st n = m.config.dependsOn.getD [] := by
  unfold depsOfD
  rw [ht, hs]
  rw [Option.none_bind, Option.some_bind]
  cases hd : m.config.dependsOn with
  | some l => rfl
  | none => rfl

/-- waitForReady never invents a service entry. -/
theorem waitForReadyM_none_pres (o : Oracle) (d : String) (st : DaemonSt) (k : String)
    (h : alGet st.services k = Option.none) :
    alGet ((waitForReadyM o d st).1).services k = Option.none := by
  cases ht : alGet st.tasks d with
  | some t =>
    rw [waitForReadyM_task o d st t ht]
    split_ifs <;> exact h
  | none =>
    cases hs : alGet st.services d with
    | some m =>
      rw [waitForReadyM_svc o d st m ht hs]
      split_ifs with h1 h2
      · exact h
      · rw [setSvcStatus_some st d .healthy m hs]
        show alGet (alUpd st.services d _) k = Option.none
        exact alUpd_none_pres _ _ _ _ h
      · exact h
    | none =>
      rw [waitForReadyM_unknown o d st ht hs]
      exact h

/-- waitForReady preserves the started observation at every name. -/
theorem waitForReadyM_pres_started (o : Oracle) (d : String) (st : DaemonSt) (k : String)
    (h : StartedD st k) : StartedD (waitForReadyM o d st).1 k := by
  cases ht : alGet st.tasks d with
  | some t =>
    rw [waitForReadyM_task o d st t ht]
    split_ifs <;> exact h
  | none =>
    cases hs : alGet st.services d with
    | some m =>
      rw [waitForReadyM_svc o d st m ht hs]
      split_ifs with h1 h2
      · exact h
      · rw [setSvcStatus_some st d .healthy m hs]
        rcases h with ⟨mt, hmt, hcm⟩ | ⟨htn, ms, hms, hproc, hst⟩
        · exact Or.inl ⟨mt, hmt, hcm⟩
        · by_cases hdk : d = k
          · subst hdk
            rw [hs] at hms
            cases hms
            exact Or.inr ⟨htn, { m with state := { m.state with status := .healthy } },
              alGet_alUpd_self _ _ m _ hs, hproc, Or.inr rfl⟩
          · refine Or.inr ⟨htn, ms, ?_, hproc, hst⟩
            show alGet (alUpd st.services d _) k = some ms
            rw [alGet_alUpd_ne _ _ _ _ (fun hcon => hdk hcon.symm)]
            exact hms
      · exact h
    | none =>
      rw [waitForReadyM_unknown o d st ht hs]
      exact h

/-- waitForReady succeeds on a started dependency whenever every health
check would report healthy. -/
theorem waitForReadyM_started_ok (o : Oracle) (d : String) (st : DaemonSt)
    (hhc : ∀ c, hcHealthy o c = true) (hd : StartedD st d) :
    (waitForReadyM o d st).2 = Option.none := by
  rcases hd with ⟨mt, hmt, hcm⟩ | ⟨htn, m, hm, hproc, hst⟩
  · rw [waitForReadyM_task o d st mt hmt, if_pos hcm]
  · rw [waitForReadyM_svc o d st m htn hm]
    rcases hst with h1 | h1
    · rw [if_neg (by rw [h1]; intro hcon; cases hcon)]
      rw [if_pos (by rw [hproc, hhc m.config]; rfl)]
    · rw [if_pos h1]

/-- waitForReady leaves a key whose entry (if any) has no live process
with exactly the lookup it had. -/
theorem waitForReadyM_noproc_eq (o : Oracle) (d : String) (st : DaemonSt) (k : String)
    (h : ∀ mk, alGet st.services k = some mk → mk.process = Option.none) :
    alGet ((waitForReadyM o d st).1).services k = alGet st.services k := by
  cases hk : alGet st.services k with
  | none => exact waitForReadyM_none_pres o d st k hk
  | some mk => exact waitForReadyM_svc_noproc o d st k mk hk (h mk hk)

/-- The dependency wait loop succeeds when every waited-on name is
started. -/
theorem waitDepsM_started_ok (o : Oracle) (hhc : ∀ c, hcHealthy o c = true) :
    ∀ (ds : List String) (st : DaemonSt),
      (∀ d ∈ ds, StartedD st d) →
      (waitDepsM o ds st).2 = Option.none := by
  intro ds
  induction ds with
  | nil => intro st _; rfl
  | cons d ds ih =>
    intro st hds
    unfold waitDepsM
    cases hw : waitForReadyM o d st with
    | mk st1 err =>
      have herr : err = Option.none := by
        have h0 := waitForReadyM_started_ok o d st hhc (hds d (List.mem_cons_self d ds))
        rw [hw] at h0
        exact h0
      subst herr
      refine ih st1 (fun d' hd' => ?_)
      have h0 := waitForReadyM_pres_started o d st d' (hds d' (List.mem_cons_of_mem d hd'))
      rw [hw] at h0
      exact h0

/-- The dependency wait loop preserves the started observation. -/
theorem waitDepsM_pres_started (o : Oracle) :
    ∀ (ds : List String) (st : DaemonSt) (k : String),
      StartedD st k → StartedD (waitDepsM o ds st).1 k := by
  intro ds
  induction ds with
  | nil => intro st k h; exact h
  | cons d ds ih =>
    intro st k h
    unfold waitDepsM
    cases hw : waitForReadyM o d st with
    | mk st1 err =>
      have h1 : StartedD st1 k := by
        have h0 := waitForReadyM_pres_started o d st k h
        rw [hw] at h0
        exact h0
      cases err with
      | none => exact ih st1 k h1
      | some e => exact h1

/-- The dependency wait loop leaves a key whose entry (if any) has no live
process with exactly the lookup it had. -/
theorem waitDepsM_noproc_eq (o : Oracle) :
    ∀ (ds : List String) (st : DaemonSt) (k : String),
      (∀ mk, alGet st.services k = some mk → mk.process = Option.none) →
      alGet ((waitDepsM o ds st).1).services k = alGet st.services k := by
  intro ds
  induction ds with
  | nil => intro st k _; rfl
  | cons d ds ih =>
    intro st k h
    unfold waitDepsM
    cases hw : waitForReadyM o d st with
    | mk st1 err =>
      have h1 : alGet st1.services k = alGet st.services k := by
        have h0 := waitForReadyM_noproc_eq o d st k h
        rw [hw] at h0
        exact h0
      cases err with
      | none =>
        rw [← h1]
        exact ih st1 k (fun mk hmk => h mk (h1 ▸ hmk))
      | some e => exact h1

/-- Starting a pending task whose dependencies are all started succeeds:
the task completes, other task entries are untouched, service entries
without a live process are untouched, and started entities stay
started. -/
theorem runTaskM_pending_ok (o : Oracle) (n : String) (st : DaemonSt) (m : ManagedTask)
    (hhc : ∀ c, hcHealthy o c = true) (hexit : o.taskExit n = some 0)
    (hget : alGet st.tasks n = some m)
    (hstatus : m.state.status = .pending) (hproc : m.process = Option.none)
    (hdeps : ∀ d ∈ m.config.dependsOn.getD [], StartedD st d) :
    (runTaskM o n st).2 = Option.none ∧
    (∀ k, k ≠ n → alGet ((runTaskM o n st).1).tasks k = alGet st.tasks k) ∧
    (∀ k, (∀ mk, alGet st.services k = some mk → mk.process = Option.none) →
      alGet ((runTaskM o n st).1).services k = alGet st.services k) ∧
    (∀ k, StartedD st k → StartedD (runTaskM o n st).1 k) ∧
    StartedD (runTaskM o n st).1 n := by
  have hnd : ¬ (m.state.status = .completed ∨ m.state.status = .failed) := by
    intro hcon
    rcases hcon with h | h <;> (rw [hstatus] at h; cases h)
  have hps : ¬ (m.process.isSome = true) := by
    rw [hproc]; simp
  cases hw : waitDepsM o (m.config.dependsOn.getD []) st with
  | mk st1 err =>
    have hfr := waitDepsM_frame o (m.config.dependsOn.getD []) st
    rw [hw] at hfr
    have herr : err = Option.none := by
      have h0 := waitDepsM_started_ok o hhc (m.config.dependsOn.getD []) st hdeps
      rw [hw] at h0
      exact h0
    subst herr
    have hget1 : alGet st1.tasks n = some m := by
      rw [hfr.1]; exact hget
    have heq : runTaskM o n st =
        (updTask (addEv
            { updTask st1 n
                { m with process := some st1.nextPid,
                         state := { m.state with status := .running, pid := some st1.nextPid } }
              with nextPid := st1.nextPid + 1 } (.spawnTask n)) n
          { m with process := Option.none,
                   state := { status := .completed, pid := Option.none,
                              exitCode := some 0, lastError := m.state.lastError } },
         Option.none) := by
      rw [runTaskM_some o n st m hget, if_neg hnd, if_neg hps, hw, hexit]
      rfl
    rw [heq]
    refine ⟨rfl, ?_, ?_, ?_, ?_⟩
    · intro k hk
      show alGet (alUpd (alUpd st1.tasks n _) n _) k = alGet st.tasks k
      rw [alGet_alUpd_ne _ _ _ _ hk, alGet_alUpd_ne _ _ _ _ hk, hfr.1]
    · intro k hnp
      show alGet st1.services k = alGet st.services k
      have h0 := waitDepsM_noproc_eq o (m.config.dependsOn.getD []) st k hnp
      rw [hw] at h0
      exact h0
    · intro k hks
      by_cases hk : k = n
      · subst hk
        rcases hks with ⟨mt, hmt, hcm⟩ | ⟨htn0, _⟩
        · rw [hget] at hmt
          cases hmt
          rw [hstatus] at hcm
          cases hcm
        · rw [hget] at htn0
          cases htn0
      · have hks1 : StartedD st1 k := by
          have h0 := waitDepsM_pres_started o (m.config.dependsOn.getD []) st k hks
          rw [hw] at h0
          exact h0
        rcases hks1 with ⟨mt, hmt, hcm⟩ | ⟨htn1, ms, hms, hp1, hs1⟩
        · refine Or.inl ⟨mt, ?_, hcm⟩
          show alGet (alUpd (alUpd st1.tasks n _) n _) k = some mt
          rw [alGet_alUpd_ne _ _ _ _ hk, alGet_alUpd_ne _ _ _ _ hk]
          exact hmt
        · refine Or.inr ⟨?_, ms, hms, hp1, hs1⟩
          show alGet (alUpd (alUpd st1.tasks n _) n _) k = Option.none
          rw [alGet_alUpd_ne _ _ _ _ hk, alGet_alUpd_ne _ _ _ _ hk]
          exact htn1
    · refine Or.inl
        ⟨{ m with process := Option.none,
                  state := { status := .completed, pid := Option.none,
                             exitCode := some 0, lastError := m.state.lastError } }, ?_, rfl⟩
      have h1 : alGet (alUpd st1.tasks n
          { m with process := some st1.nextPid,
                   state := { m.state with status := .running, pid := some st1.nextPid } }) n =
          some { m with process := some st1.nextPid,
                        state := { m.state with status := .running, pid := some st1.nextPid } } :=
        alGet_alUpd_self _ _ m _ hget1
      exact alGet_alUpd_self _ _ _ _ h1

/-- Properties of the spawn step of startService, stated for any base
state `stB` that agrees with the post-wait state `st1` on tasks and
services (the base may carry an extra kill-port event). -/
theorem spawnSvc_props (n : String) (st st1 stB : DaemonSt) (m : ManagedService)
    (hBt : stB.tasks = st1.tasks) (hBs : stB.services = st1.services)
    (hfrT : st1.tasks = st.tasks)
    (hget1 : alGet st1.services n = some m)
    (hsvc1 : ∀ k, (∀ mk, alGet st.services k = some mk → mk.process = Option.none) →
      alGet st1.services k = alGet st.services k)
    (hstarted1 : ∀ k, StartedD st k → StartedD st1 k)
    (htn : alGet st.tasks n = Option.none)
    (hgets : alGet st.services n = some m) (hproc : m.process = Option.none) :
    ∀ (mNew : ManagedService) (p : Nat),
      mNew = { m with process := some stB.nextPid,
                      state := { m.state with status := .starting, pid := some stB.nextPid } } →
      (∀ k, alGet (addEv { updSvc stB n mNew with nextPid := p } (.spawnService n)).tasks k =
        alGet st.tasks k) ∧
      (∀ k, k ≠ n → (∀ mk, alGet st.services k = some mk → mk.process = Option.none) →
        alGet (addEv { updSvc stB n mNew with nextPid := p } (.spawnService n)).services k =
          alGet st.services k) ∧
      (∀ k, StartedD st k →
        StartedD (addEv { updSvc stB n mNew with nextPid := p } (.spawnService n)) k) ∧
      StartedD (addEv { updSvc stB n mNew with nextPid := p } (.spawnService n)) n := by
  intro mNew p hmn
  subst hmn
  refine ⟨?_, ?_, ?_, ?_⟩
  · intro k
    show alGet stB.tasks k = alGet st.tasks k
    rw [hBt, hfrT]
  · intro k hk hnp
    show alGet (alUpd stB.services n _) k = alGet st.services k
    rw [alGet_alUpd_ne _ _ _ _ hk, hBs]
    exact hsvc1 k hnp
  · intro k hks
    by_cases hk : k = n
    · subst hk
      rcases hks with ⟨mt, hmt, _⟩ | ⟨_, ms, hms, hp1, _⟩
      · rw [htn] at hmt
        cases hmt
      · rw [hgets] at hms
        cases hms
        rw [hproc] at hp1
        simp at hp1
    · have hks1 := hstarted1 k hks
      rcases hks1 with ⟨mt, hmt, hcm⟩ | ⟨htn1, ms, hms, hp1, hs1⟩
      · refine Or.inl ⟨mt, ?_, hcm⟩
        show alGet stB.tasks k = some mt
        rw [hBt]
        exact hmt
      · refine Or.inr ⟨?_, ms, ?_, hp1, hs1⟩
        · show alGet stB.tasks k = Option.none
          rw [hBt]
          exact htn1
        · show alGet (alUpd stB.services n _) k = some ms
          rw [alGet_alUpd_ne _ _ _ _ hk, hBs]
          exact hms
  · refine Or.inr
      ⟨?_, { m with process := some stB.nextPid,
                    state := { m.state with status := .starting, pid := some stB.nextPid } },
        ?_, rfl, Or.inl rfl⟩
    · show alGet stB.tasks n = Option.none
      rw [hBt, hfrT]
      exact htn
    · have hgB : alGet stB.services n = some m := by
        rw [hBs]; exact hget1
      exact alGet_alUpd_self _ _ m _ hgB

/-- Starting a pending service whose dependencies are all started
succeeds: the service is spawned in starting state, tasks are untouched,
other processless service entries are untouched, and started entities
stay started. -/
theorem startServiceM_pending_ok (o : Oracle) (n : String) (st : DaemonSt) (m : ManagedService)
    (hhc : ∀ c, hcHealthy o c = true)
    (htn : alGet st.tasks n = Option.none)
    (hgets : alGet st.services n = some m) (hproc : m.process = Option.none)
    (hdeps : ∀ d ∈ m.config.dependsOn.getD [], StartedD st d) :
    (startServiceM o n st).2 = Option.none ∧
    (∀ k, alGet ((startServiceM o n st).1).tasks k = alGet st.tasks k) ∧
    (∀ k, k ≠ n → (∀ mk, alGet st.services k = some mk → mk.process = Option.none) →
      alGet ((startServiceM o n st).1).services k = alGet st.services k) ∧
    (∀ k, StartedD st k → StartedD (startServiceM o n st).1 k) ∧
    StartedD (startServiceM o n st).1 n := by
  have hps : ¬ (m.process.isSome = true) := by
    rw [hproc]; simp
  rw [startServiceM_some o n st m hgets, if_neg hps]
  cases hw : waitDepsM o (m.config.dependsOn.getD []) st with
  | mk st1 err =>
    have hfr := waitDepsM_frame o (m.config.dependsOn.getD []) st
    rw [hw] at hfr
    have herr : err = Option.none := by
      have h0 := waitDepsM_started_ok o hhc (m.config.dependsOn.getD []) st hdeps
      rw [hw] at h0
      exact h0
    subst herr
    have hget1 : alGet st1.services n = some m := by
      have h0 := waitDepsM_noproc_eq o (m.config.dependsOn.getD []) st n
        (fun mk hmk => by rw [hgets] at hmk; cases hmk; exact hproc)
      rw [hw] at h0
      rw [h0]
      exact hgets
    have hsvc1 : ∀ k, (∀ mk, alGet st.services k = some mk → mk.process = Option.none) →
        alGet st1.services k = alGet st.services k := by
      intro k hnp
      have h0 := waitDepsM_noproc_eq o (m.config.dependsOn.getD []) st k hnp
      rw [hw] at h0
      exact h0
    have hstarted1 : ∀ k, StartedD st k → StartedD st1 k := by
      intro k hks
      have h0 := waitDepsM_pres_started o (m.config.dependsOn.getD []) st k hks
      rw [hw] at h0
      exact h0
    cases hhc0 : m.config.healthCheck with
    | none =>
      obtain ⟨hA, hB2, hC, hD⟩ := spawnSvc_props n st st1 st1 m rfl rfl hfr.1 hget1
        hsvc1 hstarted1 htn hgets hproc _ _ rfl
      exact ⟨rfl, hA, hB2, hC, hD⟩
    | some hc =>
      cases hc with
      | port p0 =>
        obtain ⟨hA, hB2, hC, hD⟩ := spawnSvc_props n st st1 (addEv st1 (.killPort p0)) m
          rfl rfl hfr.1 hget1 hsvc1 hstarted1 htn hgets hproc _ _ rfl
        exact ⟨rfl, hA, hB2, hC, hD⟩
      | http u =>
        obtain ⟨hA, hB2, hC, hD⟩ := spawnSvc_props n st st1 st1 m rfl rfl hfr.1 hget1
          hsvc1 hstarted1 htn hgets hproc _ _ rfl
        exact ⟨rfl, hA, hB2, hC, hD⟩
      | none =>
        obtain ⟨hA, hB2, hC, hD⟩ := spawnSvc_props n st st1 st1 m rfl rfl hfr.1 hget1
          hsvc1 hstarted1 htn hgets hproc _ _ rfl
        exact ⟨rfl, hA, hB2, hC, hD⟩

/-- A decomposition of a filtered list lifts to a decomposition of the
original list whose prefix filters to the given prefix. -/
theorem filter_decomp (p : String → Bool) :
    ∀ (r a b : List String) (n : String), r.filter p = a ++ n :: b →
      ∃ u v, r = u ++ n :: v ∧ u.filter p = a := by
  intro r
  induction r with
  | nil =>
    intro a b n h
    rw [List.filter_nil] at h
    have hl := congrArg List.length h
    rw [List.length_append, List.length_cons] at hl
    simp only [List.length_nil] at hl
    omega
  | cons x t ih =>
    intro a b n h
    rw [List.filter_cons] at h
    by_cases hx : p x = true
    · rw [if_pos hx] at h
      cases a with
      | nil =>
        rw [List.nil_append] at h
        have hxn := (List.cons.inj h).1
        subst hxn
        exact ⟨[], t, rfl, rfl⟩
      | cons a0 a2 =>
        rw [List.cons_append] at h
        have hxa := (List.cons.inj h).1
        have ht := (List.cons.inj h).2
        obtain ⟨u, v, hru, hfu⟩ := ih a2 b n ht
        refine ⟨x :: u, v, ?_, ?_⟩
        · rw [hru]; rfl
        · rw [List.filter_cons, if_pos hx, hfu, hxa]
    · rw [if_neg hx] at h
      obtain ⟨u, v, hru, hfu⟩ := ih a b n h
      refine ⟨x :: u, v, ?_, ?_⟩
      · rw [hru]; rfl
      · rw [List.filter_cons, if_neg hx, hfu]

/-- The start loop over a duplicate-free list of pristine declared names
whose dependencies are listed before them (or already processed) starts
every listed entity and touches nothing else. -/
theorem startLoop_pending_ok (o : Oracle) (st0 : DaemonSt)
    (hhc : ∀ c, hcHealthy o c = true) (hexit : ∀ n, o.taskExit n = some 0)
    (hpT : ∀ k m, alGet st0.tasks k = some m → m.process = Option.none ∧ m.state.status = .pending)
    (hpS : ∀ k m, alGet st0.services k = some m → m.process = Option.none ∧ m.state.status = .pending)
    (hdisj : ∀ k, alGet st0.tasks k ≠ Option.none → alGet st0.services k = Option.none) :
    ∀ (L done : List String) (st : DaemonSt),
      (∀ k, k ∉ done → alGet st.tasks k = alGet st0.tasks k ∧
        alGet st.services k = alGet st0.services k) →
      (∀ k, k ∈ done → StartedD st k) →
      (∀ n0, n0 ∈ L → n0 ∉ done) →
      L.Nodup →
      (∀ n0, n0 ∈ L → ¬ (alGet st0.tasks n0 = Option.none ∧ alGet st0.services n0 = Option.none)) →
      (∀ a n0 b, L = a ++ n0 :: b → ∀ d ∈ depsOfD st0 n0, d ∈ done ∨ d ∈ a) →
      (startLoop o L st).2 = Option.none ∧
      (∀ k, k ∉ done → k ∉ L →
        alGet ((startLoop o L st).1).tasks k = alGet st0.tasks k ∧
        alGet ((startLoop o L st).1).services k = alGet st0.services k) ∧
      (∀ k, k ∈ done ∨ k ∈ L → StartedD (startLoop o L st).1 k) := by
  intro L
  induction L with
  | nil =>
    intro done st hpr hst _ _ _ _
    refine ⟨rfl, fun k hk _ => hpr k hk, fun k hk => ?_⟩
    rcases hk with hk | hk
    · exact hst k hk
    · cases hk
  | cons n L ih =>
    intro done st hpr hst hnd hnodup hdecl hdeporder
    have hnin : n ∉ done := hnd n (List.mem_cons_self n L)
    obtain ⟨hprT, hprS⟩ := hpr n hnin
    have hdeps : ∀ d ∈ depsOfD st0 n, StartedD st d := by
      intro d hd
      rcases hdeporder [] n L rfl d hd with h | h
      · exact hst d h
      · cases h
    unfold startLoop
    cases hT : alGet st0.tasks n with
    | some mt =>
      have hTst : alGet st.tasks n = some mt := by rw [hprT]; exact hT
      have hS0 : alGet st0.services n = Option.none :=
        hdisj n (by rw [hT]; intro hcon; cases hcon)
      have hit : isTaskD st n = true := by
        unfold isTaskD
        rw [hTst]
        rfl
      rw [if_pos hit]
      obtain ⟨hmp, hms⟩ := hpT n mt hT
      have hdeps2 : ∀ d ∈ mt.config.dependsOn.getD [], StartedD st d := by
        intro d hd
        refine hdeps d ?_
        rw [depsOfD_task st0 n mt hT hS0]
        exact hd
      obtain ⟨hA, hB2, hC, hD, hE⟩ :=
        runTaskM_pending_ok o n st mt hhc (hexit n) hTst hms hmp hdeps2
      cases hr : runTaskM o n st with
      | mk st1 err =>
        rw [hr] at hA hB2 hC hD hE
        have herr : err = Option.none := hA
        subst herr
        have hpr1 : ∀ k, k ∉ done ++ [n] →
            alGet st1.tasks k = alGet st0.tasks k ∧
            alGet st1.services k = alGet st0.services k := by
          intro k hk
          rw [List.mem_append, List.mem_singleton] at hk
          push_neg at hk
          obtain ⟨hk1, hk2⟩ := hk
          obtain ⟨hq1, hq2⟩ := hpr k hk1
          refine ⟨?_, ?_⟩
          · rw [hB2 k hk2]
            exact hq1
          · have hnp : ∀ mk, alGet st.services k = some mk → mk.process = Option.none := by
              intro mk hmk
              exact (hpS k mk (hq2 ▸ hmk)).1
            rw [hC k hnp]
            exact hq2
        have hst1 : ∀ k, k ∈ done ++ [n] → StartedD st1 k := by
          intro k hk
          rw [List.mem_append, List.mem_singleton] at hk
          rcases hk with hk | hk
          · exact hD k (hst k hk)
          · subst hk
            exact hE
        have hnd1 : ∀ n0, n0 ∈ L → n0 ∉ done ++ [n] := by
          intro n0 hn0
          rw [List.mem_append, List.mem_singleton]
          push_neg
          refine ⟨hnd n0 (List.mem_cons_of_mem n hn0), ?_⟩
          intro hcon
          exact (List.nodup_cons.mp hnodup).1 (hcon ▸ hn0)
        have hdeporder1 : ∀ a n0 b, L = a ++ n0 :: b →
            ∀ d ∈ depsOfD st0 n0, d ∈ done ++ [n] ∨ d ∈ a := by
          intro a n0 b hab d hd
          rcases hdeporder (n :: a) n0 b (by rw [hab]; rfl) d hd with h | h
          · left; exact List.mem_append_left _ h
          · rcases List.mem_cons.mp h with h2 | h2
            · left
              rw [List.mem_append, List.mem_singleton]
              right
              exact h2
            · right; exact h2
        obtain ⟨hA', hB', hC'⟩ := ih (done ++ [n]) st1 hpr1 hst1 hnd1
          (List.nodup_cons.mp hnodup).2
          (fun n0 hn0 => hdecl n0 (List.mem_cons_of_mem n hn0)) hdeporder1
        refine ⟨hA', ?_, ?_⟩
        · intro k hk hkL
          refine hB' k ?_ (fun hcon => hkL (List.mem_cons_of_mem n hcon))
          rw [List.mem_append, List.mem_singleton]
          push_neg
          refine ⟨hk, ?_⟩
          intro hcon
          exact hkL (by rw [hcon]; exact List.mem_cons_self n L)
        · intro k hk
          refine hC' k ?_
          rcases hk with hk | hk
          · left; exact List.mem_append_left _ hk
          · rcases List.mem_cons.mp hk with h2 | h2
            · left
              rw [List.mem_append, List.mem_singleton]
              right
              exact h2
            · right; exact h2
    | none =>
      have hS0 : ∃ msv, alGet st0.services n = some msv := by
        have hd2 := hdecl n (List.mem_cons_self n L)
        cases hS : alGet st0.services n with
        | none => exact absurd ⟨hT, hS⟩ hd2
        | some msv => exact ⟨msv, rfl⟩
      obtain ⟨msv, hS⟩ := hS0
      have hTst : alGet st.tasks n = Option.none := by rw [hprT]; exact hT
      have hSst : alGet st.services n = some msv := by rw [hprS]; exact hS
      have hit : isTaskD st n = false := by
        unfold isTaskD
        rw [hTst]
        rfl
      rw [if_neg (by rw [hit]; simp)]
      obtain ⟨hmp, _⟩ := hpS n msv hS
      have hdeps2 : ∀ d ∈ msv.config.dependsOn.getD [], StartedD st d := by
        intro d hd
        refine hdeps d ?_
        rw [depsOfD_svc st0 n msv hT hS]
        exact hd
      obtain ⟨hA, hB2, hC, hD, hE⟩ :=
        startServiceM_pending_ok o n st msv hhc hTst hSst hmp hdeps2
      cases hr : startServiceM o n st with
      | mk st1 err =>
        rw [hr] at hA hB2 hC hD hE
        have herr : err = Option.none := hA
        subst herr
        have hpr1 : ∀ k, k ∉ done ++ [n] →
            alGet st1.tasks k = alGet st0.tasks k ∧
            alGet st1.services k = alGet st0.services k := by
          intro k hk
          rw [List.mem_append, List.mem_singleton] at hk
          push_neg at hk
          obtain ⟨hk1, hk2⟩ := hk
          obtain ⟨hq1, hq2⟩ := hpr k hk1
          refine ⟨?_, ?_⟩
          · rw [hB2 k]
            exact hq1
          · have hnp : ∀ mk, alGet st.services k = some mk → mk.process = Option.none := by
              intro mk hmk
              exact (hpS k mk (hq2 ▸ hmk)).1
            rw [hC k hk2 hnp]
            exact hq2
        have hst1 : ∀ k, k ∈ done ++ [n] → StartedD st1 k := by
          intro k hk
          rw [List.mem_append, List.mem_singleton] at hk
          rcases hk with hk | hk
          · exact hD k (hst k hk)
          · subst hk
            exact hE
        have hnd1 : ∀ n0, n0 ∈ L → n0 ∉ done ++ [n] := by
          intro n0 hn0
          rw [List.mem_append, List.mem_singleton]
          push_neg
          refine ⟨hnd n0 (List.mem_cons_of_mem n hn0), ?_⟩
          intro hcon
          exact (List.nodup_cons.mp hnodup).1 (hcon ▸ hn0)
        have hdeporder1 : ∀ a n0 b, L = a ++ n0 :: b →
            ∀ d ∈ depsOfD st0 n0, d ∈ done ++ [n] ∨ d ∈ a := by
          intro a n0 b hab d hd
          rcases hdeporder (n :: a) n0 b (by rw [hab]; rfl) d hd with h | h
          · left; exact List.mem_append_left _ h
          · rcases List.mem_cons.mp h with h2 | h2
            · left
              rw [List.mem_append, List.mem_singleton]
              right
              exact h2
            · right; exact h2
        obtain ⟨hA', hB', hC'⟩ := ih (done ++ [n]) st1 hpr1 hst1 hnd1
          (List.nodup_cons.mp hnodup).2
          (fun n0 hn0 => hdecl n0 (List.mem_cons_of_mem n hn0)) hdeporder1
        refine ⟨hA', ?_, ?_⟩
        · intro k hk hkL
          refine hB' k ?_ (fun hcon => hkL (List.mem_cons_of_mem n hcon))
          rw [List.mem_append, List.mem_singleton]
          push_neg
          refine ⟨hk, ?_⟩
          intro hcon
          exact hkL (by rw [hcon]; exact List.mem_cons_self n L)
        · intro k hk
          refine hC' k ?_
          rcases hk with hk | hk
          · left; exact List.mem_append_left _ hk
          · rcases List.mem_cons.mp hk with h2 | h2
            · left
              rw [List.mem_append, List.mem_singleton]
              right
              exact h2
            · right; exact h2

/-- C5: for a well-formed configuration — duplicate-free declared names,
every dependency of a declared entity resolving to a declared name, and an
acyclic dependency graph — and an outside world in which task commands
exit 0 and health checks pass, a start request scoped to a single declared
service transitively starts exactly the entities in that service's
dependency closure plus the service itself: the scoped start succeeds,
every closure member ends started (a task completed, a service spawned
with a live process), and every entity outside the closure still has
status pending. -/
theorem claim5_single_start_closure (cfg : Config) (o : Oracle) (tgt : String)
    (hN : (rootNames cfg).Nodup)
    (hres : ∀ n ∈ rootNames cfg, ∀ d ∈ depsOf cfg n, d ∈ rootNames cfg)
    (hacyc : Acyclic cfg)
    (htgtS : alGet (initDaemon cfg).services tgt ≠ Option.none)
    (htgtT : alGet (initDaemon cfg).tasks tgt = Option.none)
    (hexit : ∀ n, o.taskExit n = some 0) (hhc : ∀ c, hcHealthy o c = true) :
    (startAllServicesM o (some tgt) (initDaemon cfg)).2 = Option.none ∧
    (∀ n, n ∈ getTransitiveDepsD (initDaemon cfg) tgt ∨ n = tgt →
      StartedD ((startAllServicesM o (some tgt) (initDaemon cfg)).1) n) ∧
    (∀ n, ¬ (n ∈ getTransitiveDepsD (initDaemon cfg) tgt ∨ n = tgt) →
      (∀ m, alGet ((startAllServicesM o (some tgt) (initDaemon cfg)).1).tasks n = some m →
        m.state.status = .pending) ∧
      (∀ m, alGet ((startAllServicesM o (some tgt) (initDaemon cfg)).1).services n = some m →
        m.state.status = .pending)) := by
  have hacyc2 : ∀ n, ¬ Relation.TransGen (EdgeF (depsOfD (initDaemon cfg))) n n := hacyc
  obtain ⟨r, hr⟩ := topoSortD_ok_of_acyclic (initDaemon cfg) hacyc2
  obtain ⟨hTopo, hNod, hCov, _⟩ := topoSortD_ok (initDaemon cfg) r hr
  have hp_iff : ∀ n, ((getTransitiveDepsD (initDaemon cfg) tgt ++ [tgt]).contains n = true) ↔
      (n ∈ getTransitiveDepsD (initDaemon cfg) tgt ∨ n = tgt) := by
    intro n
    constructor
    · intro h
      have h2 : n ∈ getTransitiveDepsD (initDaemon cfg) tgt ++ [tgt] := List.elem_iff.mp h
      rcases List.mem_append.mp h2 with h3 | h3
      · exact Or.inl h3
      · exact Or.inr (List.mem_singleton.mp h3)
    · intro h
      refine List.elem_iff.mpr ?_
      rcases h with h3 | h3
      · exact List.mem_append_left _ h3
      · exact List.mem_append_right _ (List.mem_singleton.mpr h3)
  have htgtRoot : tgt ∈ rootsD (initDaemon cfg) := by
    cases hS : alGet (initDaemon cfg).services tgt with
    | none => exact absurd hS htgtS
    | some msv =>
      exact List.mem_append_right _ (alGet_some_key _ _ _ hS)
  have hres2 : ∀ n ∈ rootsD (initDaemon cfg), ∀ d ∈ depsOfD (initDaemon cfg) n,
      d ∈ rootsD (initDaemon cfg) := hres
  have hreach_root : ∀ n, Relation.TransGen (EdgeF (depsOfD (initDaemon cfg))) tgt n →
      n ∈ rootsD (initDaemon cfg) := by
    intro n htg
    induction htg with
    | single h1 =>
      have h1b : _ ∈ depsOfD (initDaemon cfg) tgt := h1
      exact hres2 tgt htgtRoot _ h1b
    | tail h1 h2 ih =>
      have h2b : _ ∈ depsOfD (initDaemon cfg) _ := h2
      exact hres2 _ ih _ h2b
  have hmemroot : ∀ n, n ∈ getTransitiveDepsD (initDaemon cfg) tgt ∨ n = tgt →
      n ∈ rootsD (initDaemon cfg) := by
    intro n hn
    rcases hn with hn | hn
    · exact hreach_root n ((getTransitiveDepsD_spec (initDaemon cfg) tgt n).mp hn)
    · rw [hn]
      exact htgtRoot
  have hclosed : ∀ n, n ∈ getTransitiveDepsD (initDaemon cfg) tgt ∨ n = tgt →
      ∀ d ∈ depsOfD (initDaemon cfg) n, d ∈ getTransitiveDepsD (initDaemon cfg) tgt := by
    intro n hn d hd
    refine (getTransitiveDepsD_spec (initDaemon cfg) tgt d).mpr ?_
    rcases hn with hn | hn
    · exact Relation.TransGen.tail ((getTransitiveDepsD_spec (initDaemon cfg) tgt n).mp hn) hd
    · rw [hn] at hd
      exact Relation.TransGen.single hd
  have hsa : startAllServicesM o (some tgt) (initDaemon cfg) =
      startLoop o (r.filter
        (fun n => (getTransitiveDepsD (initDaemon cfg) tgt ++ [tgt]).contains n))
        (initDaemon cfg) := by
    rw [startAllServicesM_ok o (some tgt) (initDaemon cfg) r hr]
  have hdisj : ∀ k, alGet (initDaemon cfg).tasks k ≠ Option.none →
      alGet (initDaemon cfg).services k = Option.none := by
    intro k hk
    cases hTk : alGet (initDaemon cfg).tasks k with
    | none => exact absurd hTk hk
    | some m =>
      have hkey : k ∈ (initDaemon cfg).tasks.map Prod.fst := alGet_some_key _ _ _ hTk
      have hdis := (List.nodup_append.mp hN).2.2
      refine alGet_none_of_not_key _ _ (fun hcon => ?_)
      exact hdis hkey hcon
  obtain ⟨hA, hB, hC⟩ := startLoop_pending_ok o (initDaemon cfg) hhc hexit
    (fun k m h => initDaemon_task_entry cfg k m h)
    (fun k m h => initDaemon_svc_entry cfg k m h)
    hdisj
    (r.filter (fun n => (getTransitiveDepsD (initDaemon cfg) tgt ++ [tgt]).contains n))
    [] (initDaemon cfg)
    (fun k _ => ⟨rfl, rfl⟩)
    (fun k hk => absurd hk (List.not_mem_nil k))
    (fun n0 _ => List.not_mem_nil n0)
    (List.Nodup.filter _ hNod)
    (by
      intro n0 hn0 hcon
      obtain ⟨hcT, hcS⟩ := hcon
      have hp0 := (List.mem_filter.mp hn0).2
      have hmem : n0 ∈ rootsD (initDaemon cfg) := hmemroot n0 ((hp_iff n0).mp hp0)
      rcases List.mem_append.mp hmem with h | h
      · have h2 := alGet_isSome_of_key _ _ h
        rw [hcT] at h2
        simp at h2
      · have h2 := alGet_isSome_of_key _ _ h
        rw [hcS] at h2
        simp at h2)
    (by
      intro a n0 b hab d hd
      right
      obtain ⟨u, v, hruv, hfu⟩ := filter_decomp
        (fun n => (getTransitiveDepsD (initDaemon cfg) tgt ++ [tgt]).contains n) r a b n0 hab
      have hdu : d ∈ u := hTopo u n0 v hruv d hd
      have hpn0 : n0 ∈ r.filter
          (fun n => (getTransitiveDepsD (initDaemon cfg) tgt ++ [tgt]).contains n) := by
        rw [hab]
        exact List.mem_append_right a (List.mem_cons_self n0 b)
      have hn0c := (hp_iff n0).mp (List.mem_filter.mp hpn0).2
      have hdc : d ∈ getTransitiveDepsD (initDaemon cfg) tgt ∨ d = tgt :=
        Or.inl (hclosed n0 hn0c d hd)
      rw [← hfu]
      exact List.mem_filter.mpr ⟨hdu, (hp_iff d).mpr hdc⟩)
  rw [hsa]
  refine ⟨hA, ?_, ?_⟩
  · intro n hn
    refine hC n (Or.inr ?_)
    refine List.mem_filter.mpr ⟨hCov n (hmemroot n hn), (hp_iff n).mpr hn⟩
  · intro n hn
    have hout : n ∉ r.filter
        (fun k => (getTransitiveDepsD (initDaemon cfg) tgt ++ [tgt]).contains k) := by
      intro hcon
      exact hn ((hp_iff n).mp (List.mem_filter.mp hcon).2)
    obtain ⟨hT2, hS2⟩ := hB n (List.not_mem_nil n) hout
    constructor
    · intro m hm
      rw [hT2] at hm
      exact (initDaemon_task_entry cfg n m hm).2
    · intro m hm
      rw [hS2] at hm
      exact (initDaemon_svc_entry cfg n m hm).2

/-- Witness for C5 at concrete inputs: starting only `web` in the demo
configuration succeeds and starts exactly the migrate task and the web
service, while the unrelated worker service stays pending. -/
theorem claim5_witness :
    (startAllServicesM oDemo (some "web") (initDaemon cfgDemo)).2 = Option.none ∧
    StartedD ((startAllServicesM oDemo (some "web") (initDaemon cfgDemo)).1) "migrate" ∧
    StartedD ((startAllServicesM oDemo (some "web") (initDaemon cfgDemo)).1) "web" ∧
    (∀ m, alGet ((startAllServicesM oDemo (some "web") (initDaemon cfgDemo)).1).services "worker" =
        some m → m.state.status = .pending) := by
  obtain ⟨h1, h2, h3⟩ := claim5_single_start_closure cfgDemo oDemo "web"
    (by decide)
    (by decide)
    (fun n h =>
      topoSortD_acyclic_of_ok (initDaemon cfgDemo) ["migrate", "web", "worker"] (by decide) n h)
    (fun hcon => Option.noConfusion hcon)
    rfl
    (fun n => rfl)
    (fun c => by
      unfold hcHealthy
      cases hcv : c.healthCheck with
      | none => rfl
      | some hcv2 => cases hcv2 <;> rfl)
  exact ⟨h1, h2 "migrate" (Or.inl (by decide)), h2 "web" (Or.inr rfl),
    fun m hm => (h3 "worker" (by decide)).2 m hm⟩

end Sup
